import Mathlib

/-!
# MoveActorDelta and OnScreenTextureAnimation: wire codec

A shallow embedding of `minecraft/protocol/packet/move_actor_delta.go` and
`minecraft/protocol/packet/on_screen_texture_animation.go`.

Conventions of the embedding:

* a `bytes.Buffer` is the list of its unread bytes (`List Nat`, every byte below 256);
  writing appends at the end, reading removes from the front;
* a Go `error` is a `Bool` (`true` for a non-nil error);
* `uint16`, `uint32`, `uint64` are `Nat`, `int32` is `Int`, with explicit reductions
  where the source converts between widths;
* a `float32` is its IEEE-754 binary32 bit pattern, a `Nat` below `2^32`; the few
  float operations the packet uses (comparison with zero, division, multiplication,
  conversion from and to `byte`) are defined on bit patterns with round-to-nearest-even.
-/

namespace packet

/-! ## IEEE-754 binary32 on bit patterns -/

/-- Sign bit of a binary32 pattern. -/
def f32Sign (b : Nat) : Nat := b / 2 ^ 31 % 2

/-- Biased exponent field (8 bits) of a binary32 pattern. -/
def f32Exp (b : Nat) : Nat := b / 2 ^ 23 % 256

/-- Fraction field (23 bits) of a binary32 pattern. -/
def f32Frac (b : Nat) : Nat := b % 2 ^ 23

/-- Pattern is a NaN. -/
def f32IsNaN (b : Nat) : Prop := f32Exp b = 255 ∧ f32Frac b ≠ 0

/-- Pattern is an infinity. -/
def f32IsInf (b : Nat) : Prop := f32Exp b = 255 ∧ f32Frac b = 0

/-- Pattern is neither a NaN nor an infinity. -/
def f32IsFinite (b : Nat) : Prop := f32Exp b ≠ 255

instance (b : Nat) : Decidable (f32IsNaN b) := by unfold f32IsNaN; exact inferInstance
instance (b : Nat) : Decidable (f32IsInf b) := by unfold f32IsInf; exact inferInstance
instance (b : Nat) : Decidable (f32IsFinite b) := by unfold f32IsFinite; exact inferInstance

/-- Magnitude of a finite binary32 pattern, counted in units of `2^-149` (the smallest
subnormal): every finite binary32 value is an integer number of such units. -/
def f32Mag (b : Nat) : Nat :=
  if f32Exp b = 0 then f32Frac b else (2 ^ 23 + f32Frac b) * 2 ^ (f32Exp b - 1)

/-- Signed value of a finite binary32 pattern in units of `2^-149`. -/
def f32Units (b : Nat) : Int :=
  if f32Sign b = 0 then (f32Mag b : Int) else -(f32Mag b : Int)

/-- Value of a finite binary32 pattern as a rational number. -/
def f32Val (b : Nat) : ℚ := (f32Units b : ℚ) / 2 ^ 149

/-- The float comparison `x != 0`: false exactly for `+0.0` and `-0.0` (true for NaN). -/
def f32NeZero (b : Nat) : Prop := ¬ (f32Exp b = 0 ∧ f32Frac b = 0)

instance (b : Nat) : Decidable (f32NeZero b) := by unfold f32NeZero; exact inferInstance

/-- The float comparison `x == y`: two finite floats are equal when their values are
(so `-0.0 == +0.0`), an infinity is equal to itself only, a NaN to nothing. -/
def f32Eq (a b : Nat) : Prop :=
  (f32IsFinite a ∧ f32IsFinite b ∧ f32Units a = f32Units b) ∨ (f32IsInf a ∧ a = b)

instance (a b : Nat) : Decidable (f32Eq a b) := by unfold f32Eq; exact inferInstance

/-- Number of low bits that do not fit a 24-bit significand: the least `s` with
`x / 2^s < 2^24` (the first argument bounds the search and is given as `x`). -/
def f32Shift : Nat → Nat → Nat
  | 0, _ => 0
  | fuel + 1, x => if x < 2 ^ 24 then 0 else f32Shift fuel (x / 2) + 1

/-- Round the non-negative rational `n / d`, counted in units of `2^-149`, to the nearest
binary32 magnitude, ties to even; the result is the pattern without its sign bit, and
`0x7F800000` (infinity) on overflow. Positive patterns are consecutive along the float
line, so a significand that rounds up to `2^24` carries into the exponent field. -/
def f32RoundMag (n d : Nat) : Nat :=
  let s := f32Shift (n / d) (n / d)
  let q := n / (d * 2 ^ s)
  let r := n % (d * 2 ^ s)
  let m := if 2 * r < d * 2 ^ s then q else if d * 2 ^ s < 2 * r then q + 1 else q + q % 2
  min (s * 2 ^ 23 + m) 0x7F800000

/-- Canonical quiet NaN. -/
def f32NaN : Nat := 0x7FC00000

/-- Sign bit of a product or quotient, placed at bit 31. -/
def f32SignXor (a b : Nat) : Nat := (f32Sign a + f32Sign b) % 2 * 2 ^ 31

/-- The float32 quotient `a / b`, rounded to nearest even. -/
def f32Div (a b : Nat) : Nat :=
  if f32IsNaN a ∨ f32IsNaN b then f32NaN
  else if f32IsInf a then (if f32IsInf b then f32NaN else f32SignXor a b + 0x7F800000)
  else if f32IsInf b then f32SignXor a b
  else if f32Mag b = 0 then (if f32Mag a = 0 then f32NaN else f32SignXor a b + 0x7F800000)
  else f32SignXor a b + f32RoundMag (f32Mag a * 2 ^ 149) (f32Mag b)

/-- The float32 product `a * b`, rounded to nearest even. -/
def f32Mul (a b : Nat) : Nat :=
  if f32IsNaN a ∨ f32IsNaN b then f32NaN
  else if f32IsInf a then (if f32Mag b = 0 then f32NaN else f32SignXor a b + 0x7F800000)
  else if f32IsInf b then (if f32Mag a = 0 then f32NaN else f32SignXor a b + 0x7F800000)
  else f32SignXor a b + f32RoundMag (f32Mag a * f32Mag b) (2 ^ 149)

/-- The conversion `float32(w)` of an unsigned integer. -/
def f32OfNat (w : Nat) : Nat := f32RoundMag (w * 2 ^ 149) 1

/-- The conversion `byte(f)` of a float32. A value strictly between `-1` and `256`
is truncated toward zero. For any other value (NaN included) the Go specification leaves
the result implementation-dependent: it is then taken from `impl`, reduced to a byte. -/
def f32ToByte (impl : Nat → Nat) (f : Nat) : Nat :=
  if f32IsFinite f ∧ (if f32Sign f = 0 then f32Mag f < 256 * 2 ^ 149 else f32Mag f < 2 ^ 149)
  then (if f32Sign f = 0 then f32Mag f / 2 ^ 149 else 0)
  else impl f % 256

/-- The function `math.Float32bits`: the pattern itself. -/
def Float32bits (f : Nat) : Nat := f

/-- The function `math.Float32frombits`. -/
def Float32frombits (u : Nat) : Nat := u

/-- The conversion `int32(u)` of a `uint32`: two-complement reinterpretation. -/
def int32 (u : Nat) : Int :=
  if u % 2 ^ 32 < 2 ^ 31 then ((u % 2 ^ 32 : Nat) : Int) else ((u % 2 ^ 32 : Nat) : Int) - 2 ^ 32

/-- The conversion `uint32(v)` of an `int32`: two-complement reinterpretation. -/
def uint32 (v : Int) : Nat := (v % 2 ^ 32).toNat

/-- The untyped constant `360.0 / 256.0` as a float32: `1.40625`, exactly representable. -/
def rotUnit : Nat := 0x3FB40000

/-! ## Buffers and the primitives of package `protocol` -/

/-- Outcome of a read that stores into a pointer: the error, the content of the pointed
variable after the call, and the bytes left unread in the buffer. -/
structure ReadResult (α : Type) where
  err : Bool
  val : α
  rest : List Nat

/-- The call `binary.Write(buf, binary.LittleEndian, x)` for a `uint16`: the two bytes
appended, low byte first. -/
def binaryWriteUint16 (x : Nat) : List Nat := [x % 256, x / 256 % 256]

/-- The call `binary.Write(buf, binary.LittleEndian, b)` for a `byte`: the byte appended. -/
def binaryWriteByte (b : Nat) : List Nat := [b]

/-- The call `binary.Read(buf, binary.LittleEndian, &x)` for a `uint16`: two bytes, low
byte first. With fewer than two bytes left the read fails (`io.EOF` on an empty buffer,
`io.ErrUnexpectedEOF` after one byte), the buffer is drained and `x` keeps its value. -/
def binaryReadUint16 (buf : List Nat) (x : Nat) : ReadResult Nat :=
  match buf with
  | b0 :: b1 :: rest => ⟨false, b0 + b1 * 256, rest⟩
  | _ => ⟨true, x, []⟩

/-- The call `binary.Read(buf, binary.LittleEndian, &w)` for a `byte`: one byte, or
`io.EOF` on an empty buffer, `w` keeping its value. -/
def binaryReadByte (buf : List Nat) (w : Nat) : ReadResult Nat :=
  match buf with
  | b :: rest => ⟨false, b, rest⟩
  | [] => ⟨true, w, []⟩

/-- What the packet code takes from outside the two source files: the variable-length
integer primitives of package `protocol` (`WriteVaruint64`, `Varuint64`, `WriteVarint32`,
`Varint32`) and the platform's result for a float to `byte` conversion whose value does
not fit a byte. A writer is the bytes it appends; a reader takes the unread bytes and the
current content of the pointed variable. -/
structure Env where
  WriteVaruint64 : Nat → List Nat
  Varuint64 : List Nat → Nat → ReadResult Nat
  WriteVarint32 : Int → List Nat
  Varint32 : List Nat → Int → ReadResult Int
  floatToByte : Nat → Nat

/-- Modelled from the spec: `chainErr` is a helper of package `packet` that is not among the
source files. Decoding "fails immediately on any primitive read failure": the chained error
is non-nil exactly when one of the errors is. -/
def chainErr (errs : List Bool) : Bool := errs.any id

/-- Contract of the variable-length primitives: what a writer appended is read back, and
the bytes after it are left unread, whatever the pointed variable held. -/
structure Env.RoundTrips (E : Env) : Prop where
  varuint64 : ∀ x : Nat, x < 2 ^ 64 → ∀ (rest : List Nat) (x0 : Nat),
    E.Varuint64 (E.WriteVaruint64 x ++ rest) x0 = ⟨false, x, rest⟩
  varint32 : ∀ v : Int, -2 ^ 31 ≤ v → v < 2 ^ 31 → ∀ (rest : List Nat) (v0 : Int),
    E.Varint32 (E.WriteVarint32 v ++ rest) v0 = ⟨false, v, rest⟩

/-- Contract of the variable-length readers on truncated input: a buffer that ends
strictly inside an encoding is rejected. -/
structure Env.RejectsTruncation (E : Env) : Prop where
  varuint64 : ∀ x : Nat, x < 2 ^ 64 → ∀ (b t : List Nat) (x0 : Nat), t ≠ [] →
    b ++ t = E.WriteVaruint64 x → (E.Varuint64 b x0).err = true
  varint32 : ∀ v : Int, -2 ^ 31 ≤ v → v < 2 ^ 31 → ∀ (b t : List Nat) (v0 : Int), t ≠ [] →
    b ++ t = E.WriteVarint32 v → (E.Varint32 b v0).err = true

namespace protocol

/-- Modelled from the spec: the writers of package `protocol` are not among the source
files. A "variable-length integer" uses "a variable number of bytes, fewer bytes for
small-magnitude values": groups of seven bits, low group first, bit 7 set on every byte
but the last. The first argument bounds the number of bytes. -/
def writeUvarint : Nat → Nat → List Nat
  | 0, _ => []
  | n + 1, x => if 0x80 ≤ x then (x % 128 + 128) :: writeUvarint n (x / 128) else [x]

/-- Modelled from the spec: the readers of package `protocol` are not among the source
files. Reads at most `n` groups of seven bits into an unsigned integer of `bits` bits,
`i` being the shift of the next group and `v` the value so far; fails when the buffer ends
or no byte without bit 7 comes in time, and then leaves the pointed variable `x0`. -/
def readUvarint (bits : Nat) (x0 : Nat) : Nat → Nat → Nat → List Nat → ReadResult Nat
  | 0, _, _, buf => ⟨true, x0, buf⟩
  | _ + 1, _, _, [] => ⟨true, x0, []⟩
  | n + 1, i, v, b :: bs =>
    let v := (v + b % 128 * 2 ^ i) % 2 ^ bits
    if b < 0x80 then ⟨false, v, bs⟩ else readUvarint bits x0 n (i + 7) v bs

/-- Modelled from the spec: `WriteVaruint64`, at most ten bytes. -/
def WriteVaruint64 (x : Nat) : List Nat := writeUvarint 10 (x % 2 ^ 64)

/-- Modelled from the spec: `Varuint64`, at most ten bytes. -/
def Varuint64 (buf : List Nat) (x : Nat) : ReadResult Nat := readUvarint 64 x 10 0 0 buf

/-- Modelled from the spec: `WriteVarint32`, the "zig-zag" sign-preserving scheme over
at most five bytes: `uint32(x) << 1`, complemented when `x` is negative. -/
def WriteVarint32 (x : Int) : List Nat :=
  let ux := uint32 x * 2 % 2 ^ 32
  let ux := if x < 0 then 2 ^ 32 - 1 - ux else ux
  writeUvarint 5 ux

/-- Modelled from the spec: `Varint32`, the inverse of the zig-zag scheme:
`int32(ux >> 1)`, complemented when the low bit of `ux` is set. -/
def Varint32 (buf : List Nat) (x : Int) : ReadResult Int :=
  let r := readUvarint 32 0 5 0 0 buf
  if r.err then ⟨true, x, r.rest⟩
  else
    let ux := r.val
    let v := int32 (ux / 2)
    ⟨false, if ux % 2 ≠ 0 then -v - 1 else v, r.rest⟩

/-- The result of `byte(f)` on amd64 for a value that does not fit a byte: the float is
truncated to a 32-bit integer (the "integer indefinite" `0x80000000` when it does not
fit one either) of which the low byte is kept. -/
def floatToByte (f : Nat) : Nat :=
  if f32IsFinite f ∧ f32Mag f / 2 ^ 149 < 2 ^ 31
  then (if f32Sign f = 0 then f32Mag f / 2 ^ 149 % 256
        else (256 - f32Mag f / 2 ^ 149 % 256) % 256)
  else 0

end protocol

/-- The primitives of package `protocol` as modelled above. -/
def stdEnv : Env where
  WriteVaruint64 := protocol.WriteVaruint64
  Varuint64 := protocol.Varuint64
  WriteVarint32 := protocol.WriteVarint32
  Varint32 := protocol.Varint32
  floatToByte := protocol.floatToByte

/-! ## MoveActorDelta -/

/-- The flag `moveFlagHasX = 1 << iota`, `iota = 0`. -/
def moveFlagHasX : Nat := 1 <<< 0
/-- The flag `moveFlagHasY`, `iota = 1`. -/
def moveFlagHasY : Nat := 1 <<< 1
/-- The flag `moveFlagHasZ`, `iota = 2`. -/
def moveFlagHasZ : Nat := 1 <<< 2
/-- The flag `moveFlagHasRotX`, `iota = 3`. -/
def moveFlagHasRotX : Nat := 1 <<< 3
/-- The flag `moveFlagHasRotY`, `iota = 4`. -/
def moveFlagHasRotY : Nat := 1 <<< 4
/-- The flag `moveFlagHasRotZ`, `iota = 5`. -/
def moveFlagHasRotZ : Nat := 1 <<< 5

/-- The type `mgl32.Vec3`, an array of three float32: `x`, `y`, `z` are the elements at
index 0, 1, 2. -/
structure Vec3 where
  x : Nat
  y : Nat
  z : Nat
deriving DecidableEq

/-- The zero value `mgl32.Vec3{}`. -/
def Vec3.zero : Vec3 := ⟨0, 0, 0⟩

/-- The packet struct. -/
structure MoveActorDelta where
  EntityRuntimeID : Nat
  DeltaPosition : Vec3
  DeltaRotation : Vec3
deriving DecidableEq

/-- Fields hold values of their Go types: a `uint64` and six float32 patterns. -/
def MoveActorDelta.WF (pk : MoveActorDelta) : Prop :=
  pk.EntityRuntimeID < 2 ^ 64 ∧
  pk.DeltaPosition.x < 2 ^ 32 ∧ pk.DeltaPosition.y < 2 ^ 32 ∧ pk.DeltaPosition.z < 2 ^ 32 ∧
  pk.DeltaRotation.x < 2 ^ 32 ∧ pk.DeltaRotation.y < 2 ^ 32 ∧ pk.DeltaRotation.z < 2 ^ 32

instance (pk : MoveActorDelta) : Decidable pk.WF := by
  unfold MoveActorDelta.WF; exact inferInstance

/-- The flags computed by `Marshal` (source lines 42 to 60). -/
def marshalFlags (pk : MoveActorDelta) : Nat :=
  let flags : Nat := 0
  let flags := if f32NeZero pk.DeltaPosition.x then flags ||| moveFlagHasX else flags
  let flags := if f32NeZero pk.DeltaPosition.y then flags ||| moveFlagHasY else flags
  let flags := if f32NeZero pk.DeltaPosition.z then flags ||| moveFlagHasZ else flags
  let flags := if f32NeZero pk.DeltaRotation.x then flags ||| moveFlagHasRotX else flags
  let flags := if f32NeZero pk.DeltaRotation.y then flags ||| moveFlagHasRotY else flags
  let flags := if f32NeZero pk.DeltaRotation.z then flags ||| moveFlagHasRotZ else flags
  flags

/-- The method `(*MoveActorDelta).Marshal`: the buffer after the call, given the buffer
before it. -/
def Marshal (E : Env) (pk : MoveActorDelta) (buf : List Nat) : List Nat :=
  let buf := buf ++ E.WriteVaruint64 pk.EntityRuntimeID
  let flags := marshalFlags pk
  let buf := buf ++ binaryWriteUint16 flags
  let buf := if f32NeZero pk.DeltaPosition.x
    then buf ++ E.WriteVarint32 (int32 (Float32bits pk.DeltaPosition.x)) else buf
  let buf := if f32NeZero pk.DeltaPosition.y
    then buf ++ E.WriteVarint32 (int32 (Float32bits pk.DeltaPosition.y)) else buf
  let buf := if f32NeZero pk.DeltaPosition.z
    then buf ++ E.WriteVarint32 (int32 (Float32bits pk.DeltaPosition.z)) else buf
  let buf := if f32NeZero pk.DeltaRotation.x
    then buf ++ binaryWriteByte (f32ToByte E.floatToByte (f32Div pk.DeltaRotation.x rotUnit))
    else buf
  let buf := if f32NeZero pk.DeltaRotation.y
    then buf ++ binaryWriteByte (f32ToByte E.floatToByte (f32Div pk.DeltaRotation.y rotUnit))
    else buf
  let buf := if f32NeZero pk.DeltaRotation.z
    then buf ++ binaryWriteByte (f32ToByte E.floatToByte (f32Div pk.DeltaRotation.z rotUnit))
    else buf
  buf

/-- The six optional components of the packet, in wire order. -/
inductive Field where
  | posX | posY | posZ | rotX | rotY | rotZ
deriving DecidableEq

/-- Value of a component of the packet. -/
def MoveActorDelta.get (pk : MoveActorDelta) : Field → Nat
  | .posX => pk.DeltaPosition.x
  | .posY => pk.DeltaPosition.y
  | .posZ => pk.DeltaPosition.z
  | .rotX => pk.DeltaRotation.x
  | .rotY => pk.DeltaRotation.y
  | .rotZ => pk.DeltaRotation.z

/-- State of `Unmarshal` when it returns: the error, the receiving packet, the bytes left
unread, and (a ghost record, not data of the program) the components that an assignment
`pk.DeltaPosition[i] = ...` or `pk.DeltaRotation[i] = ...` has stored into during the call. -/
structure Decoded where
  err : Bool
  pk : MoveActorDelta
  buf : List Nat
  assigned : List Field

/-- Source lines 125 to 131: the `moveFlagHasRotZ` block and `return nil`. -/
def unmarshalRotZ (flags : Nat) (st : Decoded) (w : Nat) : Decoded :=
  if flags &&& moveFlagHasRotZ ≠ 0 then
    let r := binaryReadByte st.buf w
    if r.err then { st with err := true, buf := r.rest }
    else
      { st with
        pk := { st.pk with DeltaRotation := { st.pk.DeltaRotation with
                  z := f32Mul (f32OfNat r.val) rotUnit } }
        buf := r.rest
        assigned := st.assigned ++ [Field.rotZ] }
  else st

/-- Source lines 119 to 124: the `moveFlagHasRotY` block, then the rest of the method. -/
def unmarshalRotY (flags : Nat) (st : Decoded) (w : Nat) : Decoded :=
  if flags &&& moveFlagHasRotY ≠ 0 then
    let r := binaryReadByte st.buf w
    if r.err then { st with err := true, buf := r.rest }
    else
      unmarshalRotZ flags
        { st with
          pk := { st.pk with DeltaRotation := { st.pk.DeltaRotation with
                    y := f32Mul (f32OfNat r.val) rotUnit } }
          buf := r.rest
          assigned := st.assigned ++ [Field.rotY] } r.val
  else unmarshalRotZ flags st w

/-- Source lines 112 to 118: the `moveFlagHasRotX` block, then the rest of the method. -/
def unmarshalRotX (flags : Nat) (st : Decoded) (w : Nat) : Decoded :=
  if flags &&& moveFlagHasRotX ≠ 0 then
    let r := binaryReadByte st.buf w
    if r.err then { st with err := true, buf := r.rest }
    else
      unmarshalRotY flags
        { st with
          pk := { st.pk with DeltaRotation := { st.pk.DeltaRotation with
                    x := f32Mul (f32OfNat r.val) rotUnit } }
          buf := r.rest
          assigned := st.assigned ++ [Field.rotX] } r.val
  else unmarshalRotY flags st w

/-- Source lines 106 to 111: the `moveFlagHasZ` block, then the rest of the method
(`var w byte` starts at zero). -/
def unmarshalZ (E : Env) (flags : Nat) (st : Decoded) (v : Int) : Decoded :=
  if flags &&& moveFlagHasZ ≠ 0 then
    let r := E.Varint32 st.buf v
    if r.err then { st with err := true, buf := r.rest }
    else
      unmarshalRotX flags
        { st with
          pk := { st.pk with DeltaPosition := { st.pk.DeltaPosition with
                    z := Float32frombits (uint32 r.val) } }
          buf := r.rest
          assigned := st.assigned ++ [Field.posZ] } 0
  else unmarshalRotX flags st 0

/-- Source lines 100 to 105: the `moveFlagHasY` block, then the rest of the method. -/
def unmarshalY (E : Env) (flags : Nat) (st : Decoded) (v : Int) : Decoded :=
  if flags &&& moveFlagHasY ≠ 0 then
    let r := E.Varint32 st.buf v
    if r.err then { st with err := true, buf := r.rest }
    else
      unmarshalZ E flags
        { st with
          pk := { st.pk with DeltaPosition := { st.pk.DeltaPosition with
                    y := Float32frombits (uint32 r.val) } }
          buf := r.rest
          assigned := st.assigned ++ [Field.posY] } r.val
  else unmarshalZ E flags st v

/-- Source lines 93 to 99: the `moveFlagHasX` block, then the rest of the method. -/
def unmarshalX (E : Env) (flags : Nat) (st : Decoded) (v : Int) : Decoded :=
  if flags &&& moveFlagHasX ≠ 0 then
    let r := E.Varint32 st.buf v
    if r.err then { st with err := true, buf := r.rest }
    else
      unmarshalY E flags
        { st with
          pk := { st.pk with DeltaPosition := { st.pk.DeltaPosition with
                    x := Float32frombits (uint32 r.val) } }
          buf := r.rest
          assigned := st.assigned ++ [Field.posX] } r.val
  else unmarshalY E flags st v

/-- The method `(*MoveActorDelta).Unmarshal`, called on the receiver `pk` and the buffer
`buf`. Both arguments of `chainErr` are evaluated, in order, before it is called. -/
def Unmarshal (E : Env) (pk : MoveActorDelta) (buf : List Nat) : Decoded :=
  let pk := { pk with DeltaPosition := Vec3.zero }
  let pk := { pk with DeltaRotation := Vec3.zero }
  let flags : Nat := 0
  let r1 := E.Varuint64 buf pk.EntityRuntimeID
  let pk := { pk with EntityRuntimeID := r1.val }
  let r2 := binaryReadUint16 r1.rest flags
  let flags := r2.val
  if chainErr [r1.err, r2.err] then ⟨true, pk, r2.rest, []⟩
  else unmarshalX E flags ⟨false, pk, r2.rest, []⟩ 0

/-- Flags word with the six given bits. -/
def flagsOfBits (b0 b1 b2 b3 b4 b5 : Bool) : Nat :=
  b0.toNat + 2 * b1.toNat + 4 * b2.toNat + 8 * b3.toNat + 16 * b4.toNat + 32 * b5.toNat

/-- A segment of the frame that is there only when its flag is set. -/
def optSeg (present : Bool) (seg : List Nat) : List Nat := if present then seg else []

/-- The wire layout of the packet for a flags word `f`: the identifier as a
variable-length unsigned integer, the flags as two bytes low byte first, then a
variable-length signed integer for each of the bits 0, 1, 2 of `f` that is set, then one
byte for each of the bits 3, 4, 5 of `f` that is set. -/
def frame (E : Env) (id f : Nat) (vx vy vz : Int) (wx wy wz : Nat) : List Nat :=
  E.WriteVaruint64 id ++ ([f % 256, f / 256 % 256] ++
    (optSeg (f.testBit 0) (E.WriteVarint32 vx) ++ (optSeg (f.testBit 1) (E.WriteVarint32 vy) ++
    (optSeg (f.testBit 2) (E.WriteVarint32 vz) ++ (optSeg (f.testBit 3) [wx] ++
    (optSeg (f.testBit 4) [wy] ++ optSeg (f.testBit 5) [wz]))))))

/-- The byte `Marshal` writes for a rotation component. -/
def quantize (E : Env) (d : Nat) : Nat := f32ToByte E.floatToByte (f32Div d rotUnit)

/-- Ghost record of a component that is assigned only when its flag is set. -/
def optField (present : Bool) (c : Field) : List Field := if present then [c] else []

/-- The three rotation components decoded from a frame. -/
def frameRotation (f wx wy wz : Nat) : Vec3 :=
  ⟨if f.testBit 3 then f32Mul (f32OfNat wx) rotUnit else 0,
   if f.testBit 4 then f32Mul (f32OfNat wy) rotUnit else 0,
   if f.testBit 5 then f32Mul (f32OfNat wz) rotUnit else 0⟩

/-- The three position components decoded from a frame. -/
def framePosition (f : Nat) (vx vy vz : Int) : Vec3 :=
  ⟨if f.testBit 0 then Float32frombits (uint32 vx) else 0,
   if f.testBit 1 then Float32frombits (uint32 vy) else 0,
   if f.testBit 2 then Float32frombits (uint32 vz) else 0⟩

/-- The components a frame with flags `f` stores into, in order. -/
def frameFields (f : Nat) : List Field :=
  optField (f.testBit 0) Field.posX ++ (optField (f.testBit 1) Field.posY ++
    (optField (f.testBit 2) Field.posZ ++ (optField (f.testBit 3) Field.rotX ++
    (optField (f.testBit 4) Field.rotY ++ optField (f.testBit 5) Field.rotZ))))

/-- An `int32` value. -/
def IsInt32 (v : Int) : Prop := -2 ^ 31 ≤ v ∧ v < 2 ^ 31

instance (v : Int) : Decidable (IsInt32 v) := by unfold IsInt32; exact inferInstance

/-- Shift chosen by `f32RoundMag`. -/
def roundShift (n d : Nat) : Nat := f32Shift (n / d) (n / d)

/-- Significand chosen by `f32RoundMag`. -/
def roundSig (n d : Nat) : Nat :=
  let s := roundShift n d
  let q := n / (d * 2 ^ s)
  let r := n % (d * 2 ^ s)
  if 2 * r < d * 2 ^ s then q else if d * 2 ^ s < 2 * r then q + 1 else q + q % 2

/-! ## Notions used to state the properties -/

/-- Rotation components, as opposed to position components. -/
def Field.isRot : Field → Bool
  | .rotX => true
  | .rotY => true
  | .rotZ => true
  | _ => false

/-- Index of the flag bit of a component. -/
def Field.bit : Field → Nat
  | .posX => 0
  | .posY => 1
  | .posZ => 2
  | .rotX => 3
  | .rotY => 4
  | .rotZ => 5

/-- The Go comparison `p == q` of two packets: equal identifiers and the six components
equal as floats. -/
def MoveActorDelta.EqGo (p q : MoveActorDelta) : Prop :=
  p.EntityRuntimeID = q.EntityRuntimeID ∧
  f32Eq p.DeltaPosition.x q.DeltaPosition.x ∧ f32Eq p.DeltaPosition.y q.DeltaPosition.y ∧
  f32Eq p.DeltaPosition.z q.DeltaPosition.z ∧
  f32Eq p.DeltaRotation.x q.DeltaRotation.x ∧ f32Eq p.DeltaRotation.y q.DeltaRotation.y ∧
  f32Eq p.DeltaRotation.z q.DeltaRotation.z

instance (p q : MoveActorDelta) : Decidable (p.EqGo q) := by
  unfold MoveActorDelta.EqGo; exact inferInstance

/-- A float whose value is `k * (360/256)` for a byte `k`: the angles one byte can carry. -/
def IsByteAngle (d : Nat) : Prop :=
  f32IsFinite d ∧ ∃ k : Nat, k < 256 ∧ f32Val d = (k : ℚ) * (360 / 256)

/-- The byte that carries a rotation component over the wire (none, counted as zero, when
the component is zero). -/
def rotByte (E : Env) (d : Nat) : Nat := if f32NeZero d then quantize E d else 0

/-- A rotation component after `Marshal` and `Unmarshal`. -/
def rotRoundTrip (E : Env) (d : Nat) : Nat :=
  if f32NeZero d then f32Mul (f32OfNat (quantize E d)) rotUnit else 0

/-- Invariant of `Unmarshal`: a component that has not been stored into is `+0.0`, and a
component is stored into only when its bit is set in the flags `f`. -/
def Decoded.Inv (f : Nat) (st : Decoded) : Prop :=
  (∀ c : Field, c ∉ st.assigned → st.pk.get c = 0) ∧
  (∀ c : Field, c ∈ st.assigned → f.testBit c.bit = true)

/-- The packet with the component `c` replaced by the float `v`. -/
def MoveActorDelta.set (pk : MoveActorDelta) (c : Field) (v : Nat) : MoveActorDelta :=
  match c with
  | .posX => { pk with DeltaPosition := { pk.DeltaPosition with x := v } }
  | .posY => { pk with DeltaPosition := { pk.DeltaPosition with y := v } }
  | .posZ => { pk with DeltaPosition := { pk.DeltaPosition with z := v } }
  | .rotX => { pk with DeltaRotation := { pk.DeltaRotation with x := v } }
  | .rotY => { pk with DeltaRotation := { pk.DeltaRotation with y := v } }
  | .rotZ => { pk with DeltaRotation := { pk.DeltaRotation with z := v } }

/-- A component after `Marshal` and `Unmarshal`: a rotation is rebuilt from its byte, a
position keeps its pattern, a zero becomes `+0.0`. -/
def normalizeField (E : Env) (c : Field) (x : Nat) : Nat :=
  if c.isRot then rotRoundTrip E x else (if f32NeZero x then x else 0)

/-- Number of bytes `Marshal` writes for a component. -/
def segLen (E : Env) (c : Field) (x : Nat) : Nat :=
  if f32NeZero x then (if c.isRot then 1 else (E.WriteVarint32 (int32 x)).length) else 0

/-! ## OnScreenTextureAnimation -/

/-- The packet struct. -/
structure OnScreenTextureAnimation where
  AnimationType : Int
deriving DecidableEq

/-- The call `binary.Write(buf, binary.LittleEndian, x)` for an `int32`: the four bytes
of its two-complement pattern, low byte first. -/
def binaryWriteInt32 (x : Int) : List Nat :=
  [uint32 x % 256, uint32 x / 2 ^ 8 % 256, uint32 x / 2 ^ 16 % 256, uint32 x / 2 ^ 24 % 256]

/-- The call `binary.Read(buf, binary.LittleEndian, &x)` for an `int32`: four bytes, low
byte first. With fewer than four bytes left the read fails (`io.EOF` on an empty buffer,
`io.ErrUnexpectedEOF` otherwise), the buffer is drained and `x` keeps its value. -/
def binaryReadInt32 (buf : List Nat) (x : Int) : ReadResult Int :=
  match buf with
  | b0 :: b1 :: b2 :: b3 :: rest =>
    ⟨false, int32 (b0 + b1 * 2 ^ 8 + b2 * 2 ^ 16 + b3 * 2 ^ 24), rest⟩
  | _ => ⟨true, x, []⟩

/-- State of `(*OnScreenTextureAnimation).Unmarshal` when it returns: the error, the
receiving packet and the bytes left unread. -/
structure DecodedAnimation where
  err : Bool
  pk : OnScreenTextureAnimation
  buf : List Nat

/-- The method `(*OnScreenTextureAnimation).Marshal`: the buffer after the call. -/
def OnScreenTextureAnimation.Marshal (pk : OnScreenTextureAnimation) (buf : List Nat) :
    List Nat :=
  buf ++ binaryWriteInt32 pk.AnimationType

/-- The method `(*OnScreenTextureAnimation).Unmarshal`. -/
def OnScreenTextureAnimation.Unmarshal (pk : OnScreenTextureAnimation) (buf : List Nat) :
    DecodedAnimation :=
  let r := binaryReadInt32 buf pk.AnimationType
  ⟨r.err, { pk with AnimationType := r.val }, r.rest⟩

/-! # Theorems -/

/-! ## The primitives of package `protocol` -/

namespace protocol

theorem readUvarint_writeUvarint (bits x0 : Nat) :
    ∀ (n x i v : Nat) (rest : List Nat), x < 2 ^ (7 * (n + 1)) →
      readUvarint bits x0 (n + 1) i v (writeUvarint (n + 1) x ++ rest)
        = ⟨false, (v + x * 2 ^ i) % 2 ^ bits, rest⟩ := by
  intro n
  induction n with
  | zero =>
    intro x i v rest hx
    have hx : x < 128 := by simpa using hx
    have h1 : ¬ (128 ≤ x) := by omega
    simp [writeUvarint, readUvarint, hx, h1, Nat.mod_eq_of_lt hx]
  | succ n ih =>
    intro x i v rest hx
    by_cases h : 128 ≤ x
    · have hx2 : x / 128 < 2 ^ (7 * (n + 1)) := by
        rw [Nat.div_lt_iff_lt_mul (by norm_num)]
        calc x < 2 ^ (7 * (n + 1 + 1)) := hx
          _ = 2 ^ (7 * (n + 1)) * 128 := by rw [show 7 * (n + 1 + 1) = 7 * (n + 1) + 7 by ring, pow_add]; norm_num
      have hb : ¬ (x % 128 + 128 < 128) := by omega
      have hm : (x % 128 + 128) % 128 = x % 128 := by omega
      rw [writeUvarint.eq_2, if_pos h, List.cons_append, readUvarint.eq_3]
      simp only [hb, if_false, hm]
      rw [ih _ _ _ _ hx2]
      congr 1
      have e : x * 2 ^ i = x % 128 * 2 ^ i + x / 128 * 2 ^ (i + 7) := by
        conv_lhs => rw [← Nat.mod_add_div x 128]
        rw [pow_add]; ring
      rw [Nat.mod_add_mod, e, Nat.add_assoc]
    · have hx1 : x < 128 := by omega
      simp [writeUvarint, readUvarint, hx1, h, Nat.mod_eq_of_lt hx1]


theorem readUvarint_truncated (bits x0 : Nat) :
    ∀ (n x i v : Nat) (b t : List Nat), t ≠ [] → b ++ t = writeUvarint n x →
      (readUvarint bits x0 n i v b).err = true := by
  intro n
  induction n with
  | zero => intro x i v b t _ _; simp [readUvarint]
  | succ n ih =>
    intro x i v b t ht hbt
    cases b with
    | nil => simp [readUvarint]
    | cons c b =>
      by_cases h : 128 ≤ x
      · rw [writeUvarint.eq_2, if_pos h, List.cons_append, List.cons.injEq] at hbt
        obtain ⟨hc, hb⟩ := hbt
        have hc2 : ¬ (c < 128) := by omega
        rw [readUvarint.eq_3]
        simp only [hc2, if_false]
        exact ih _ _ _ _ _ ht hb
      · rw [writeUvarint.eq_2, if_neg h, List.cons_append, List.cons.injEq] at hbt
        obtain ⟨_, hb⟩ := hbt
        simp at hb
        exact absurd hb.2 ht

theorem Varuint64_WriteVaruint64 (x : Nat) (hx : x < 2 ^ 64) (rest : List Nat) (x0 : Nat) :
    Varuint64 (WriteVaruint64 x ++ rest) x0 = ⟨false, x, rest⟩ := by
  unfold Varuint64 WriteVaruint64
  rw [Nat.mod_eq_of_lt hx, readUvarint_writeUvarint 64 x0 9 x 0 0 rest (by omega)]
  simp only [Nat.zero_add, pow_zero, Nat.mul_one, Nat.mod_eq_of_lt hx]

/-- Zig-zag image of an `int32`, as computed by `WriteVarint32`. -/
theorem zigzag_lt (v : Int) :
    (if v < 0 then 2 ^ 32 - 1 - uint32 v * 2 % 2 ^ 32 else uint32 v * 2 % 2 ^ 32) < 2 ^ 32 := by
  split <;> omega

theorem Varint32_WriteVarint32 (v : Int) (h1 : -2 ^ 31 ≤ v) (h2 : v < 2 ^ 31)
    (rest : List Nat) (v0 : Int) :
    Varint32 (WriteVarint32 v ++ rest) v0 = ⟨false, v, rest⟩ := by
  unfold Varint32 WriteVarint32
  simp only
  rw [readUvarint_writeUvarint 32 0 4 _ 0 0 rest (by have := zigzag_lt v; omega)]
  simp only [Nat.zero_add, pow_zero, Nat.mul_one, Bool.false_eq_true, if_false,
    Nat.mod_eq_of_lt (zigzag_lt v)]
  congr 1
  unfold int32 uint32
  by_cases hv : v < 0
  · simp only [hv, if_true]
    omega
  · simp only [hv, if_false]
    omega

end protocol

theorem stdEnv_roundTrips : stdEnv.RoundTrips where
  varuint64 := protocol.Varuint64_WriteVaruint64
  varint32 := protocol.Varint32_WriteVarint32

theorem stdEnv_rejectsTruncation : stdEnv.RejectsTruncation where
  varuint64 := by
    intro x _ b t x0 ht hbt
    exact protocol.readUvarint_truncated 64 x0 10 _ 0 0 b t ht hbt
  varint32 := by
    intro v _ _ b t v0 ht hbt
    have h := protocol.readUvarint_truncated 32 0 5 _ 0 0 b t ht hbt
    show (protocol.Varint32 b v0).err = true
    unfold protocol.Varint32
    simp only [h, if_true]


/-! ## Flags -/

theorem and_two_pow_ne_zero (f i : Nat) : f &&& 2 ^ i ≠ 0 ↔ f.testBit i = true := by
  constructor
  · intro h
    by_contra hb
    apply h
    apply Nat.eq_of_testBit_eq
    intro j
    rw [Nat.testBit_and, Nat.testBit_two_pow, Nat.zero_testBit]
    by_cases hij : i = j
    · subst hij; simp [hb]
    · simp [hij]
  · intro hb h
    have := congrArg (fun n => Nat.testBit n i) h
    simp [Nat.testBit_and, Nat.testBit_two_pow, hb] at this

theorem hasX_iff (f : Nat) : f &&& moveFlagHasX ≠ 0 ↔ f.testBit 0 = true :=
  and_two_pow_ne_zero f 0
theorem hasY_iff (f : Nat) : f &&& moveFlagHasY ≠ 0 ↔ f.testBit 1 = true :=
  and_two_pow_ne_zero f 1
theorem hasZ_iff (f : Nat) : f &&& moveFlagHasZ ≠ 0 ↔ f.testBit 2 = true :=
  and_two_pow_ne_zero f 2
theorem hasRotX_iff (f : Nat) : f &&& moveFlagHasRotX ≠ 0 ↔ f.testBit 3 = true :=
  and_two_pow_ne_zero f 3
theorem hasRotY_iff (f : Nat) : f &&& moveFlagHasRotY ≠ 0 ↔ f.testBit 4 = true :=
  and_two_pow_ne_zero f 4
theorem hasRotZ_iff (f : Nat) : f &&& moveFlagHasRotZ ≠ 0 ↔ f.testBit 5 = true :=
  and_two_pow_ne_zero f 5

theorem marshalFlags_eq (pk : MoveActorDelta) :
    marshalFlags pk = flagsOfBits
      (decide (f32NeZero pk.DeltaPosition.x)) (decide (f32NeZero pk.DeltaPosition.y))
      (decide (f32NeZero pk.DeltaPosition.z)) (decide (f32NeZero pk.DeltaRotation.x))
      (decide (f32NeZero pk.DeltaRotation.y)) (decide (f32NeZero pk.DeltaRotation.z)) := by
  unfold marshalFlags
  by_cases h0 : f32NeZero pk.DeltaPosition.x <;> by_cases h1 : f32NeZero pk.DeltaPosition.y <;>
  by_cases h2 : f32NeZero pk.DeltaPosition.z <;> by_cases h3 : f32NeZero pk.DeltaRotation.x <;>
  by_cases h4 : f32NeZero pk.DeltaRotation.y <;> by_cases h5 : f32NeZero pk.DeltaRotation.z <;>
  simp only [h0, h1, h2, h3, h4, h5, if_true, if_false, decide_True, decide_False] <;> decide

theorem flagsOfBits_testBit (b0 b1 b2 b3 b4 b5 : Bool) :
    (flagsOfBits b0 b1 b2 b3 b4 b5).testBit 0 = b0 ∧ (flagsOfBits b0 b1 b2 b3 b4 b5).testBit 1 = b1 ∧
    (flagsOfBits b0 b1 b2 b3 b4 b5).testBit 2 = b2 ∧ (flagsOfBits b0 b1 b2 b3 b4 b5).testBit 3 = b3 ∧
    (flagsOfBits b0 b1 b2 b3 b4 b5).testBit 4 = b4 ∧ (flagsOfBits b0 b1 b2 b3 b4 b5).testBit 5 = b5 ∧
    flagsOfBits b0 b1 b2 b3 b4 b5 < 64 := by
  revert b0 b1 b2 b3 b4 b5
  decide


/-! ## Wire layout -/

theorem ite_append_optSeg (c : Prop) [Decidable c] (b s : List Nat) :
    (if c then b ++ s else b) = b ++ optSeg (decide c) s := by
  unfold optSeg
  by_cases h : c <;> simp [h]

theorem marshalFlags_testBit (pk : MoveActorDelta) :
    (marshalFlags pk).testBit 0 = decide (f32NeZero pk.DeltaPosition.x) ∧
    (marshalFlags pk).testBit 1 = decide (f32NeZero pk.DeltaPosition.y) ∧
    (marshalFlags pk).testBit 2 = decide (f32NeZero pk.DeltaPosition.z) ∧
    (marshalFlags pk).testBit 3 = decide (f32NeZero pk.DeltaRotation.x) ∧
    (marshalFlags pk).testBit 4 = decide (f32NeZero pk.DeltaRotation.y) ∧
    (marshalFlags pk).testBit 5 = decide (f32NeZero pk.DeltaRotation.z) ∧
    marshalFlags pk < 64 := by
  rw [marshalFlags_eq]
  exact flagsOfBits_testBit _ _ _ _ _ _

theorem Marshal_eq_frame (E : Env) (pk : MoveActorDelta) (buf : List Nat) :
    Marshal E pk buf = buf ++ frame E pk.EntityRuntimeID (marshalFlags pk)
      (int32 pk.DeltaPosition.x) (int32 pk.DeltaPosition.y) (int32 pk.DeltaPosition.z)
      (quantize E pk.DeltaRotation.x) (quantize E pk.DeltaRotation.y)
      (quantize E pk.DeltaRotation.z) := by
  obtain ⟨h0, h1, h2, h3, h4, h5, _⟩ := marshalFlags_testBit pk
  unfold Marshal frame quantize
  simp only [ite_append_optSeg]
  simp only [h0, h1, h2, h3, h4, h5, List.append_assoc, binaryWriteUint16, binaryWriteByte,
    Float32bits]


/-! ## Decoding a frame -/

@[simp] theorem optSeg_true (s : List Nat) : optSeg true s = s := rfl
@[simp] theorem optSeg_false (s : List Nat) : optSeg false s = [] := rfl
@[simp] theorem optField_true (c : Field) : optField true c = [c] := rfl
@[simp] theorem optField_false (c : Field) : optField false c = [] := rfl

theorem unmarshalRotZ_frame (f : Nat) (e : Bool) (id : Nat) (p : Vec3) (rx ry rz : Nat)
    (as : List Field) (w wz : Nat) (rest : List Nat) :
    unmarshalRotZ f ⟨e, ⟨id, p, ⟨rx, ry, rz⟩⟩, optSeg (f.testBit 5) [wz] ++ rest, as⟩ w
      = ⟨e, ⟨id, p, ⟨rx, ry, if f.testBit 5 then f32Mul (f32OfNat wz) rotUnit else rz⟩⟩, rest,
          as ++ optField (f.testBit 5) Field.rotZ⟩ := by
  unfold unmarshalRotZ
  cases hb : f.testBit 5
  · have h2 : ¬ (f &&& moveFlagHasRotZ ≠ 0) := by rw [hasRotZ_iff, hb]; simp
    simp [h2]
  · have h2 := (hasRotZ_iff f).mpr hb
    simp [h2, binaryReadByte]

theorem unmarshalRotY_frame (f : Nat) (e : Bool) (id : Nat) (p : Vec3) (rx ry rz : Nat)
    (as : List Field) (w wy wz : Nat) (rest : List Nat) :
    unmarshalRotY f ⟨e, ⟨id, p, ⟨rx, ry, rz⟩⟩,
        optSeg (f.testBit 4) [wy] ++ (optSeg (f.testBit 5) [wz] ++ rest), as⟩ w
      = ⟨e, ⟨id, p, ⟨rx, if f.testBit 4 then f32Mul (f32OfNat wy) rotUnit else ry,
                     if f.testBit 5 then f32Mul (f32OfNat wz) rotUnit else rz⟩⟩, rest,
          as ++ (optField (f.testBit 4) Field.rotY ++ optField (f.testBit 5) Field.rotZ)⟩ := by
  unfold unmarshalRotY
  cases hb : f.testBit 4
  · have h2 : ¬ (f &&& moveFlagHasRotY ≠ 0) := by rw [hasRotY_iff, hb]; simp
    rw [if_neg h2]
    simp only [optSeg_false, List.nil_append]
    rw [unmarshalRotZ_frame]
    simp
  · have h2 := (hasRotY_iff f).mpr hb
    rw [if_pos h2]
    simp only [optSeg_true, binaryReadByte, List.singleton_append,
      Bool.false_eq_true, if_false]
    rw [unmarshalRotZ_frame]
    simp

theorem unmarshalRotX_frame (f : Nat) (e : Bool) (id : Nat) (p : Vec3) (rx ry rz : Nat)
    (as : List Field) (w wx wy wz : Nat) (rest : List Nat) :
    unmarshalRotX f ⟨e, ⟨id, p, ⟨rx, ry, rz⟩⟩,
        optSeg (f.testBit 3) [wx] ++ (optSeg (f.testBit 4) [wy] ++
          (optSeg (f.testBit 5) [wz] ++ rest)), as⟩ w
      = ⟨e, ⟨id, p, ⟨if f.testBit 3 then f32Mul (f32OfNat wx) rotUnit else rx,
                     if f.testBit 4 then f32Mul (f32OfNat wy) rotUnit else ry,
                     if f.testBit 5 then f32Mul (f32OfNat wz) rotUnit else rz⟩⟩, rest,
          as ++ (optField (f.testBit 3) Field.rotX ++ (optField (f.testBit 4) Field.rotY ++
            optField (f.testBit 5) Field.rotZ))⟩ := by
  unfold unmarshalRotX
  cases hb : f.testBit 3
  · have h2 : ¬ (f &&& moveFlagHasRotX ≠ 0) := by rw [hasRotX_iff, hb]; simp
    rw [if_neg h2]
    simp only [optSeg_false, List.nil_append]
    rw [unmarshalRotY_frame]
    simp
  · have h2 := (hasRotX_iff f).mpr hb
    rw [if_pos h2]
    simp only [optSeg_true, binaryReadByte, List.singleton_append,
      Bool.false_eq_true, if_false]
    rw [unmarshalRotY_frame]
    simp


theorem unmarshalZ_frame (E : Env) (hE : E.RoundTrips) (f : Nat) (e : Bool) (id : Nat)
    (px py pz : Nat) (as : List Field) (v vz : Int) (hz : IsInt32 vz) (wx wy wz : Nat)
    (rest : List Nat) :
    unmarshalZ E f ⟨e, ⟨id, ⟨px, py, pz⟩, Vec3.zero⟩,
        optSeg (f.testBit 2) (E.WriteVarint32 vz) ++ (optSeg (f.testBit 3) [wx] ++
          (optSeg (f.testBit 4) [wy] ++ (optSeg (f.testBit 5) [wz] ++ rest))), as⟩ v
      = ⟨e, ⟨id, ⟨px, py, if f.testBit 2 then Float32frombits (uint32 vz) else pz⟩,
              frameRotation f wx wy wz⟩, rest,
          as ++ (optField (f.testBit 2) Field.posZ ++ (optField (f.testBit 3) Field.rotX ++
            (optField (f.testBit 4) Field.rotY ++ optField (f.testBit 5) Field.rotZ)))⟩ := by
  unfold unmarshalZ Vec3.zero frameRotation
  cases hb : f.testBit 2
  · have h2 : ¬ (f &&& moveFlagHasZ ≠ 0) := by rw [hasZ_iff, hb]; simp
    rw [if_neg h2]
    simp only [optSeg_false, List.nil_append]
    rw [unmarshalRotX_frame]
    simp
  · have h2 := (hasZ_iff f).mpr hb
    rw [if_pos h2]
    simp only [optSeg_true, hE.varint32 vz hz.1 hz.2, Bool.false_eq_true, if_false]
    rw [unmarshalRotX_frame]
    simp

theorem unmarshalY_frame (E : Env) (hE : E.RoundTrips) (f : Nat) (e : Bool) (id : Nat)
    (px py pz : Nat) (as : List Field) (v vy vz : Int) (hy : IsInt32 vy) (hz : IsInt32 vz)
    (wx wy wz : Nat) (rest : List Nat) :
    unmarshalY E f ⟨e, ⟨id, ⟨px, py, pz⟩, Vec3.zero⟩,
        optSeg (f.testBit 1) (E.WriteVarint32 vy) ++ (optSeg (f.testBit 2) (E.WriteVarint32 vz) ++
          (optSeg (f.testBit 3) [wx] ++ (optSeg (f.testBit 4) [wy] ++
          (optSeg (f.testBit 5) [wz] ++ rest)))), as⟩ v
      = ⟨e, ⟨id, ⟨px, if f.testBit 1 then Float32frombits (uint32 vy) else py,
                   if f.testBit 2 then Float32frombits (uint32 vz) else pz⟩,
              frameRotation f wx wy wz⟩, rest,
          as ++ (optField (f.testBit 1) Field.posY ++ (optField (f.testBit 2) Field.posZ ++
            (optField (f.testBit 3) Field.rotX ++ (optField (f.testBit 4) Field.rotY ++
            optField (f.testBit 5) Field.rotZ))))⟩ := by
  unfold unmarshalY
  cases hb : f.testBit 1
  · have h2 : ¬ (f &&& moveFlagHasY ≠ 0) := by rw [hasY_iff, hb]; simp
    rw [if_neg h2]
    simp only [optSeg_false, List.nil_append]
    rw [unmarshalZ_frame E hE f e id px py pz as v vz hz]
    simp
  · have h2 := (hasY_iff f).mpr hb
    rw [if_pos h2]
    simp only [optSeg_true, hE.varint32 vy hy.1 hy.2, Bool.false_eq_true, if_false]
    rw [unmarshalZ_frame E hE f e id px _ pz _ vy vz hz]
    simp

theorem unmarshalX_frame (E : Env) (hE : E.RoundTrips) (f : Nat) (e : Bool) (id : Nat)
    (as : List Field) (v vx vy vz : Int) (hx : IsInt32 vx) (hy : IsInt32 vy) (hz : IsInt32 vz)
    (wx wy wz : Nat) (rest : List Nat) :
    unmarshalX E f ⟨e, ⟨id, Vec3.zero, Vec3.zero⟩,
        optSeg (f.testBit 0) (E.WriteVarint32 vx) ++ (optSeg (f.testBit 1) (E.WriteVarint32 vy) ++
          (optSeg (f.testBit 2) (E.WriteVarint32 vz) ++ (optSeg (f.testBit 3) [wx] ++
          (optSeg (f.testBit 4) [wy] ++ (optSeg (f.testBit 5) [wz] ++ rest))))), as⟩ v
      = ⟨e, ⟨id, framePosition f vx vy vz, frameRotation f wx wy wz⟩, rest,
          as ++ frameFields f⟩ := by
  unfold unmarshalX framePosition frameFields
  cases hb : f.testBit 0
  · have h2 : ¬ (f &&& moveFlagHasX ≠ 0) := by rw [hasX_iff, hb]; simp
    rw [if_neg h2]
    simp only [optSeg_false, List.nil_append]
    have key := unmarshalY_frame E hE f e id 0 0 0 as v vy vz hy hz wx wy wz rest
    unfold Vec3.zero at key ⊢
    rw [key]
    simp
  · have h2 := (hasX_iff f).mpr hb
    rw [if_pos h2]
    simp only [optSeg_true, hE.varint32 vx hx.1 hx.2, Bool.false_eq_true, if_false]
    have key := unmarshalY_frame E hE f e id (Float32frombits (uint32 vx)) 0 0
      (as ++ [Field.posX]) vx vy vz hy hz wx wy wz rest
    unfold Vec3.zero at key ⊢
    rw [key]
    simp


theorem binaryReadUint16_le16 (f : Nat) (hf : f < 2 ^ 16) (tail : List Nat) (x : Nat) :
    binaryReadUint16 ([f % 256, f / 256 % 256] ++ tail) x = ⟨false, f, tail⟩ := by
  have : f % 256 + f / 256 % 256 * 256 = f := by omega
  simp [binaryReadUint16, this]

/-- What `Unmarshal` returns on a frame followed by `rest`. -/
theorem Unmarshal_frame (E : Env) (hE : E.RoundTrips) (pk0 : MoveActorDelta) (id f : Nat)
    (vx vy vz : Int) (wx wy wz : Nat) (rest : List Nat) (hid : id < 2 ^ 64) (hf : f < 2 ^ 16)
    (hx : IsInt32 vx) (hy : IsInt32 vy) (hz : IsInt32 vz) :
    Unmarshal E pk0 (frame E id f vx vy vz wx wy wz ++ rest)
      = ⟨false, ⟨id, framePosition f vx vy vz, frameRotation f wx wy wz⟩, rest,
          frameFields f⟩ := by
  unfold Unmarshal frame
  simp only [List.append_assoc, hE.varuint64 id hid]
  simp only [binaryReadUint16_le16 f hf]
  simp only [chainErr, List.any_cons, List.any_nil, id_eq, Bool.or_self, Bool.false_eq_true,
    if_false]
  rw [unmarshalX_frame E hE f false id [] 0 vx vy vz hx hy hz]
  simp


/-! ## Rounding -/

theorem f32Shift_spec : ∀ (fuel x : Nat), x < 2 ^ (24 + fuel) →
    x / 2 ^ f32Shift fuel x < 2 ^ 24 ∧ (0 < f32Shift fuel x → 2 ^ 23 ≤ x / 2 ^ f32Shift fuel x) := by
  intro fuel
  induction fuel with
  | zero => intro x hx; simpa [f32Shift] using hx
  | succ n ih =>
    intro x hx
    by_cases h : x < 2 ^ 24
    · rw [f32Shift, if_pos h, pow_zero, Nat.div_one]
      exact ⟨h, fun h0 => absurd h0 (lt_irrefl 0)⟩
    · have hx2 : x / 2 < 2 ^ (24 + n) := by
        rw [Nat.div_lt_iff_lt_mul (by norm_num)]
        calc x < 2 ^ (24 + (n + 1)) := hx
          _ = 2 ^ (24 + n) * 2 := by rw [← Nat.add_assoc, pow_succ]
      obtain ⟨h1, h2⟩ := ih (x / 2) hx2
      have e : x / 2 ^ (f32Shift n (x / 2) + 1) = x / 2 / 2 ^ f32Shift n (x / 2) := by
        rw [pow_succ, Nat.mul_comm, Nat.div_div_eq_div_mul]
      rw [f32Shift, if_neg h, e]
      refine ⟨h1, fun _ => ?_⟩
      by_cases hs : 0 < f32Shift n (x / 2)
      · exact h2 hs
      · have hs0 : f32Shift n (x / 2) = 0 := by omega
        rw [hs0, pow_zero, Nat.div_one]
        omega

theorem f32Shift_le : ∀ (fuel x k : Nat), x < 2 ^ (24 + k) → f32Shift fuel x ≤ k := by
  intro fuel
  induction fuel with
  | zero => intro x k _; simp [f32Shift]
  | succ n ih =>
    intro x k hx
    by_cases h : x < 2 ^ 24
    · rw [f32Shift, if_pos h]
      exact Nat.zero_le _
    · rw [f32Shift, if_neg h]
      cases k with
      | zero => exact absurd hx h
      | succ k =>
        have hx2 : x / 2 < 2 ^ (24 + k) := by
          rw [Nat.div_lt_iff_lt_mul (by norm_num)]
          calc x < 2 ^ (24 + (k + 1)) := hx
            _ = 2 ^ (24 + k) * 2 := by rw [← Nat.add_assoc, pow_succ]
        have := ih (x / 2) k hx2
        omega

theorem lt_two_pow_add_self (x : Nat) : x < 2 ^ (24 + x) :=
  lt_of_lt_of_le (Nat.lt_two_pow x) (Nat.pow_le_pow_right (by norm_num) (by omega))

/-- A pattern assembled from a shift `s` and a significand `m` (possibly `2^24` after a
carry) is finite, positive, and has magnitude `m * 2^s`. -/
theorem f32Mag_compose (s m : Nat) (hm : m ≤ 2 ^ 24) (hs : 0 < s → 2 ^ 23 ≤ m)
    (hfin : s * 2 ^ 23 + m < 0x7F800000) :
    f32Sign (s * 2 ^ 23 + m) = 0 ∧ f32IsFinite (s * 2 ^ 23 + m) ∧
      f32Mag (s * 2 ^ 23 + m) = m * 2 ^ s := by
  have hsign : f32Sign (s * 2 ^ 23 + m) = 0 := by
    unfold f32Sign
    rw [Nat.div_eq_of_lt (by omega)]
  refine ⟨hsign, ?_⟩
  unfold f32IsFinite f32Mag f32Exp f32Frac
  by_cases h1 : m < 2 ^ 23
  · have hs0 : s = 0 := by
      by_contra h; exact absurd (hs (by omega)) (by omega)
    subst hs0
    have e1 : (0 * 2 ^ 23 + m) / 2 ^ 23 = 0 := by omega
    have e2 : (0 * 2 ^ 23 + m) % 2 ^ 23 = m := by omega
    rw [e1, e2]
    exact ⟨by decide, by rw [if_pos (by decide), pow_zero, Nat.mul_one]⟩
  · by_cases h2 : m < 2 ^ 24
    · have e1 : (s * 2 ^ 23 + m) / 2 ^ 23 = s + 1 := by omega
      have e2 : (s * 2 ^ 23 + m) % 2 ^ 23 = m - 2 ^ 23 := by omega
      have e3 : (s + 1) % 256 = s + 1 := by omega
      rw [e1, e2, e3]
      refine ⟨by omega, ?_⟩
      have e4 : 2 ^ 23 + (m - 2 ^ 23) = m := by omega
      rw [if_neg (by omega), e4, Nat.add_sub_cancel]
    · have hm2 : m = 2 ^ 24 := by omega
      subst hm2
      have e1 : (s * 2 ^ 23 + 2 ^ 24) / 2 ^ 23 = s + 2 := by omega
      have e2 : (s * 2 ^ 23 + 2 ^ 24) % 2 ^ 23 = 0 := by omega
      have e3 : (s + 2) % 256 = s + 2 := by omega
      rw [e1, e2, e3]
      refine ⟨by omega, ?_⟩
      rw [if_neg (by omega)]
      show (2 ^ 23 + 0) * 2 ^ (s + 1) = 2 ^ 24 * 2 ^ s
      rw [pow_succ]; ring


theorem f32RoundMag_eq (n d : Nat) :
    f32RoundMag n d = min (roundShift n d * 2 ^ 23 + roundSig n d) 0x7F800000 := rfl

theorem roundSig_cases (n d : Nat) :
    roundSig n d = n / (d * 2 ^ roundShift n d) ∨
      (roundSig n d = n / (d * 2 ^ roundShift n d) + 1 ∧
        d * 2 ^ roundShift n d ≤ 2 * (n % (d * 2 ^ roundShift n d))) := by
  unfold roundSig
  simp only
  split
  · exact Or.inl rfl
  · split
    · exact Or.inr ⟨rfl, by omega⟩
    · rcases Nat.mod_two_eq_zero_or_one (n / (d * 2 ^ roundShift n d)) with h | h
      · rw [h]; exact Or.inl rfl
      · rw [h]; exact Or.inr ⟨rfl, by omega⟩

theorem round_quot_bounds (n d : Nat) :
    n / (d * 2 ^ roundShift n d) < 2 ^ 24 ∧
      (0 < roundShift n d → 2 ^ 23 ≤ n / (d * 2 ^ roundShift n d)) := by
  rw [← Nat.div_div_eq_div_mul]
  exact f32Shift_spec (n / d) (n / d) (lt_two_pow_add_self _)

/-- The arithmetic heart of the quantization: a quotient by `45 * 2^144` of a magnitude
that is a multiple of `2^s` never rounds up onto a multiple of `2^(149 - s)`. -/
theorem round_up_not_integer (u s c q r P : Nat) (hs : s ≤ 144) (hdiv : 2 ^ s ∣ u)
    (hP : P = 45 * 2 ^ 144 * 2 ^ s) (hN : u * 2 ^ 149 = q * P + r) (hr : r < P)
    (hround : P ≤ 2 * r) (hc : q + 1 = c * 2 ^ (149 - s)) : False := by
  obtain ⟨k, hk⟩ := hdiv
  have ha : 0 < 2 ^ s := Nat.pow_pos (by norm_num)
  have hT : 2 ^ (149 - s) * 2 ^ s = 2 ^ 149 := by
    rw [← pow_add]; congr 1; omega
  have hB : 2 ^ s * 2 ^ (144 - s) = 2 ^ 144 := by
    rw [← pow_add]; congr 1; omega
  -- (q + 1) * P = 2 ^ s * (c * 45 * 2 ^ (144 - s)) * 2 ^ 149
  have h1 : (q + 1) * P = 2 ^ s * (c * 45 * 2 ^ (144 - s)) * 2 ^ 149 := by
    rw [hc, hP, ← hT, ← hB]; ring
  have h2 : u * 2 ^ 149 + (P - r) = (q + 1) * P := by
    rw [hN, Nat.add_mul, Nat.one_mul]; omega
  rw [h1, hk] at h2
  have h3 : 2 ^ s * k * 2 ^ 149 < 2 ^ s * (c * 45 * 2 ^ (144 - s)) * 2 ^ 149 := by omega
  have h4 : k < c * 45 * 2 ^ (144 - s) := by
    have := Nat.lt_of_mul_lt_mul_right h3
    exact Nat.lt_of_mul_lt_mul_left this
  have h5 : 2 ^ s * (k + 1) * 2 ^ 149 ≤ 2 ^ s * (c * 45 * 2 ^ (144 - s)) * 2 ^ 149 :=
    Nat.mul_le_mul_right _ (Nat.mul_le_mul_left _ h4)
  have h6 : 2 ^ s * (k + 1) * 2 ^ 149 = 2 ^ s * k * 2 ^ 149 + 2 ^ s * 2 ^ 149 := by ring
  have h7 : 2 ^ s * 2 ^ 149 ≤ P - r := by omega
  omega


theorem f32Mag_structure (d : Nat) : ∃ e, 2 ^ e ∣ f32Mag d ∧ f32Mag d < 2 ^ (24 + e) := by
  unfold f32Mag
  have hf : f32Frac d < 2 ^ 23 := Nat.mod_lt _ (by norm_num)
  split
  · exact ⟨0, by simp, by omega⟩
  · refine ⟨f32Exp d - 1, Dvd.intro_left _ rfl, ?_⟩
    rw [pow_add]
    exact Nat.mul_lt_mul_of_lt_of_le (by omega) (le_refl _) (Nat.pow_pos (by norm_num))

theorem f32Mag_rotUnit : f32Mag rotUnit = 45 * 2 ^ 144 := by decide!

theorem quantize_core (u e : Nat) (hdiv : 2 ^ e ∣ u) (hlt : u < 2 ^ (24 + e))
    (hu : u < 360 * 2 ^ 149) :
    f32Sign (f32RoundMag (u * 2 ^ 149) (45 * 2 ^ 144)) = 0 ∧
    f32IsFinite (f32RoundMag (u * 2 ^ 149) (45 * 2 ^ 144)) ∧
    f32Mag (f32RoundMag (u * 2 ^ 149) (45 * 2 ^ 144)) < 256 * 2 ^ 149 ∧
    f32Mag (f32RoundMag (u * 2 ^ 149) (45 * 2 ^ 144)) / 2 ^ 149 = u * 32 / (45 * 2 ^ 149) := by
  -- the exact quotient, in units
  have hx : u * 2 ^ 149 / (45 * 2 ^ 144) = u * 32 / 45 := by
    rw [show u * 2 ^ 149 = u * 32 * 2 ^ 144 by ring]
    exact Nat.mul_div_mul_right _ _ (Nat.pow_pos (by norm_num))
  have hxu : u * 32 / 45 ≤ u := by omega
  have hx157 : u * 32 / 45 < 2 ^ (24 + 133) := by omega
  have hs_e : roundShift (u * 2 ^ 149) (45 * 2 ^ 144) ≤ e := by
    unfold roundShift; rw [hx]
    exact f32Shift_le _ _ _ (lt_of_le_of_lt hxu hlt)
  have hs_133 : roundShift (u * 2 ^ 149) (45 * 2 ^ 144) ≤ 133 := by
    unfold roundShift; rw [hx]
    exact f32Shift_le _ _ _ hx157
  obtain ⟨hq24, hq23⟩ := round_quot_bounds (u * 2 ^ 149) (45 * 2 ^ 144)
  have hcases := roundSig_cases (u * 2 ^ 149) (45 * 2 ^ 144)
  generalize hs : roundShift (u * 2 ^ 149) (45 * 2 ^ 144) = s at *
  generalize hm : roundSig (u * 2 ^ 149) (45 * 2 ^ 144) = m at *
  have hPpos : 0 < 45 * 2 ^ 144 * 2 ^ s := Nat.mul_pos (by norm_num) (Nat.pow_pos (by norm_num))
  generalize hq : u * 2 ^ 149 / (45 * 2 ^ 144 * 2 ^ s) = q at *
  have hqx : q = u * 32 / 45 / 2 ^ s := by
    rw [← hq, ← Nat.div_div_eq_div_mul, hx]
  have hT : 2 ^ (149 - s) * 2 ^ s = 2 ^ 149 := by
    rw [← pow_add]; congr 1; omega
  have hTpos : 0 < 2 ^ (149 - s) := Nat.pow_pos (by norm_num)
  -- rounding never changes the integer part
  have hfloor : m / 2 ^ (149 - s) = q / 2 ^ (149 - s) := by
    rcases hcases with h | ⟨h, hr⟩
    · rw [h]
    · rw [h, Nat.succ_div]
      by_cases hd : 2 ^ (149 - s) ∣ q + 1
      · exfalso
        obtain ⟨c, hc⟩ := hd
        refine round_up_not_integer u s c q (u * 2 ^ 149 % (45 * 2 ^ 144 * 2 ^ s))
          (45 * 2 ^ 144 * 2 ^ s) (by omega) ?_ rfl ?_ (Nat.mod_lt _ hPpos) hr ?_
        · exact dvd_trans (pow_dvd_pow 2 (by omega)) hdiv
        · rw [← hq]; exact (Nat.div_add_mod' _ _).symm
        · rw [hc, Nat.mul_comm]
      · rw [if_neg hd, Nat.add_zero]
  have hm24 : m ≤ 2 ^ 24 := by rcases hcases with h | ⟨h, _⟩ <;> omega
  have hm23 : 0 < s → 2 ^ 23 ≤ m := fun h0 => by
    have := hq23 h0
    rcases hcases with h | ⟨h, _⟩ <;> omega
  have hfin : s * 2 ^ 23 + m < 0x7F800000 := by omega
  rw [f32RoundMag_eq, hs, hm, Nat.min_eq_left (Nat.le_of_lt hfin)]
  obtain ⟨h1, h2, h3⟩ := f32Mag_compose s m hm24 hm23 hfin
  have hK : m * 2 ^ s / 2 ^ 149 = u * 32 / (45 * 2 ^ 149) := by
    rw [← hT, Nat.mul_div_mul_right _ _ (Nat.pow_pos (by norm_num)), hfloor, hqx,
      Nat.div_div_eq_div_mul, Nat.div_div_eq_div_mul, Nat.mul_comm (2 ^ s), hT]
  refine ⟨h1, h2, ?_, ?_⟩
  · rw [h3]
    have hK2 : m * 2 ^ s / 2 ^ 149 < 256 := by
      rw [hK, Nat.div_lt_iff_lt_mul (by norm_num)]; omega
    rwa [Nat.div_lt_iff_lt_mul (by norm_num)] at hK2
  · rw [h3, hK]


/-! ## Quantized rotations -/

theorem quantize_lt (E : Env) (d : Nat) : quantize E d < 256 := by
  unfold quantize f32ToByte
  by_cases h : f32IsFinite (f32Div d rotUnit) ∧
      (if f32Sign (f32Div d rotUnit) = 0 then f32Mag (f32Div d rotUnit) < 256 * 2 ^ 149
        else f32Mag (f32Div d rotUnit) < 2 ^ 149)
  · rw [if_pos h]
    by_cases hs : f32Sign (f32Div d rotUnit) = 0
    · rw [if_pos hs] at h ⊢
      rw [Nat.div_lt_iff_lt_mul (by norm_num)]
      exact h.2
    · rw [if_neg hs]; norm_num
  · rw [if_neg h]
    exact Nat.mod_lt _ (by norm_num)

theorem quantize_eq (E : Env) (d : Nat) (hfin : f32IsFinite d) (hsign : f32Sign d = 0)
    (hu : f32Mag d < 360 * 2 ^ 149) :
    quantize E d = f32Mag d * 32 / (45 * 2 ^ 149) := by
  obtain ⟨e, hdiv, hlt⟩ := f32Mag_structure d
  obtain ⟨h1, h2, h3, h4⟩ := quantize_core (f32Mag d) e hdiv hlt hu
  have hdiv : f32Div d rotUnit = f32RoundMag (f32Mag d * 2 ^ 149) (45 * 2 ^ 144) := by
    unfold f32Div
    have n1 : ¬ (f32IsNaN d ∨ f32IsNaN rotUnit) := by
      rintro (h | h)
      · exact hfin h.1
      · revert h; decide
    have n2 : ¬ f32IsInf d := fun h => hfin h.1
    have n3 : ¬ f32IsInf rotUnit := by decide
    have n4 : ¬ (f32Mag rotUnit = 0) := by rw [f32Mag_rotUnit]; norm_num
    have n5 : f32SignXor d rotUnit = 0 := by
      unfold f32SignXor
      rw [hsign, show f32Sign rotUnit = 0 by decide]
      norm_num
    rw [if_neg n1, if_neg n2, if_neg n3, if_neg n4, n5, f32Mag_rotUnit, Nat.zero_add]
  unfold quantize f32ToByte
  rw [hdiv, if_pos ⟨h2, by rw [if_pos h1]; exact h3⟩, if_pos h1, h4]

/-- A value that fits a 24-bit significand is not changed by rounding. -/
theorem f32RoundMag_exact (n d x k : Nat) (hd : 0 < d) (hn : n = d * x)
    (hx : x < 2 ^ (24 + k)) (hdiv : 2 ^ k ∣ x) (hk : k ≤ 253) :
    f32Sign (f32RoundMag n d) = 0 ∧ f32IsFinite (f32RoundMag n d) ∧
      f32Mag (f32RoundMag n d) = x := by
  have hnd : n / d = x := by rw [hn]; exact Nat.mul_div_cancel_left _ hd
  have hs_k : roundShift n d ≤ k := by
    unfold roundShift; rw [hnd]
    exact f32Shift_le _ _ _ hx
  obtain ⟨hq24, hq23⟩ := round_quot_bounds n d
  have hsig : roundSig n d = if 2 * (n % (d * 2 ^ roundShift n d)) < d * 2 ^ roundShift n d
      then n / (d * 2 ^ roundShift n d)
      else if d * 2 ^ roundShift n d < 2 * (n % (d * 2 ^ roundShift n d))
        then n / (d * 2 ^ roundShift n d) + 1
        else n / (d * 2 ^ roundShift n d) + n / (d * 2 ^ roundShift n d) % 2 := rfl
  rw [f32RoundMag_eq]
  generalize roundShift n d = s at *
  generalize roundSig n d = m at *
  obtain ⟨c, hc⟩ : 2 ^ s ∣ x := dvd_trans (pow_dvd_pow 2 hs_k) hdiv
  have hPpos : 0 < d * 2 ^ s := Nat.mul_pos hd (Nat.pow_pos (by norm_num))
  have hnP : n = d * 2 ^ s * c := by rw [hn, hc]; ring
  have hq : n / (d * 2 ^ s) = c := by
    rw [hnP]; exact Nat.mul_div_cancel_left _ hPpos
  have hr : n % (d * 2 ^ s) = 0 := by
    rw [hnP]; exact Nat.mul_mod_right _ _
  rw [hr, hq, if_pos (by omega)] at hsig
  rw [hq] at hq24 hq23
  have hfin : s * 2 ^ 23 + c < 0x7F800000 := by omega
  rw [hsig, Nat.min_eq_left (Nat.le_of_lt hfin)]
  obtain ⟨h1, h2, h3⟩ := f32Mag_compose s c (Nat.le_of_lt hq24) hq23 hfin
  exact ⟨h1, h2, by rw [h3, hc, Nat.mul_comm]⟩

theorem f32OfNat_spec (w : Nat) (hw : w < 2 ^ 24) :
    f32Sign (f32OfNat w) = 0 ∧ f32IsFinite (f32OfNat w) ∧ f32Mag (f32OfNat w) = w * 2 ^ 149 := by
  unfold f32OfNat
  refine f32RoundMag_exact _ 1 (w * 2 ^ 149) 149 (by norm_num) (by ring) ?_ (Dvd.intro_left _ rfl)
    (by norm_num)
  rw [pow_add]
  exact Nat.mul_lt_mul_of_lt_of_le hw (le_refl _) (Nat.pow_pos (by norm_num))

/-- The value `float32(w) * (360.0 / 256.0)` for a byte `w` is exact: `w * 45 / 32`,
that is `w * 45 * 2^144` units. -/
theorem rotDecode_spec (w : Nat) (hw : w < 256) :
    f32Sign (f32Mul (f32OfNat w) rotUnit) = 0 ∧ f32IsFinite (f32Mul (f32OfNat w) rotUnit) ∧
      f32Mag (f32Mul (f32OfNat w) rotUnit) = w * 45 * 2 ^ 144 := by
  obtain ⟨h1, h2, h3⟩ := f32OfNat_spec w (by omega)
  have hmul : f32Mul (f32OfNat w) rotUnit
      = f32RoundMag (w * 2 ^ 149 * (45 * 2 ^ 144)) (2 ^ 149) := by
    unfold f32Mul
    have n1 : ¬ (f32IsNaN (f32OfNat w) ∨ f32IsNaN rotUnit) := by
      rintro (h | h)
      · exact h2 h.1
      · revert h; decide
    have n2 : ¬ f32IsInf (f32OfNat w) := fun h => h2 h.1
    have n3 : ¬ f32IsInf rotUnit := by decide
    have n5 : f32SignXor (f32OfNat w) rotUnit = 0 := by
      unfold f32SignXor
      rw [h1, show f32Sign rotUnit = 0 by decide]
      norm_num
    rw [if_neg n1, if_neg n2, if_neg n3, n5, f32Mag_rotUnit, h3, Nat.zero_add]
  rw [hmul]
  refine f32RoundMag_exact _ (2 ^ 149) (w * 45 * 2 ^ 144) 144 (Nat.pow_pos (by norm_num))
    (by ring) ?_ (Dvd.intro_left _ rfl) (by norm_num)
  rw [pow_add]
  exact Nat.mul_lt_mul_of_lt_of_le (by omega) (le_refl _) (Nat.pow_pos (by norm_num))

/-! ## Marshal followed by Unmarshal -/

theorem uint32_int32 (u : Nat) (hu : u < 2 ^ 32) : uint32 (int32 u) = u := by
  unfold uint32 int32
  split <;> omega

theorem isInt32_int32 (u : Nat) : IsInt32 (int32 u) := by
  unfold IsInt32 int32
  split <;> omega

/-- What `Unmarshal` returns on the output of `Marshal` followed by `rest`. -/
theorem Unmarshal_Marshal (E : Env) (hE : E.RoundTrips) (pk0 pk : MoveActorDelta)
    (rest : List Nat) (hid : pk.EntityRuntimeID < 2 ^ 64) :
    Unmarshal E pk0 (Marshal E pk [] ++ rest)
      = ⟨false, ⟨pk.EntityRuntimeID,
          framePosition (marshalFlags pk) (int32 pk.DeltaPosition.x) (int32 pk.DeltaPosition.y)
            (int32 pk.DeltaPosition.z),
          frameRotation (marshalFlags pk) (quantize E pk.DeltaRotation.x)
            (quantize E pk.DeltaRotation.y) (quantize E pk.DeltaRotation.z)⟩, rest,
          frameFields (marshalFlags pk)⟩ := by
  rw [Marshal_eq_frame, List.nil_append]
  exact Unmarshal_frame E hE pk0 _ _ _ _ _ _ _ _ rest hid
    (by have := (marshalFlags_testBit pk).2.2.2.2.2.2; omega)
    (isInt32_int32 _) (isInt32_int32 _) (isInt32_int32 _)

/-- What a component becomes through `Marshal` and `Unmarshal`: a zero is decoded as
`+0.0`, a position keeps its pattern, a rotation is rebuilt from its quantized byte. -/
theorem roundTrip_get (E : Env) (hE : E.RoundTrips) (pk0 pk : MoveActorDelta)
    (rest : List Nat) (hwf : pk.WF) (c : Field) :
    (Unmarshal E pk0 (Marshal E pk [] ++ rest)).pk.get c
      = if f32NeZero (pk.get c)
        then (if c.isRot then f32Mul (f32OfNat (quantize E (pk.get c))) rotUnit else pk.get c)
        else 0 := by
  obtain ⟨hid, hx, hy, hz, _, _, _⟩ := hwf
  obtain ⟨h0, h1, h2, h3, h4, h5, _⟩ := marshalFlags_testBit pk
  rw [Unmarshal_Marshal E hE pk0 pk rest hid]
  cases c <;>
    simp only [MoveActorDelta.get, framePosition, frameRotation, Field.isRot, h0, h1, h2, h3, h4,
      h5, decide_eq_true_eq, Float32frombits, uint32_int32 _ hx, uint32_int32 _ hy,
      uint32_int32 _ hz, if_true, Bool.false_eq_true, if_false]


/-! ## Values of rotations -/

theorem f32Mag_eq_zero_iff (d : Nat) : f32Mag d = 0 ↔ ¬ f32NeZero d := by
  unfold f32Mag f32NeZero
  constructor
  · intro h
    by_cases he : f32Exp d = 0
    · rw [if_pos he] at h; exact not_not.mpr ⟨he, h⟩
    · rw [if_neg he] at h
      have h1 : 0 < (2 ^ 23 + f32Frac d) * 2 ^ (f32Exp d - 1) :=
        Nat.mul_pos (by positivity) (Nat.pow_pos (by norm_num))
      omega
  · intro h
    obtain ⟨he, hf⟩ := not_not.mp h
    rw [if_pos he, hf]

theorem f32Val_of_sign_zero (b : Nat) (h : f32Sign b = 0) :
    f32Val b = (f32Mag b : ℚ) / 2 ^ 149 := by
  unfold f32Val f32Units
  rw [if_pos h, Int.cast_natCast]

theorem f32Val_zero : f32Val 0 = 0 := by
  rw [f32Val_of_sign_zero 0 (by decide), show f32Mag 0 = 0 by decide]
  norm_num

theorem rotByte_lt (E : Env) (d : Nat) : rotByte E d < 256 := by
  unfold rotByte
  split
  · exact quantize_lt E d
  · norm_num

theorem rotRoundTrip_spec (E : Env) (d : Nat) :
    f32Sign (rotRoundTrip E d) = 0 ∧ f32IsFinite (rotRoundTrip E d) ∧
      f32Mag (rotRoundTrip E d) = rotByte E d * 45 * 2 ^ 144 := by
  unfold rotRoundTrip rotByte
  by_cases h : f32NeZero d
  · rw [if_pos h, if_pos h]
    exact rotDecode_spec _ (quantize_lt E d)
  · rw [if_neg h, if_neg h]
    exact ⟨by decide, by decide, by decide⟩

theorem f32Val_rotRoundTrip (E : Env) (d : Nat) :
    f32Val (rotRoundTrip E d) = (rotByte E d : ℚ) * (360 / 256) := by
  obtain ⟨h1, _, h3⟩ := rotRoundTrip_spec E d
  rw [f32Val_of_sign_zero _ h1, h3]
  push_cast
  rw [show (2 : ℚ) ^ 149 = 2 ^ 144 * 32 by norm_num]
  field_simp
  ring

/-- Within one period the byte is the integer part of the angle counted in steps of
`360/256` degrees. -/
theorem rotByte_eq_floor (E : Env) (d : Nat) (hfin : f32IsFinite d) (h0 : 0 ≤ f32Val d)
    (h360 : f32Val d < 360) :
    (rotByte E d : ℤ) = ⌊f32Val d / (360 / 256)⌋ := by
  unfold rotByte
  by_cases h : f32NeZero d
  · rw [if_pos h]
    have hmag : f32Mag d ≠ 0 := fun hm => ((f32Mag_eq_zero_iff d).mp hm) h
    have hsign : f32Sign d = 0 := by
      by_contra hs
      have : f32Val d < 0 := by
        unfold f32Val f32Units
        rw [if_neg hs]
        have : (0 : ℚ) < (f32Mag d : ℚ) := by exact_mod_cast Nat.pos_of_ne_zero hmag
        apply div_neg_of_neg_of_pos
        · push_cast; linarith
        · positivity
      linarith
    rw [f32Val_of_sign_zero d hsign] at h360 ⊢
    have hu : f32Mag d < 360 * 2 ^ 149 := by
      have h2 : (f32Mag d : ℚ) < 360 * 2 ^ 149 := by
        rwa [div_lt_iff₀ (by positivity)] at h360
      exact_mod_cast h2
    rw [quantize_eq E d hfin hsign hu]
    have e : (f32Mag d : ℚ) / 2 ^ 149 / (360 / 256)
        = ((f32Mag d * 32 : ℕ) : ℚ) / ((45 * 2 ^ 149 : ℕ) : ℚ) := by
      push_cast
      field_simp
      ring
    rw [e, Rat.floor_natCast_div_natCast]
    norm_cast
  · rw [if_neg h]
    have hmag : f32Mag d = 0 := (f32Mag_eq_zero_iff d).mpr h
    have hval : f32Val d = 0 := by
      unfold f32Val f32Units
      rw [hmag]
      simp
    rw [hval]
    simp


/-! ## Properties of the wire format -/

theorem marshalFlags_testBit_field (pk : MoveActorDelta) (c : Field) :
    (marshalFlags pk).testBit c.bit = true ↔ f32NeZero (pk.get c) := by
  obtain ⟨h0, h1, h2, h3, h4, h5, _⟩ := marshalFlags_testBit pk
  cases c <;> simp only [Field.bit, MoveActorDelta.get, h0, h1, h2, h3, h4, h5, decide_eq_true_eq]

theorem testBit_low_congr (f g : Nat) (h : g % 64 = f % 64) (i : Nat) (hi : i < 6) :
    g.testBit i = f.testBit i := by
  have e1 := Nat.testBit_mod_two_pow g 6 i
  have e2 := Nat.testBit_mod_two_pow f 6 i
  rw [show (2 : Nat) ^ 6 = 64 by norm_num] at e1 e2
  rw [h, e2] at e1
  simpa [hi] using e1.symm

theorem frame_low_bits (E : Env) (id f g : Nat) (vx vy vz : Int) (wx wy wz : Nat)
    (h : g % 64 = f % 64) :
    framePosition g vx vy vz = framePosition f vx vy vz ∧
    frameRotation g wx wy wz = frameRotation f wx wy wz ∧
    frameFields g = frameFields f ∧
    (frame E id g vx vy vz wx wy wz).length = (frame E id f vx vy vz wx wy wz).length := by
  have b0 := testBit_low_congr f g h 0 (by norm_num)
  have b1 := testBit_low_congr f g h 1 (by norm_num)
  have b2 := testBit_low_congr f g h 2 (by norm_num)
  have b3 := testBit_low_congr f g h 3 (by norm_num)
  have b4 := testBit_low_congr f g h 4 (by norm_num)
  have b5 := testBit_low_congr f g h 5 (by norm_num)
  unfold framePosition frameRotation frameFields frame
  rw [b0, b1, b2, b3, b4, b5]
  simp only [List.length_append, List.length_cons, List.length_nil, and_self]

/-! ## Round trips -/

theorem Unmarshal_Marshal_nil (E : Env) (hE : E.RoundTrips) (pk0 pk : MoveActorDelta)
    (hid : pk.EntityRuntimeID < 2 ^ 64) :
    Unmarshal E pk0 (Marshal E pk [])
      = ⟨false, ⟨pk.EntityRuntimeID,
          framePosition (marshalFlags pk) (int32 pk.DeltaPosition.x) (int32 pk.DeltaPosition.y)
            (int32 pk.DeltaPosition.z),
          frameRotation (marshalFlags pk) (quantize E pk.DeltaRotation.x)
            (quantize E pk.DeltaRotation.y) (quantize E pk.DeltaRotation.z)⟩, [],
          frameFields (marshalFlags pk)⟩ := by
  have h := Unmarshal_Marshal E hE pk0 pk [] hid
  rwa [List.append_nil] at h

theorem roundTrip_rot (E : Env) (hE : E.RoundTrips) (pk0 pk : MoveActorDelta) (hwf : pk.WF)
    (c : Field) (hc : c.isRot = true) :
    (Unmarshal E pk0 (Marshal E pk [])).pk.get c = rotRoundTrip E (pk.get c) := by
  have h := roundTrip_get E hE pk0 pk [] hwf c
  rw [List.append_nil] at h
  rw [h, hc]
  rfl

theorem roundTrip_pos (E : Env) (hE : E.RoundTrips) (pk0 pk : MoveActorDelta) (hwf : pk.WF)
    (c : Field) (hc : c.isRot = false) :
    (Unmarshal E pk0 (Marshal E pk [])).pk.get c
      = if f32NeZero (pk.get c) then pk.get c else 0 := by
  have h := roundTrip_get E hE pk0 pk [] hwf c
  rw [List.append_nil] at h
  rw [h, hc]
  rfl

theorem f32Eq_pos_roundTrip (x : Nat) (hfin : f32IsFinite x) :
    f32Eq (if f32NeZero x then x else 0) x := by
  by_cases h : f32NeZero x
  · rw [if_pos h]; exact Or.inl ⟨hfin, hfin, rfl⟩
  · rw [if_neg h]
    refine Or.inl ⟨by decide, hfin, ?_⟩
    have hm := (f32Mag_eq_zero_iff x).mpr h
    unfold f32Units
    rw [hm, show f32Mag 0 = 0 by decide]
    simp

theorem f32Eq_rot_roundTrip (E : Env) (d : Nat) (hd : IsByteAngle d) :
    f32Eq (rotRoundTrip E d) d := by
  obtain ⟨hfin, k, hk, hval⟩ := hd
  obtain ⟨h1, h2, h3⟩ := rotRoundTrip_spec E d
  have hk2 : ((k : ℕ) : ℚ) < 256 := by exact_mod_cast hk
  have hb : (rotByte E d : ℤ) = (k : ℤ) := by
    rw [rotByte_eq_floor E d hfin (by rw [hval]; positivity) (by rw [hval]; linarith), hval]
    rw [mul_div_assoc, div_self (by norm_num), mul_one]
    exact Int.floor_natCast k
  have hb2 : rotByte E d = k := by exact_mod_cast hb
  refine Or.inl ⟨h2, hfin, ?_⟩
  have hu : ((f32Units d : ℤ) : ℚ) = ((k * 45 * 2 ^ 144 : ℕ) : ℚ) := by
    unfold f32Val at hval
    rw [div_eq_iff (by positivity)] at hval
    rw [hval]
    push_cast
    rw [show (2 : ℚ) ^ 149 = 2 ^ 144 * 32 by norm_num]
    ring
  have hu2 : f32Units d = ((k * 45 * 2 ^ 144 : ℕ) : ℤ) := by exact_mod_cast hu
  rw [hu2]
  unfold f32Units
  rw [if_pos h1, h3, hb2]

theorem isByteAngle_zero : IsByteAngle 0 :=
  ⟨by decide, 0, by norm_num, by rw [f32Val_zero]; norm_num⟩

theorem isByteAngle_rotUnit : IsByteAngle 0x3FB40000 :=
  ⟨by decide, 1, by norm_num, by
    rw [f32Val_of_sign_zero _ (by decide), show f32Mag 0x3FB40000 = 45 * 2 ^ 144 by decide!]
    norm_num⟩

theorem isByteAngle_max : IsByteAngle 0x43B34C00 :=
  ⟨by decide, 255, by norm_num, by
    rw [f32Val_of_sign_zero _ (by decide),
      show f32Mag 0x43B34C00 = 255 * 45 * 2 ^ 144 by decide!]
    norm_num⟩

theorem zero_pattern (x : Nat) (hx : x < 2 ^ 32) (h : ¬ f32NeZero x) :
    x = 0 ∨ x = 0x80000000 := by
  obtain ⟨he, hf⟩ := not_not.mp h
  unfold f32Exp at he
  unfold f32Frac at hf
  omega

/-! ## Quantization of angles -/

theorem rot_value_in_period (E : Env) (d : Nat) (hfin : f32IsFinite d) (h0 : 0 ≤ f32Val d)
    (h360 : f32Val d < 360) :
    f32Val (rotRoundTrip E d) = (⌊f32Val d / (360 / 256)⌋ : ℚ) * (360 / 256) := by
  rw [f32Val_rotRoundTrip, ← rotByte_eq_floor E d hfin h0 h360]
  norm_cast

theorem f32Val_359 : f32Val 0x43B38000 = 359 := by
  rw [f32Val_of_sign_zero _ (by decide), show f32Mag 0x43B38000 = 359 * 2 ^ 149 by decide!]
  norm_num

/-! ## Components that are not read -/

theorem inv_err (f : Nat) (st : Decoded) (b : List Nat) (h : st.Inv f) :
    Decoded.Inv f { st with err := true, buf := b } := h

theorem inv_store (f : Nat) (st : Decoded) (c0 : Field) (pk2 : MoveActorDelta)
    (b : List Nat) (hget : ∀ c : Field, c ≠ c0 → pk2.get c = st.pk.get c)
    (hbit : f.testBit c0.bit = true) (h : st.Inv f) :
    Decoded.Inv f { st with pk := pk2, buf := b, assigned := st.assigned ++ [c0] } := by
  obtain ⟨h1, h2⟩ := h
  constructor
  · intro c hc
    simp only [List.mem_append, List.mem_singleton, not_or] at hc
    show pk2.get c = 0
    rw [hget c hc.2]
    exact h1 c hc.1
  · intro c hc
    simp only [List.mem_append, List.mem_singleton] at hc
    rcases hc with hc | hc
    · exact h2 c hc
    · rw [hc]; exact hbit

theorem unmarshalRotZ_inv (f : Nat) (st : Decoded) (w : Nat) (h : st.Inv f) :
    (unmarshalRotZ f st w).Inv f := by
  unfold unmarshalRotZ
  by_cases hf : f &&& moveFlagHasRotZ ≠ 0
  · rw [if_pos hf]
    by_cases he : (binaryReadByte st.buf w).err = true
    · simp only [he, if_true]; exact inv_err f st _ h
    · simp only [he, Bool.false_eq_true, if_false]
      refine inv_store f st Field.rotZ _ _ ?_ ((hasRotZ_iff f).mp hf) h
      intro c hc; cases c <;> first | rfl | exact absurd rfl hc
  · rw [if_neg hf]; exact h

theorem unmarshalRotY_inv (f : Nat) (st : Decoded) (w : Nat) (h : st.Inv f) :
    (unmarshalRotY f st w).Inv f := by
  unfold unmarshalRotY
  by_cases hf : f &&& moveFlagHasRotY ≠ 0
  · rw [if_pos hf]
    by_cases he : (binaryReadByte st.buf w).err = true
    · simp only [he, if_true]; exact inv_err f st _ h
    · simp only [he, Bool.false_eq_true, if_false]
      refine unmarshalRotZ_inv f _ _ (inv_store f st Field.rotY _ _ ?_ ((hasRotY_iff f).mp hf) h)
      intro c hc; cases c <;> first | rfl | exact absurd rfl hc
  · rw [if_neg hf]; exact unmarshalRotZ_inv f st w h

theorem unmarshalRotX_inv (f : Nat) (st : Decoded) (w : Nat) (h : st.Inv f) :
    (unmarshalRotX f st w).Inv f := by
  unfold unmarshalRotX
  by_cases hf : f &&& moveFlagHasRotX ≠ 0
  · rw [if_pos hf]
    by_cases he : (binaryReadByte st.buf w).err = true
    · simp only [he, if_true]; exact inv_err f st _ h
    · simp only [he, Bool.false_eq_true, if_false]
      refine unmarshalRotY_inv f _ _ (inv_store f st Field.rotX _ _ ?_ ((hasRotX_iff f).mp hf) h)
      intro c hc; cases c <;> first | rfl | exact absurd rfl hc
  · rw [if_neg hf]; exact unmarshalRotY_inv f st w h

theorem unmarshalZ_inv (E : Env) (f : Nat) (st : Decoded) (v : Int) (h : st.Inv f) :
    (unmarshalZ E f st v).Inv f := by
  unfold unmarshalZ
  by_cases hf : f &&& moveFlagHasZ ≠ 0
  · rw [if_pos hf]
    by_cases he : (E.Varint32 st.buf v).err = true
    · simp only [he, if_true]; exact inv_err f st _ h
    · simp only [he, Bool.false_eq_true, if_false]
      refine unmarshalRotX_inv f _ _ (inv_store f st Field.posZ _ _ ?_ ((hasZ_iff f).mp hf) h)
      intro c hc; cases c <;> first | rfl | exact absurd rfl hc
  · rw [if_neg hf]; exact unmarshalRotX_inv f st 0 h

theorem unmarshalY_inv (E : Env) (f : Nat) (st : Decoded) (v : Int) (h : st.Inv f) :
    (unmarshalY E f st v).Inv f := by
  unfold unmarshalY
  by_cases hf : f &&& moveFlagHasY ≠ 0
  · rw [if_pos hf]
    by_cases he : (E.Varint32 st.buf v).err = true
    · simp only [he, if_true]; exact inv_err f st _ h
    · simp only [he, Bool.false_eq_true, if_false]
      refine unmarshalZ_inv E f _ _ (inv_store f st Field.posY _ _ ?_ ((hasY_iff f).mp hf) h)
      intro c hc; cases c <;> first | rfl | exact absurd rfl hc
  · rw [if_neg hf]; exact unmarshalZ_inv E f st v h

theorem unmarshalX_inv (E : Env) (f : Nat) (st : Decoded) (v : Int) (h : st.Inv f) :
    (unmarshalX E f st v).Inv f := by
  unfold unmarshalX
  by_cases hf : f &&& moveFlagHasX ≠ 0
  · rw [if_pos hf]
    by_cases he : (E.Varint32 st.buf v).err = true
    · simp only [he, if_true]; exact inv_err f st _ h
    · simp only [he, Bool.false_eq_true, if_false]
      refine unmarshalY_inv E f _ _ (inv_store f st Field.posX _ _ ?_ ((hasX_iff f).mp hf) h)
      intro c hc; cases c <;> first | rfl | exact absurd rfl hc
  · rw [if_neg hf]; exact unmarshalY_inv E f st v h

theorem inv_initial (f : Nat) (e : Bool) (id : Nat) (b : List Nat) :
    Decoded.Inv f ⟨e, ⟨id, Vec3.zero, Vec3.zero⟩, b, []⟩ := by
  constructor
  · intro c _; cases c <;> rfl
  · intro c hc; simp at hc

/-! ## Truncated input -/

theorem truncation_split (b t s tail : List Nat) (h : b ++ t = s ++ tail) :
    (∃ t2, t2 ≠ [] ∧ b ++ t2 = s) ∨ (∃ b2, b = s ++ b2 ∧ b2 ++ t = tail) := by
  rcases List.append_eq_append_iff.mp h with ⟨a, hs, ht2⟩ | ⟨c, hb, htail⟩
  · by_cases ha : a = []
    · subst ha
      exact Or.inr ⟨[], by rw [hs, List.append_nil, List.append_nil], by rw [ht2]; rfl⟩
    · exact Or.inl ⟨a, ha, hs.symm⟩
  · exact Or.inr ⟨c, hb, htail.symm⟩

theorem truncated_optSeg (p : Bool) (s b t : List Nat) (ht : t ≠ []) (h : b ++ t = optSeg p s) :
    p = true ∧ b ++ t = s := by
  cases p
  · rw [optSeg_false] at h
    exact absurd (List.append_eq_nil.mp h).2 ht
  · exact ⟨rfl, h⟩

theorem truncated_byte (w : Nat) (b t : List Nat) (ht : t ≠ []) (h : b ++ t = [w]) : b = [] := by
  cases b with
  | nil => rfl
  | cons c b2 =>
    rw [List.cons_append, List.cons.injEq] at h
    exact absurd (List.append_eq_nil.mp h.2).2 ht

theorem unmarshalRotZ_truncated (f : Nat) (e : Bool) (pk : MoveActorDelta)
    (as : List Field) (w wz : Nat) (b t : List Nat) (ht : t ≠ [])
    (h : b ++ t = optSeg (f.testBit 5) [wz]) :
    (unmarshalRotZ f ⟨e, pk, b, as⟩ w).err = true := by
  obtain ⟨hp, hb⟩ := truncated_optSeg _ _ b t ht h
  have hb0 := truncated_byte wz b t ht hb
  subst hb0
  unfold unmarshalRotZ
  rw [if_pos ((hasRotZ_iff f).mpr hp)]
  rfl

theorem unmarshalRotY_truncated (f : Nat) (e : Bool) (pk : MoveActorDelta)
    (as : List Field) (w wy wz : Nat) (b t : List Nat) (ht : t ≠ [])
    (h : b ++ t = optSeg (f.testBit 4) [wy] ++ optSeg (f.testBit 5) [wz]) :
    (unmarshalRotY f ⟨e, pk, b, as⟩ w).err = true := by
  rcases truncation_split b t _ _ h with ⟨t2, ht2, h2⟩ | ⟨b2, hb, h2⟩
  · obtain ⟨hp, hb⟩ := truncated_optSeg _ _ b t2 ht2 h2
    have hb0 := truncated_byte wy b t2 ht2 hb
    subst hb0
    unfold unmarshalRotY
    rw [if_pos ((hasRotY_iff f).mpr hp)]
    rfl
  · subst hb
    unfold unmarshalRotY
    cases hp : f.testBit 4
    · have hn : ¬ (f &&& moveFlagHasRotY ≠ 0) := by rw [hasRotY_iff, hp]; simp
      rw [if_neg hn, optSeg_false, List.nil_append]
      exact unmarshalRotZ_truncated f e pk as w wz b2 t ht h2
    · rw [if_pos ((hasRotY_iff f).mpr hp), optSeg_true]
      exact unmarshalRotZ_truncated f e _ _ wy wz b2 t ht h2

theorem unmarshalRotX_truncated (f : Nat) (e : Bool) (pk : MoveActorDelta)
    (as : List Field) (w wx wy wz : Nat) (b t : List Nat) (ht : t ≠ [])
    (h : b ++ t = optSeg (f.testBit 3) [wx] ++
      (optSeg (f.testBit 4) [wy] ++ optSeg (f.testBit 5) [wz])) :
    (unmarshalRotX f ⟨e, pk, b, as⟩ w).err = true := by
  rcases truncation_split b t _ _ h with ⟨t2, ht2, h2⟩ | ⟨b2, hb, h2⟩
  · obtain ⟨hp, hb⟩ := truncated_optSeg _ _ b t2 ht2 h2
    have hb0 := truncated_byte wx b t2 ht2 hb
    subst hb0
    unfold unmarshalRotX
    rw [if_pos ((hasRotX_iff f).mpr hp)]
    rfl
  · subst hb
    unfold unmarshalRotX
    cases hp : f.testBit 3
    · have hn : ¬ (f &&& moveFlagHasRotX ≠ 0) := by rw [hasRotX_iff, hp]; simp
      rw [if_neg hn, optSeg_false, List.nil_append]
      exact unmarshalRotY_truncated f e pk as w wy wz b2 t ht h2
    · rw [if_pos ((hasRotX_iff f).mpr hp), optSeg_true]
      exact unmarshalRotY_truncated f e _ _ wx wy wz b2 t ht h2

theorem unmarshalZ_truncated (E : Env) (hE : E.RoundTrips) (hT : E.RejectsTruncation)
    (f : Nat) (e : Bool) (pk : MoveActorDelta) (as : List Field) (v vz : Int)
    (hz : IsInt32 vz) (wx wy wz : Nat) (b t : List Nat) (ht : t ≠ [])
    (h : b ++ t = optSeg (f.testBit 2) (E.WriteVarint32 vz) ++ (optSeg (f.testBit 3) [wx] ++
      (optSeg (f.testBit 4) [wy] ++ optSeg (f.testBit 5) [wz]))) :
    (unmarshalZ E f ⟨e, pk, b, as⟩ v).err = true := by
  rcases truncation_split b t _ _ h with ⟨t2, ht2, h2⟩ | ⟨b2, hb, h2⟩
  · obtain ⟨hp, hb⟩ := truncated_optSeg _ _ b t2 ht2 h2
    unfold unmarshalZ
    rw [if_pos ((hasZ_iff f).mpr hp)]
    simp only [hT.varint32 vz hz.1 hz.2 b t2 v ht2 hb, if_true]
  · subst hb
    unfold unmarshalZ
    cases hp : f.testBit 2
    · have hn : ¬ (f &&& moveFlagHasZ ≠ 0) := by rw [hasZ_iff, hp]; simp
      rw [if_neg hn, optSeg_false, List.nil_append]
      exact unmarshalRotX_truncated f e pk as 0 wx wy wz b2 t ht h2
    · rw [if_pos ((hasZ_iff f).mpr hp), optSeg_true]
      simp only [hE.varint32 vz hz.1 hz.2, Bool.false_eq_true, if_false]
      exact unmarshalRotX_truncated f e _ _ 0 wx wy wz b2 t ht h2

theorem unmarshalY_truncated (E : Env) (hE : E.RoundTrips) (hT : E.RejectsTruncation)
    (f : Nat) (e : Bool) (pk : MoveActorDelta) (as : List Field) (v vy vz : Int)
    (hy : IsInt32 vy) (hz : IsInt32 vz) (wx wy wz : Nat) (b t : List Nat) (ht : t ≠ [])
    (h : b ++ t = optSeg (f.testBit 1) (E.WriteVarint32 vy) ++
      (optSeg (f.testBit 2) (E.WriteVarint32 vz) ++ (optSeg (f.testBit 3) [wx] ++
      (optSeg (f.testBit 4) [wy] ++ optSeg (f.testBit 5) [wz])))) :
    (unmarshalY E f ⟨e, pk, b, as⟩ v).err = true := by
  rcases truncation_split b t _ _ h with ⟨t2, ht2, h2⟩ | ⟨b2, hb, h2⟩
  · obtain ⟨hp, hb⟩ := truncated_optSeg _ _ b t2 ht2 h2
    unfold unmarshalY
    rw [if_pos ((hasY_iff f).mpr hp)]
    simp only [hT.varint32 vy hy.1 hy.2 b t2 v ht2 hb, if_true]
  · subst hb
    unfold unmarshalY
    cases hp : f.testBit 1
    · have hn : ¬ (f &&& moveFlagHasY ≠ 0) := by rw [hasY_iff, hp]; simp
      rw [if_neg hn, optSeg_false, List.nil_append]
      exact unmarshalZ_truncated E hE hT f e pk as v vz hz wx wy wz b2 t ht h2
    · rw [if_pos ((hasY_iff f).mpr hp), optSeg_true]
      simp only [hE.varint32 vy hy.1 hy.2, Bool.false_eq_true, if_false]
      exact unmarshalZ_truncated E hE hT f e _ _ vy vz hz wx wy wz b2 t ht h2

theorem unmarshalX_truncated (E : Env) (hE : E.RoundTrips) (hT : E.RejectsTruncation)
    (f : Nat) (e : Bool) (pk : MoveActorDelta) (as : List Field) (v vx vy vz : Int)
    (hx : IsInt32 vx) (hy : IsInt32 vy) (hz : IsInt32 vz) (wx wy wz : Nat) (b t : List Nat)
    (ht : t ≠ [])
    (h : b ++ t = optSeg (f.testBit 0) (E.WriteVarint32 vx) ++
      (optSeg (f.testBit 1) (E.WriteVarint32 vy) ++
      (optSeg (f.testBit 2) (E.WriteVarint32 vz) ++ (optSeg (f.testBit 3) [wx] ++
      (optSeg (f.testBit 4) [wy] ++ optSeg (f.testBit 5) [wz]))))) :
    (unmarshalX E f ⟨e, pk, b, as⟩ v).err = true := by
  rcases truncation_split b t _ _ h with ⟨t2, ht2, h2⟩ | ⟨b2, hb, h2⟩
  · obtain ⟨hp, hb⟩ := truncated_optSeg _ _ b t2 ht2 h2
    unfold unmarshalX
    rw [if_pos ((hasX_iff f).mpr hp)]
    simp only [hT.varint32 vx hx.1 hx.2 b t2 v ht2 hb, if_true]
  · subst hb
    unfold unmarshalX
    cases hp : f.testBit 0
    · have hn : ¬ (f &&& moveFlagHasX ≠ 0) := by rw [hasX_iff, hp]; simp
      rw [if_neg hn, optSeg_false, List.nil_append]
      exact unmarshalY_truncated E hE hT f e pk as v vy vz hy hz wx wy wz b2 t ht h2
    · rw [if_pos ((hasX_iff f).mpr hp), optSeg_true]
      simp only [hE.varint32 vx hx.1 hx.2, Bool.false_eq_true, if_false]
      exact unmarshalY_truncated E hE hT f e _ _ vx vy vz hy hz wx wy wz b2 t ht h2

theorem binaryReadUint16_truncated (f0 f1 x : Nat) (b t : List Nat) (ht : t ≠ [])
    (h : b ++ t = [f0, f1]) : (binaryReadUint16 b x).err = true := by
  match b, h with
  | [], _ => rfl
  | [_], _ => rfl
  | c :: c2 :: b2, h =>
    simp only [List.cons_append, List.cons.injEq] at h
    exact absurd (List.append_eq_nil.mp h.2.2).2 ht

/-- Truncated frames are rejected. -/
theorem Unmarshal_truncated_frame (E : Env) (hE : E.RoundTrips) (hT : E.RejectsTruncation)
    (pk0 : MoveActorDelta) (id f : Nat) (vx vy vz : Int) (wx wy wz : Nat)
    (hid : id < 2 ^ 64) (hf : f < 2 ^ 16) (hx : IsInt32 vx) (hy : IsInt32 vy) (hz : IsInt32 vz)
    (b t : List Nat) (ht : t ≠ []) (h : b ++ t = frame E id f vx vy vz wx wy wz) :
    (Unmarshal E pk0 b).err = true := by
  unfold frame at h
  rcases truncation_split b t _ _ h with ⟨t2, ht2, h2⟩ | ⟨b2, hb, h2⟩
  · have he := hT.varuint64 id hid b t2 pk0.EntityRuntimeID ht2 h2
    unfold Unmarshal
    simp only [chainErr, he, List.any_cons, id_eq, Bool.true_or, if_true]
  · subst hb
    rcases truncation_split b2 t _ _ h2 with ⟨t3, ht3, h3⟩ | ⟨b3, hb, h3⟩
    · have he := binaryReadUint16_truncated _ _ 0 b2 t3 ht3 h3
      unfold Unmarshal
      simp only [hE.varuint64 id hid, chainErr, he, List.any_cons, List.any_nil, id_eq,
        Bool.or_true, Bool.true_or, Bool.or_false, if_true]
    · subst hb
      unfold Unmarshal
      simp only [hE.varuint64 id hid, binaryReadUint16_le16 f hf, chainErr, List.any_cons,
        List.any_nil, id_eq, Bool.or_self, Bool.false_eq_true, if_false]
      exact unmarshalX_truncated E hE hT f false _ [] 0 vx vy vz hx hy hz wx wy wz b3 t ht h3

/-! ## Order of the stores -/

theorem unmarshalRotZ_log (f : Nat) (st : Decoded) (w : Nat) :
    ∃ l2, (unmarshalRotZ f st w).assigned ++ l2
        = st.assigned ++ optField (f.testBit 5) Field.rotZ ∧
      ((unmarshalRotZ f st w).err = true ↔ (st.err = true ∨ l2 ≠ [])) := by
  unfold unmarshalRotZ
  cases hp : f.testBit 5
  · have hn : ¬ (f &&& moveFlagHasRotZ ≠ 0) := by rw [hasRotZ_iff, hp]; simp
    rw [if_neg hn]
    exact ⟨[], by simp, by simp⟩
  · rw [if_pos ((hasRotZ_iff f).mpr hp)]
    by_cases he : (binaryReadByte st.buf w).err = true
    · simp only [he, if_true]
      exact ⟨[Field.rotZ], by simp, by simp⟩
    · simp only [he, Bool.false_eq_true, if_false]
      exact ⟨[], by simp, by simp⟩

theorem unmarshalRotY_log (f : Nat) (st : Decoded) (w : Nat) :
    ∃ l2, (unmarshalRotY f st w).assigned ++ l2
        = st.assigned ++ (optField (f.testBit 4) Field.rotY ++
            optField (f.testBit 5) Field.rotZ) ∧
      ((unmarshalRotY f st w).err = true ↔ (st.err = true ∨ l2 ≠ [])) := by
  unfold unmarshalRotY
  cases hp : f.testBit 4
  · have hn : ¬ (f &&& moveFlagHasRotY ≠ 0) := by rw [hasRotY_iff, hp]; simp
    rw [if_neg hn]
    simpa using unmarshalRotZ_log f st w
  · rw [if_pos ((hasRotY_iff f).mpr hp)]
    by_cases he : (binaryReadByte st.buf w).err = true
    · simp only [he, if_true]
      exact ⟨_, rfl, by simp⟩
    · simp only [he, Bool.false_eq_true, if_false]
      obtain ⟨l2, h1, h2⟩ := unmarshalRotZ_log f
        { st with
          pk := { st.pk with DeltaRotation := { st.pk.DeltaRotation with
                    y := f32Mul (f32OfNat (binaryReadByte st.buf w).val) rotUnit } }
          buf := (binaryReadByte st.buf w).rest
          assigned := st.assigned ++ [Field.rotY] } (binaryReadByte st.buf w).val
      exact ⟨l2, by rw [h1]; simp, h2⟩

theorem unmarshalRotX_log (f : Nat) (st : Decoded) (w : Nat) :
    ∃ l2, (unmarshalRotX f st w).assigned ++ l2
        = st.assigned ++ (optField (f.testBit 3) Field.rotX ++
            (optField (f.testBit 4) Field.rotY ++ optField (f.testBit 5) Field.rotZ)) ∧
      ((unmarshalRotX f st w).err = true ↔ (st.err = true ∨ l2 ≠ [])) := by
  unfold unmarshalRotX
  cases hp : f.testBit 3
  · have hn : ¬ (f &&& moveFlagHasRotX ≠ 0) := by rw [hasRotX_iff, hp]; simp
    rw [if_neg hn]
    simpa using unmarshalRotY_log f st w
  · rw [if_pos ((hasRotX_iff f).mpr hp)]
    by_cases he : (binaryReadByte st.buf w).err = true
    · simp only [he, if_true]
      exact ⟨_, rfl, by simp⟩
    · simp only [he, Bool.false_eq_true, if_false]
      obtain ⟨l2, h1, h2⟩ := unmarshalRotY_log f
        { st with
          pk := { st.pk with DeltaRotation := { st.pk.DeltaRotation with
                    x := f32Mul (f32OfNat (binaryReadByte st.buf w).val) rotUnit } }
          buf := (binaryReadByte st.buf w).rest
          assigned := st.assigned ++ [Field.rotX] } (binaryReadByte st.buf w).val
      exact ⟨l2, by rw [h1]; simp, h2⟩

theorem unmarshalZ_log (E : Env) (f : Nat) (st : Decoded) (v : Int) :
    ∃ l2, (unmarshalZ E f st v).assigned ++ l2
        = st.assigned ++ (optField (f.testBit 2) Field.posZ ++
            (optField (f.testBit 3) Field.rotX ++
            (optField (f.testBit 4) Field.rotY ++ optField (f.testBit 5) Field.rotZ))) ∧
      ((unmarshalZ E f st v).err = true ↔ (st.err = true ∨ l2 ≠ [])) := by
  unfold unmarshalZ
  cases hp : f.testBit 2
  · have hn : ¬ (f &&& moveFlagHasZ ≠ 0) := by rw [hasZ_iff, hp]; simp
    rw [if_neg hn]
    simpa using unmarshalRotX_log f st 0
  · rw [if_pos ((hasZ_iff f).mpr hp)]
    by_cases he : (E.Varint32 st.buf v).err = true
    · simp only [he, if_true]
      exact ⟨_, rfl, by simp⟩
    · simp only [he, Bool.false_eq_true, if_false]
      obtain ⟨l2, h1, h2⟩ := unmarshalRotX_log f
        { st with
          pk := { st.pk with DeltaPosition := { st.pk.DeltaPosition with
                    z := Float32frombits (uint32 (E.Varint32 st.buf v).val) } }
          buf := (E.Varint32 st.buf v).rest
          assigned := st.assigned ++ [Field.posZ] } 0
      exact ⟨l2, by rw [h1]; simp, h2⟩

theorem unmarshalY_log (E : Env) (f : Nat) (st : Decoded) (v : Int) :
    ∃ l2, (unmarshalY E f st v).assigned ++ l2
        = st.assigned ++ (optField (f.testBit 1) Field.posY ++
            (optField (f.testBit 2) Field.posZ ++ (optField (f.testBit 3) Field.rotX ++
            (optField (f.testBit 4) Field.rotY ++ optField (f.testBit 5) Field.rotZ)))) ∧
      ((unmarshalY E f st v).err = true ↔ (st.err = true ∨ l2 ≠ [])) := by
  unfold unmarshalY
  cases hp : f.testBit 1
  · have hn : ¬ (f &&& moveFlagHasY ≠ 0) := by rw [hasY_iff, hp]; simp
    rw [if_neg hn]
    simpa using unmarshalZ_log E f st v
  · rw [if_pos ((hasY_iff f).mpr hp)]
    by_cases he : (E.Varint32 st.buf v).err = true
    · simp only [he, if_true]
      exact ⟨_, rfl, by simp⟩
    · simp only [he, Bool.false_eq_true, if_false]
      obtain ⟨l2, h1, h2⟩ := unmarshalZ_log E f
        { st with
          pk := { st.pk with DeltaPosition := { st.pk.DeltaPosition with
                    y := Float32frombits (uint32 (E.Varint32 st.buf v).val) } }
          buf := (E.Varint32 st.buf v).rest
          assigned := st.assigned ++ [Field.posY] } (E.Varint32 st.buf v).val
      exact ⟨l2, by rw [h1]; simp, h2⟩

theorem unmarshalX_log (E : Env) (f : Nat) (st : Decoded) (v : Int) :
    ∃ l2, (unmarshalX E f st v).assigned ++ l2 = st.assigned ++ frameFields f ∧
      ((unmarshalX E f st v).err = true ↔ (st.err = true ∨ l2 ≠ [])) := by
  unfold unmarshalX frameFields
  cases hp : f.testBit 0
  · have hn : ¬ (f &&& moveFlagHasX ≠ 0) := by rw [hasX_iff, hp]; simp
    rw [if_neg hn]
    simpa using unmarshalY_log E f st v
  · rw [if_pos ((hasX_iff f).mpr hp)]
    by_cases he : (E.Varint32 st.buf v).err = true
    · simp only [he, if_true]
      exact ⟨_, rfl, by simp⟩
    · simp only [he, Bool.false_eq_true, if_false]
      obtain ⟨l2, h1, h2⟩ := unmarshalY_log E f
        { st with
          pk := { st.pk with DeltaPosition := { st.pk.DeltaPosition with
                    x := Float32frombits (uint32 (E.Varint32 st.buf v).val) } }
          buf := (E.Varint32 st.buf v).rest
          assigned := st.assigned ++ [Field.posX] } (E.Varint32 st.buf v).val
      exact ⟨l2, by rw [h1]; simp, h2⟩

/-! ## Frames of extreme size -/

theorem marshalFlags_lt (pk : MoveActorDelta) : marshalFlags pk < 64 :=
  (marshalFlags_testBit pk).2.2.2.2.2.2

theorem flagsOfBits_all_false : flagsOfBits false false false false false false = 0 := by decide

theorem flagsOfBits_all_true : flagsOfBits true true true true true true = 63 := by decide

theorem marshalFlags_all_zero (pk : MoveActorDelta) (h : ∀ c : Field, ¬ f32NeZero (pk.get c)) :
    marshalFlags pk = 0 := by
  have h0 : ¬ f32NeZero pk.DeltaPosition.x := h Field.posX
  have h1 : ¬ f32NeZero pk.DeltaPosition.y := h Field.posY
  have h2 : ¬ f32NeZero pk.DeltaPosition.z := h Field.posZ
  have h3 : ¬ f32NeZero pk.DeltaRotation.x := h Field.rotX
  have h4 : ¬ f32NeZero pk.DeltaRotation.y := h Field.rotY
  have h5 : ¬ f32NeZero pk.DeltaRotation.z := h Field.rotZ
  rw [marshalFlags_eq, decide_eq_false h0, decide_eq_false h1, decide_eq_false h2,
    decide_eq_false h3, decide_eq_false h4, decide_eq_false h5]
  exact flagsOfBits_all_false

theorem marshalFlags_all_set (pk : MoveActorDelta) (h : ∀ c : Field, f32NeZero (pk.get c)) :
    marshalFlags pk = 63 := by
  have h0 : f32NeZero pk.DeltaPosition.x := h Field.posX
  have h1 : f32NeZero pk.DeltaPosition.y := h Field.posY
  have h2 : f32NeZero pk.DeltaPosition.z := h Field.posZ
  have h3 : f32NeZero pk.DeltaRotation.x := h Field.rotX
  have h4 : f32NeZero pk.DeltaRotation.y := h Field.rotY
  have h5 : f32NeZero pk.DeltaRotation.z := h Field.rotZ
  rw [marshalFlags_eq, decide_eq_true h0, decide_eq_true h1, decide_eq_true h2,
    decide_eq_true h3, decide_eq_true h4, decide_eq_true h5]
  exact flagsOfBits_all_true

/-! ## Special values -/

theorem f32NeZero_of_exp (x : Nat) (h : f32Exp x = 255) : f32NeZero x := by
  unfold f32NeZero
  intro hz
  rw [hz.1] at h
  exact absurd h (by decide)

theorem Marshal_segment_of_flag (E : Env) (pk : MoveActorDelta) (c : Field)
    (hc : c.isRot = false) (hnz : f32NeZero (pk.get c)) :
    ∃ pre post, Marshal E pk [] = pre ++ E.WriteVarint32 (int32 (Float32bits (pk.get c))) ++ post := by
  obtain ⟨h0, h1, h2, _⟩ := marshalFlags_testBit pk
  rw [Marshal_eq_frame, List.nil_append]
  unfold frame
  cases c
  · have hb : (marshalFlags pk).testBit 0 = true := by rw [h0]; exact decide_eq_true hnz
    rw [hb, optSeg_true]
    exact ⟨E.WriteVaruint64 pk.EntityRuntimeID ++ [marshalFlags pk % 256, marshalFlags pk / 256 % 256],
      _, by simp only [MoveActorDelta.get, Float32bits, List.append_assoc]; rfl⟩
  · have hb : (marshalFlags pk).testBit 1 = true := by rw [h1]; exact decide_eq_true hnz
    rw [hb, optSeg_true]
    exact ⟨E.WriteVaruint64 pk.EntityRuntimeID ++ ([marshalFlags pk % 256, marshalFlags pk / 256 % 256]
        ++ optSeg ((marshalFlags pk).testBit 0) (E.WriteVarint32 (int32 pk.DeltaPosition.x))),
      _, by simp only [MoveActorDelta.get, Float32bits, List.append_assoc]; rfl⟩
  · have hb : (marshalFlags pk).testBit 2 = true := by rw [h2]; exact decide_eq_true hnz
    rw [hb, optSeg_true]
    exact ⟨E.WriteVaruint64 pk.EntityRuntimeID ++ ([marshalFlags pk % 256, marshalFlags pk / 256 % 256]
        ++ (optSeg ((marshalFlags pk).testBit 0) (E.WriteVarint32 (int32 pk.DeltaPosition.x))
        ++ optSeg ((marshalFlags pk).testBit 1) (E.WriteVarint32 (int32 pk.DeltaPosition.y)))),
      _, by simp only [MoveActorDelta.get, Float32bits, List.append_assoc]; rfl⟩
  · exact absurd hc (by decide)
  · exact absurd hc (by decide)
  · exact absurd hc (by decide)

theorem WF_get_lt (pk : MoveActorDelta) (hwf : pk.WF) (c : Field) : pk.get c < 2 ^ 32 := by
  obtain ⟨_, h1, h2, h3, h4, h5, h6⟩ := hwf
  cases c <;> assumption

/-! ## Negative zero -/

theorem Marshal_set_negative_zero (E : Env) (pk : MoveActorDelta) (c : Field)
    (hz : pk.get c = 0) (buf : List Nat) :
    Marshal E (pk.set c 0x80000000) buf = Marshal E pk buf := by
  have hn : ¬ f32NeZero 2147483648 := by decide
  have h0 : ¬ f32NeZero 0 := by decide
  obtain ⟨id, ⟨x, y, z⟩, ⟨rx, ry, rz⟩⟩ := pk
  cases c <;> simp only [MoveActorDelta.get] at hz <;> subst hz <;>
    simp only [MoveActorDelta.set, Marshal, marshalFlags, hn, h0, if_false]

/-! ## The fixed packet -/

theorem int32_uint32 (v : Int) (hv : IsInt32 v) : int32 (uint32 v) = v := by
  obtain ⟨h1, h2⟩ := hv
  unfold int32 uint32
  split <;> omega

theorem uint32_lt (v : Int) : uint32 v < 2 ^ 32 := by
  unfold uint32
  omega

/-! ## Marshal after Unmarshal -/

theorem f32Mul_lt (a b : Nat) : f32Mul a b < 2 ^ 32 := by
  have hs : f32SignXor a b ≤ 2 ^ 31 := by
    unfold f32SignXor
    have : (f32Sign a + f32Sign b) % 2 < 2 := Nat.mod_lt _ (by norm_num)
    omega
  have hr : f32RoundMag (f32Mag a * f32Mag b) (2 ^ 149) ≤ 0x7F800000 := by
    rw [f32RoundMag_eq]; exact Nat.min_le_right _ _
  unfold f32Mul f32NaN
  split_ifs <;> omega

theorem rotRoundTrip_lt (E : Env) (d : Nat) : rotRoundTrip E d < 2 ^ 32 := by
  unfold rotRoundTrip
  split
  · exact f32Mul_lt _ _
  · norm_num

theorem rotRoundTrip_eq (E : Env) (x : Nat) :
    rotRoundTrip E x = if f32NeZero x then f32Mul (f32OfNat (quantize E x)) rotUnit else 0 :=
  rfl

theorem rotRoundTrip_idem (E : Env) (d : Nat) :
    rotRoundTrip E (rotRoundTrip E d) = rotRoundTrip E d ∧
    (f32NeZero (rotRoundTrip E d) →
      f32NeZero d ∧ quantize E (rotRoundTrip E d) = quantize E d) := by
  obtain ⟨h1, h2, h3⟩ := rotRoundTrip_spec E d
  have hK := rotByte_lt E d
  by_cases hnz : f32NeZero (rotRoundTrip E d)
  · have hd : f32NeZero d := by
      by_contra hd
      have : rotRoundTrip E d = 0 := by unfold rotRoundTrip; rw [if_neg hd]
      rw [this] at hnz
      exact absurd hnz (by decide)
    have hb : rotByte E d = quantize E d := by unfold rotByte; rw [if_pos hd]
    have hq : quantize E (rotRoundTrip E d) = quantize E d := by
      rw [quantize_eq E _ h2 h1 (by rw [h3]; omega), h3, hb]
      omega
    refine ⟨?_, fun _ => ⟨hd, hq⟩⟩
    rw [rotRoundTrip_eq E (rotRoundTrip E d), if_pos hnz, hq, rotRoundTrip_eq E d, if_pos hd]
  · refine ⟨?_, fun h => absurd h hnz⟩
    rw [rotRoundTrip_eq E (rotRoundTrip E d), if_neg hnz]
    rcases zero_pattern _ (rotRoundTrip_lt E d) hnz with h | h
    · exact h.symm
    · rw [h] at h1
      exact absurd h1 (by decide)

theorem normalizeField_idem (E : Env) (c : Field) (x : Nat) :
    normalizeField E c (normalizeField E c x) = normalizeField E c x := by
  unfold normalizeField
  cases c.isRot
  · simp only [Bool.false_eq_true, if_false]
    by_cases h : f32NeZero x
    · rw [if_pos h, if_pos h]
    · rw [if_neg h, if_neg (by decide)]
  · simp only [if_true]
    exact (rotRoundTrip_idem E x).1

theorem normalizeField_lt (E : Env) (c : Field) (x : Nat) (hx : x < 2 ^ 32) :
    normalizeField E c x < 2 ^ 32 := by
  unfold normalizeField
  split
  · exact rotRoundTrip_lt E x
  · split
    · exact hx
    · norm_num

theorem roundTrip_normalize (E : Env) (hE : E.RoundTrips) (pk0 pk : MoveActorDelta)
    (hwf : pk.WF) (c : Field) :
    (Unmarshal E pk0 (Marshal E pk [])).pk.get c = normalizeField E c (pk.get c) := by
  unfold normalizeField
  cases hc : c.isRot
  · rw [roundTrip_pos E hE pk0 pk hwf c hc]; simp
  · rw [roundTrip_rot E hE pk0 pk hwf c hc]; simp

theorem roundTrip_id (E : Env) (hE : E.RoundTrips) (pk0 pk : MoveActorDelta) (hwf : pk.WF) :
    (Unmarshal E pk0 (Marshal E pk [])).pk.EntityRuntimeID = pk.EntityRuntimeID := by
  rw [Unmarshal_Marshal_nil E hE pk0 pk hwf.1]

theorem roundTrip_WF (E : Env) (hE : E.RoundTrips) (pk0 pk : MoveActorDelta) (hwf : pk.WF) :
    (Unmarshal E pk0 (Marshal E pk [])).pk.WF := by
  have hg : ∀ c : Field, (Unmarshal E pk0 (Marshal E pk [])).pk.get c < 2 ^ 32 := by
    intro c
    rw [roundTrip_normalize E hE pk0 pk hwf c]
    exact normalizeField_lt E c _ (WF_get_lt pk hwf c)
  refine ⟨?_, hg Field.posX, hg Field.posY, hg Field.posZ, hg Field.rotX, hg Field.rotY,
    hg Field.rotZ⟩
  rw [roundTrip_id E hE pk0 pk hwf]
  exact hwf.1

theorem MoveActorDelta.ext_get (p q : MoveActorDelta)
    (hid : p.EntityRuntimeID = q.EntityRuntimeID) (h : ∀ c : Field, p.get c = q.get c) :
    p = q := by
  obtain ⟨i, ⟨x, y, z⟩, ⟨rx, ry, rz⟩⟩ := p
  obtain ⟨j, ⟨a, b, c⟩, ⟨ra, rb, rc⟩⟩ := q
  have h0 := h Field.posX
  have h1 := h Field.posY
  have h2 := h Field.posZ
  have h3 := h Field.rotX
  have h4 := h Field.rotY
  have h5 := h Field.rotZ
  simp only [MoveActorDelta.get] at h0 h1 h2 h3 h4 h5 hid
  rw [hid, h0, h1, h2, h3, h4, h5]

/-- A packet that has been through the wire once goes through it unchanged, whatever
its rotations were. -/
theorem roundTrip_idem (E : Env) (hE : E.RoundTrips) (pk0 pk1 pk : MoveActorDelta)
    (hwf : pk.WF) :
    (Unmarshal E pk1 (Marshal E (Unmarshal E pk0 (Marshal E pk [])).pk [])).pk
      = (Unmarshal E pk0 (Marshal E pk [])).pk := by
  have hwf2 := roundTrip_WF E hE pk0 pk hwf
  apply MoveActorDelta.ext_get
  · rw [roundTrip_id E hE pk1 _ hwf2]
  · intro c
    rw [roundTrip_normalize E hE pk1 _ hwf2 c, roundTrip_normalize E hE pk0 pk hwf c]
    exact normalizeField_idem E c _

theorem f32Val_one : f32Val 0x3F800000 = 1 := by
  rw [f32Val_of_sign_zero _ (by decide), show f32Mag 0x3F800000 = 2 ^ 149 by decide!]
  norm_num

/-! ## Lengths -/

theorem segLen_optSeg_pos (E : Env) (c : Field) (hc : c.isRot = false) (x : Nat) :
    (optSeg (decide (f32NeZero x)) (E.WriteVarint32 (int32 x))).length = segLen E c x := by
  unfold segLen
  by_cases h : f32NeZero x
  · rw [decide_eq_true h, if_pos h, hc]; rfl
  · rw [decide_eq_false h, if_neg h]; rfl

theorem segLen_optSeg_rot (E : Env) (c : Field) (hc : c.isRot = true) (x w : Nat) :
    (optSeg (decide (f32NeZero x)) [w]).length = segLen E c x := by
  unfold segLen
  by_cases h : f32NeZero x
  · rw [decide_eq_true h, if_pos h, hc]; rfl
  · rw [decide_eq_false h, if_neg h]; rfl

theorem Marshal_length (E : Env) (pk : MoveActorDelta) :
    (Marshal E pk []).length = (E.WriteVaruint64 pk.EntityRuntimeID).length + 2 +
      (segLen E Field.posX (pk.get Field.posX) + segLen E Field.posY (pk.get Field.posY) +
       segLen E Field.posZ (pk.get Field.posZ) + segLen E Field.rotX (pk.get Field.rotX) +
       segLen E Field.rotY (pk.get Field.rotY) + segLen E Field.rotZ (pk.get Field.rotZ)) := by
  obtain ⟨h0, h1, h2, h3, h4, h5, _⟩ := marshalFlags_testBit pk
  rw [Marshal_eq_frame, List.nil_append]
  unfold frame
  rw [h0, h1, h2, h3, h4, h5]
  simp only [List.length_append, List.length_cons, List.length_nil, MoveActorDelta.get]
  rw [segLen_optSeg_pos E Field.posX rfl pk.DeltaPosition.x,
    segLen_optSeg_pos E Field.posY rfl pk.DeltaPosition.y,
    segLen_optSeg_pos E Field.posZ rfl pk.DeltaPosition.z,
    segLen_optSeg_rot E Field.rotX rfl pk.DeltaRotation.x,
    segLen_optSeg_rot E Field.rotY rfl pk.DeltaRotation.y,
    segLen_optSeg_rot E Field.rotZ rfl pk.DeltaRotation.z]
  omega

theorem segLen_normalize_le (E : Env) (c : Field) (x : Nat) :
    segLen E c (normalizeField E c x) ≤ segLen E c x := by
  unfold segLen normalizeField
  cases hc : c.isRot
  · simp only [Bool.false_eq_true, if_false]
    by_cases h : f32NeZero x
    · rw [if_pos h, if_pos h]
    · rw [if_neg h, if_neg (by decide)]
      exact Nat.zero_le _
  · simp only [if_true]
    by_cases h : f32NeZero x
    · rw [if_pos h]
      split <;> omega
    · have : rotRoundTrip E x = 0 := by rw [rotRoundTrip_eq, if_neg h]
      rw [this, if_neg (by decide)]
      exact Nat.zero_le _

/-! # Properties of the specification -/

/-- C1, amended (round trip of MoveActorDelta). With variable-length primitives that
round-trip, for every identifier, every position with finite components and every rotation
whose components are angles one byte can carry (`k * 360/256` for an integer `k` in
0..255), `Unmarshal` of what `Marshal` wrote succeeds and yields a packet equal to the
original under the Go comparison of floats, a zero component being decoded as `0.0`. -/
theorem C1_roundTrip_byte_angles (E : Env) (hE : E.RoundTrips) (pk0 pk : MoveActorDelta)
    (hwf : pk.WF)
    (hpx : f32IsFinite pk.DeltaPosition.x) (hpy : f32IsFinite pk.DeltaPosition.y)
    (hpz : f32IsFinite pk.DeltaPosition.z)
    (hrx : IsByteAngle pk.DeltaRotation.x) (hry : IsByteAngle pk.DeltaRotation.y)
    (hrz : IsByteAngle pk.DeltaRotation.z) :
    (Unmarshal E pk0 (Marshal E pk [])).err = false ∧
      (Unmarshal E pk0 (Marshal E pk [])).pk.EqGo pk := by
  have e1 := roundTrip_pos E hE pk0 pk hwf Field.posX rfl
  have e2 := roundTrip_pos E hE pk0 pk hwf Field.posY rfl
  have e3 := roundTrip_pos E hE pk0 pk hwf Field.posZ rfl
  have e4 := roundTrip_rot E hE pk0 pk hwf Field.rotX rfl
  have e5 := roundTrip_rot E hE pk0 pk hwf Field.rotY rfl
  have e6 := roundTrip_rot E hE pk0 pk hwf Field.rotZ rfl
  have e0 : (Unmarshal E pk0 (Marshal E pk [])).pk.EntityRuntimeID = pk.EntityRuntimeID := by
    rw [Unmarshal_Marshal_nil E hE pk0 pk hwf.1]
  have e7 : (Unmarshal E pk0 (Marshal E pk [])).err = false := by
    rw [Unmarshal_Marshal_nil E hE pk0 pk hwf.1]
  simp only [MoveActorDelta.get] at e1 e2 e3 e4 e5 e6
  refine ⟨e7, e0, ?_, ?_, ?_, ?_, ?_, ?_⟩
  · rw [e1]; exact f32Eq_pos_roundTrip _ hpx
  · rw [e2]; exact f32Eq_pos_roundTrip _ hpy
  · rw [e3]; exact f32Eq_pos_roundTrip _ hpz
  · rw [e4]; exact f32Eq_rot_roundTrip E _ hrx
  · rw [e5]; exact f32Eq_rot_roundTrip E _ hry
  · rw [e6]; exact f32Eq_rot_roundTrip E _ hrz

theorem C1_roundTrip_byte_angles_witness :
    stdEnv.RoundTrips ∧
    (⟨300, ⟨0x3FC00000, 0x80000000, 0xBF800000⟩, ⟨0x43B34C00, 0, 0x3FB40000⟩⟩
      : MoveActorDelta).WF ∧
    f32IsFinite 0x3FC00000 ∧ f32IsFinite 0x80000000 ∧ f32IsFinite 0xBF800000 ∧
    IsByteAngle 0x43B34C00 ∧ IsByteAngle 0 ∧ IsByteAngle 0x3FB40000 ∧
    (Unmarshal stdEnv ⟨5, ⟨1, 2, 3⟩, ⟨4, 5, 6⟩⟩ (Marshal stdEnv
      ⟨300, ⟨0x3FC00000, 0x80000000, 0xBF800000⟩, ⟨0x43B34C00, 0, 0x3FB40000⟩⟩ [])).err
        = false ∧
    (Unmarshal stdEnv ⟨5, ⟨1, 2, 3⟩, ⟨4, 5, 6⟩⟩ (Marshal stdEnv
      ⟨300, ⟨0x3FC00000, 0x80000000, 0xBF800000⟩, ⟨0x43B34C00, 0, 0x3FB40000⟩⟩ [])).pk.EqGo
        ⟨300, ⟨0x3FC00000, 0x80000000, 0xBF800000⟩, ⟨0x43B34C00, 0, 0x3FB40000⟩⟩ :=
  ⟨stdEnv_roundTrips, by decide, by decide, by decide, by decide,
    isByteAngle_max, isByteAngle_zero, isByteAngle_rotUnit,
    C1_roundTrip_byte_angles stdEnv stdEnv_roundTrips _ _ (by decide) (by decide) (by decide)
      (by decide) isByteAngle_max isByteAngle_zero isByteAngle_rotUnit⟩

/-- C1 as stated fails: the rotation `(1.0, 0, 0)` has finite components, is written
as the byte 0 and comes back as `0.0`, which is not equal to `1.0`. -/
theorem C1_counterexample :
    stdEnv.RoundTrips ∧
    (⟨1, ⟨0, 0, 0⟩, ⟨0x3F800000, 0, 0⟩⟩ : MoveActorDelta).WF ∧
    f32IsFinite 0 ∧ f32IsFinite 0x3F800000 ∧
    Marshal stdEnv ⟨1, ⟨0, 0, 0⟩, ⟨0x3F800000, 0, 0⟩⟩ [] = [1, 8, 0, 0] ∧
    (Unmarshal stdEnv ⟨1, ⟨0, 0, 0⟩, ⟨0x3F800000, 0, 0⟩⟩
      (Marshal stdEnv ⟨1, ⟨0, 0, 0⟩, ⟨0x3F800000, 0, 0⟩⟩ [])).pk = ⟨1, ⟨0, 0, 0⟩, ⟨0, 0, 0⟩⟩ ∧
    ¬ (Unmarshal stdEnv ⟨1, ⟨0, 0, 0⟩, ⟨0x3F800000, 0, 0⟩⟩
      (Marshal stdEnv ⟨1, ⟨0, 0, 0⟩, ⟨0x3F800000, 0, 0⟩⟩ [])).pk.EqGo
        ⟨1, ⟨0, 0, 0⟩, ⟨0x3F800000, 0, 0⟩⟩ :=
  ⟨stdEnv_roundTrips, by decide, by decide, by decide, by decide!, by decide!, by decide!⟩

/-- C2, amended (position components round-trip exactly). With a varint32 primitive that
round-trips every int32, for every identifier and every position whose components are
finite floats other than `-0.0` (pattern `0x80000000`), the rotation being all zero,
`Unmarshal` of what `Marshal` wrote succeeds and yields a position whose three components
have exactly the patterns of the original. -/
theorem C2_position_patterns (E : Env) (hE : E.RoundTrips) (pk0 pk : MoveActorDelta)
    (hwf : pk.WF)
    (_hpx : f32IsFinite pk.DeltaPosition.x) (_hpy : f32IsFinite pk.DeltaPosition.y)
    (_hpz : f32IsFinite pk.DeltaPosition.z)
    (hnx : pk.DeltaPosition.x ≠ 0x80000000) (hny : pk.DeltaPosition.y ≠ 0x80000000)
    (hnz : pk.DeltaPosition.z ≠ 0x80000000)
    (_hrot : pk.DeltaRotation = Vec3.zero) :
    (Unmarshal E pk0 (Marshal E pk [])).err = false ∧
      (Unmarshal E pk0 (Marshal E pk [])).pk.DeltaPosition = pk.DeltaPosition := by
  have key : ∀ x : Nat, x < 2 ^ 32 → x ≠ 0x80000000 → (if f32NeZero x then x else 0) = x := by
    intro x hx hn
    by_cases h : f32NeZero x
    · rw [if_pos h]
    · rw [if_neg h]
      rcases zero_pattern x hx h with h0 | h1
      · exact h0.symm
      · exact absurd h1 hn
  have e1 := roundTrip_pos E hE pk0 pk hwf Field.posX rfl
  have e2 := roundTrip_pos E hE pk0 pk hwf Field.posY rfl
  have e3 := roundTrip_pos E hE pk0 pk hwf Field.posZ rfl
  have e7 : (Unmarshal E pk0 (Marshal E pk [])).err = false := by
    rw [Unmarshal_Marshal_nil E hE pk0 pk hwf.1]
  simp only [MoveActorDelta.get] at e1 e2 e3
  rw [key _ hwf.2.1 hnx] at e1
  rw [key _ hwf.2.2.1 hny] at e2
  rw [key _ hwf.2.2.2.1 hnz] at e3
  refine ⟨e7, ?_⟩
  generalize (Unmarshal E pk0 (Marshal E pk [])).pk.DeltaPosition = p at *
  obtain ⟨a, b, c⟩ := p
  obtain ⟨i, ⟨x, y, z⟩, r⟩ := pk
  simp only at e1 e2 e3
  rw [e1, e2, e3]

theorem C2_position_patterns_witness :
    stdEnv.RoundTrips ∧
    (⟨300, ⟨0x3FC00000, 0, 0xBF800000⟩, ⟨0, 0, 0⟩⟩ : MoveActorDelta).WF ∧
    f32IsFinite 0x3FC00000 ∧ f32IsFinite 0 ∧ f32IsFinite 0xBF800000 ∧
    (0x3FC00000 : Nat) ≠ 0x80000000 ∧ (0 : Nat) ≠ 0x80000000 ∧
    (0xBF800000 : Nat) ≠ 0x80000000 ∧
    (Unmarshal stdEnv ⟨5, ⟨1, 2, 3⟩, ⟨4, 5, 6⟩⟩
      (Marshal stdEnv ⟨300, ⟨0x3FC00000, 0, 0xBF800000⟩, ⟨0, 0, 0⟩⟩ [])).err = false ∧
    (Unmarshal stdEnv ⟨5, ⟨1, 2, 3⟩, ⟨4, 5, 6⟩⟩
      (Marshal stdEnv ⟨300, ⟨0x3FC00000, 0, 0xBF800000⟩, ⟨0, 0, 0⟩⟩ [])).pk.DeltaPosition
        = ⟨0x3FC00000, 0, 0xBF800000⟩ :=
  ⟨stdEnv_roundTrips, by decide, by decide, by decide, by decide, by decide, by decide,
    by decide,
    C2_position_patterns stdEnv stdEnv_roundTrips _ _ (by decide) (by decide) (by decide)
      (by decide) (by decide) (by decide) (by decide) rfl⟩

/-- C2 as stated fails: `-0.0` is a finite float, its pattern is `0x80000000`; it
compares equal to zero, so nothing is written for it and it comes back with the pattern
`0x00000000`. -/
theorem C2_counterexample :
    stdEnv.RoundTrips ∧
    (⟨1, ⟨0x80000000, 0, 0⟩, ⟨0, 0, 0⟩⟩ : MoveActorDelta).WF ∧
    f32IsFinite 0x80000000 ∧ f32IsFinite 0 ∧
    Marshal stdEnv ⟨1, ⟨0x80000000, 0, 0⟩, ⟨0, 0, 0⟩⟩ [] = [1, 0, 0] ∧
    (Unmarshal stdEnv ⟨1, ⟨0x80000000, 0, 0⟩, ⟨0, 0, 0⟩⟩
      (Marshal stdEnv ⟨1, ⟨0x80000000, 0, 0⟩, ⟨0, 0, 0⟩⟩ [])).pk.DeltaPosition.x = 0 ∧
    (Unmarshal stdEnv ⟨1, ⟨0x80000000, 0, 0⟩, ⟨0, 0, 0⟩⟩
      (Marshal stdEnv ⟨1, ⟨0x80000000, 0, 0⟩, ⟨0, 0, 0⟩⟩ [])).pk.DeltaPosition.x
        ≠ 0x80000000 :=
  ⟨stdEnv_roundTrips, by decide, by decide, by decide, by decide!, by decide!, by decide!⟩

/-- C3 (wire layout of Marshal). For every packet and every content of the buffer,
`Marshal` keeps the bytes already in the buffer and appends exactly: the identifier as a
varuint64, the flags as two bytes low byte first, a varint32 of the float pattern
reinterpreted as int32 for each of x, y, z whose flag is set, then one quantized byte for
each of rotX, rotY, rotZ whose flag is set; nothing else, so no packet identifier. -/
theorem C3_marshal_wire_layout (E : Env) (pk : MoveActorDelta) (buf : List Nat) :
    Marshal E pk buf
      = buf ++ (E.WriteVaruint64 pk.EntityRuntimeID ++
          ([marshalFlags pk % 256, marshalFlags pk / 256 % 256] ++
          (optSeg ((marshalFlags pk).testBit 0)
              (E.WriteVarint32 (int32 (Float32bits pk.DeltaPosition.x))) ++
          (optSeg ((marshalFlags pk).testBit 1)
              (E.WriteVarint32 (int32 (Float32bits pk.DeltaPosition.y))) ++
          (optSeg ((marshalFlags pk).testBit 2)
              (E.WriteVarint32 (int32 (Float32bits pk.DeltaPosition.z))) ++
          (optSeg ((marshalFlags pk).testBit 3) [quantize E pk.DeltaRotation.x] ++
          (optSeg ((marshalFlags pk).testBit 4) [quantize E pk.DeltaRotation.y] ++
          optSeg ((marshalFlags pk).testBit 5) [quantize E pk.DeltaRotation.z]))))))) ∧
    marshalFlags pk < 2 ^ 16 ∧
    quantize E pk.DeltaRotation.x < 256 ∧ quantize E pk.DeltaRotation.y < 256 ∧
    quantize E pk.DeltaRotation.z < 256 := by
  refine ⟨Marshal_eq_frame E pk buf, ?_, quantize_lt _ _, quantize_lt _ _, quantize_lt _ _⟩
  have := (marshalFlags_testBit pk).2.2.2.2.2.2
  omega

/-- C4 (flags derivation). The flags word that `Marshal` writes after the identifier has
bit 0..5 (hasX, hasY, hasZ, hasRotX, hasRotY, hasRotZ) set exactly when the corresponding
component compares different from zero, for each component on its own, and is the same
for two packets with the same six components. -/
theorem C4_flags_derivation (E : Env) (pk : MoveActorDelta) (buf : List Nat) :
    (∃ tail, Marshal E pk buf = buf ++ (E.WriteVaruint64 pk.EntityRuntimeID ++
        ([marshalFlags pk % 256, marshalFlags pk / 256 % 256] ++ tail))) ∧
    marshalFlags pk < 2 ^ 16 ∧
    (∀ c : Field, (marshalFlags pk).testBit c.bit = true ↔ f32NeZero (pk.get c)) ∧
    (∀ pk2 : MoveActorDelta, pk2.DeltaPosition = pk.DeltaPosition →
      pk2.DeltaRotation = pk.DeltaRotation → marshalFlags pk2 = marshalFlags pk) := by
  refine ⟨⟨_, Marshal_eq_frame E pk buf⟩, ?_, marshalFlags_testBit_field pk, ?_⟩
  · have := (marshalFlags_testBit pk).2.2.2.2.2.2
    omega
  · intro pk2 hp hr
    unfold marshalFlags
    rw [hp, hr]

/-- C5 (Unmarshal consumes exactly what Marshal produced). With variable-length
primitives that round-trip and are self-delimiting, `Unmarshal` on the output of
`Marshal` followed by any bytes `rest` succeeds and leaves exactly `rest` unread. -/
theorem C5_unmarshal_consumes_exactly (E : Env) (hE : E.RoundTrips)
    (pk0 pk : MoveActorDelta) (rest : List Nat) (hwf : pk.WF) :
    (Unmarshal E pk0 (Marshal E pk [] ++ rest)).err = false ∧
      (Unmarshal E pk0 (Marshal E pk [] ++ rest)).buf = rest := by
  rw [Unmarshal_Marshal E hE pk0 pk rest hwf.1]
  exact ⟨rfl, rfl⟩

theorem C5_unmarshal_consumes_exactly_witness :
    stdEnv.RoundTrips ∧
    (⟨300, ⟨0x3FC00000, 0, 0xBF800000⟩, ⟨0x43B38000, 0, 0x3F800000⟩⟩ : MoveActorDelta).WF ∧
    (Unmarshal stdEnv ⟨5, ⟨1, 2, 3⟩, ⟨4, 5, 6⟩⟩
      (Marshal stdEnv ⟨300, ⟨0x3FC00000, 0, 0xBF800000⟩, ⟨0x43B38000, 0, 0x3F800000⟩⟩ []
        ++ [7, 8, 9])).err = false ∧
    (Unmarshal stdEnv ⟨5, ⟨1, 2, 3⟩, ⟨4, 5, 6⟩⟩
      (Marshal stdEnv ⟨300, ⟨0x3FC00000, 0, 0xBF800000⟩, ⟨0x43B38000, 0, 0x3F800000⟩⟩ []
        ++ [7, 8, 9])).buf = [7, 8, 9] :=
  ⟨stdEnv_roundTrips, by decide,
    C5_unmarshal_consumes_exactly stdEnv stdEnv_roundTrips _ _ _ (by decide)⟩

/-- C6 (truncation is rejected). With variable-length primitives that round-trip and
reject an encoding cut short, for every packet and every proper initial segment `b` of
what `Marshal` wrote (the empty buffer, a buffer cut inside the identifier or the flags,
a buffer that ends before or inside a component its flags announce), `Unmarshal` of `b`
returns an error. -/
theorem C6_truncation_rejected (E : Env) (hE : E.RoundTrips) (hT : E.RejectsTruncation)
    (pk0 pk : MoveActorDelta) (hwf : pk.WF) (b t : List Nat) (ht : t ≠ [])
    (h : b ++ t = Marshal E pk []) :
    (Unmarshal E pk0 b).err = true := by
  rw [Marshal_eq_frame, List.nil_append] at h
  exact Unmarshal_truncated_frame E hE hT pk0 _ _ _ _ _ _ _ _ hwf.1
    (by have := (marshalFlags_testBit pk).2.2.2.2.2.2; omega)
    (isInt32_int32 _) (isInt32_int32 _) (isInt32_int32 _) b t ht h

theorem C6_truncation_rejected_witness :
    stdEnv.RoundTrips ∧ stdEnv.RejectsTruncation ∧
    (⟨300, ⟨0x3FC00000, 0, 0xBF800000⟩, ⟨0x43B38000, 0, 0⟩⟩ : MoveActorDelta).WF ∧
    ([255] : List Nat) ≠ [] ∧
    [172, 2, 13, 0, 128, 128, 128, 252, 7, 255, 255, 255, 135, 8] ++ [255]
      = Marshal stdEnv ⟨300, ⟨0x3FC00000, 0, 0xBF800000⟩, ⟨0x43B38000, 0, 0⟩⟩ [] ∧
    (Unmarshal stdEnv ⟨5, ⟨1, 2, 3⟩, ⟨4, 5, 6⟩⟩
      [172, 2, 13, 0, 128, 128, 128, 252, 7, 255, 255, 255, 135, 8]).err = true :=
  ⟨stdEnv_roundTrips, stdEnv_rejectsTruncation, by decide, by decide, by decide!,
    C6_truncation_rejected stdEnv stdEnv_roundTrips stdEnv_rejectsTruncation _
      ⟨300, ⟨0x3FC00000, 0, 0xBF800000⟩, ⟨0x43B38000, 0, 0⟩⟩ (by decide)
      [172, 2, 13, 0, 128, 128, 128, 252, 7, 255, 255, 255, 135, 8] [255] (by decide)
      (by decide!)⟩

/-- C7 (unread fields are zero). For every input and every prior content of the receiving
packet, when `Unmarshal` returns, with or without an error, every component of
DeltaPosition and DeltaRotation that no assignment of the call has stored into is `0.0`.
Nothing is stored when reading the identifier or the flags fails; nothing is stored into a
component whose flag bit is clear; otherwise the components stored into are, in wire order,
the first of the flagged components, and all of them exactly when no error is returned, so
that a flagged component at or after the point of failure is not stored into. The result
does not depend on the prior DeltaPosition and DeltaRotation of the receiver. -/
theorem C7_unread_fields_zero (E : Env) (pk : MoveActorDelta) (buf : List Nat) :
    (∀ c : Field, c ∉ (Unmarshal E pk buf).assigned → (Unmarshal E pk buf).pk.get c = 0) ∧
    ((E.Varuint64 buf pk.EntityRuntimeID).err = true ∨
      (binaryReadUint16 (E.Varuint64 buf pk.EntityRuntimeID).rest 0).err = true →
        (Unmarshal E pk buf).err = true ∧ (Unmarshal E pk buf).assigned = []) ∧
    (∀ c : Field, c ∈ (Unmarshal E pk buf).assigned →
      (binaryReadUint16 (E.Varuint64 buf pk.EntityRuntimeID).rest 0).val.testBit c.bit = true) ∧
    ((E.Varuint64 buf pk.EntityRuntimeID).err = false →
      (binaryReadUint16 (E.Varuint64 buf pk.EntityRuntimeID).rest 0).err = false →
      ∃ l2, (Unmarshal E pk buf).assigned ++ l2
          = frameFields (binaryReadUint16 (E.Varuint64 buf pk.EntityRuntimeID).rest 0).val ∧
        ((Unmarshal E pk buf).err = true ↔ l2 ≠ [])) ∧
    (∀ pk2 : MoveActorDelta, pk2.EntityRuntimeID = pk.EntityRuntimeID →
      Unmarshal E pk2 buf = Unmarshal E pk buf) := by
  have hinv : (Unmarshal E pk buf).Inv
      (binaryReadUint16 (E.Varuint64 buf pk.EntityRuntimeID).rest 0).val := by
    unfold Unmarshal
    simp only
    split
    · exact inv_initial _ _ _ _
    · exact unmarshalX_inv E _ _ _ (inv_initial _ _ _ _)
  refine ⟨hinv.1, ?_, hinv.2, ?_, ?_⟩
  · intro h
    have hc : chainErr [(E.Varuint64 buf pk.EntityRuntimeID).err,
        (binaryReadUint16 (E.Varuint64 buf pk.EntityRuntimeID).rest 0).err] = true := by
      rcases h with h | h <;> simp [chainErr, h]
    unfold Unmarshal
    simp only [hc, if_true, and_self]
  · intro h1 h2
    have hc : chainErr [(E.Varuint64 buf pk.EntityRuntimeID).err,
        (binaryReadUint16 (E.Varuint64 buf pk.EntityRuntimeID).rest 0).err] = false := by
      simp [chainErr, h1, h2]
    unfold Unmarshal
    simp only [hc, Bool.false_eq_true, if_false]
    obtain ⟨l2, e1, e2⟩ := unmarshalX_log E
      (binaryReadUint16 (E.Varuint64 buf pk.EntityRuntimeID).rest 0).val
      ⟨false, ⟨(E.Varuint64 buf pk.EntityRuntimeID).val, Vec3.zero, Vec3.zero⟩,
        (binaryReadUint16 (E.Varuint64 buf pk.EntityRuntimeID).rest 0).rest, []⟩ 0
    refine ⟨l2, by rw [e1]; rfl, ?_⟩
    rw [e2]
    simp
  · intro pk2 h
    unfold Unmarshal
    simp only [h]

/-- C8 (the decoder follows the wire layout for every flags value). For every identifier,
every 16-bit flags word `f`, every int32 for the set bits among 0..2 and every byte for
the set bits among 3..5, `Unmarshal` of the frame built from them, followed by `rest`,
succeeds, leaves `rest`, and yields the identifier, for a flagged position component the
float whose pattern is the int32 seen as uint32, for a flagged rotation component the byte
times 360/256, and `0.0` for every component that is not flagged; bits 6..15 of `f` change
neither the result nor the number of bytes consumed. -/
theorem C8_decoder_follows_layout (E : Env) (hE : E.RoundTrips) (pk0 : MoveActorDelta)
    (id f : Nat) (vx vy vz : Int) (wx wy wz : Nat) (rest : List Nat)
    (hid : id < 2 ^ 64) (hf : f < 2 ^ 16)
    (hx : IsInt32 vx) (hy : IsInt32 vy) (hz : IsInt32 vz)
    (hwx : wx < 256) (hwy : wy < 256) (hwz : wz < 256) :
    (Unmarshal E pk0 (frame E id f vx vy vz wx wy wz ++ rest)).err = false ∧
    (Unmarshal E pk0 (frame E id f vx vy vz wx wy wz ++ rest)).buf = rest ∧
    (Unmarshal E pk0 (frame E id f vx vy vz wx wy wz ++ rest)).pk.EntityRuntimeID = id ∧
    (Unmarshal E pk0 (frame E id f vx vy vz wx wy wz ++ rest)).pk.DeltaPosition
      = ⟨if f.testBit 0 then Float32frombits (uint32 vx) else 0,
         if f.testBit 1 then Float32frombits (uint32 vy) else 0,
         if f.testBit 2 then Float32frombits (uint32 vz) else 0⟩ ∧
    (Unmarshal E pk0 (frame E id f vx vy vz wx wy wz ++ rest)).pk.DeltaRotation
      = ⟨if f.testBit 3 then f32Mul (f32OfNat wx) rotUnit else 0,
         if f.testBit 4 then f32Mul (f32OfNat wy) rotUnit else 0,
         if f.testBit 5 then f32Mul (f32OfNat wz) rotUnit else 0⟩ ∧
    (f32IsFinite (f32Mul (f32OfNat wx) rotUnit) ∧
      f32Val (f32Mul (f32OfNat wx) rotUnit) = (wx : ℚ) * (360 / 256)) ∧
    (f32IsFinite (f32Mul (f32OfNat wy) rotUnit) ∧
      f32Val (f32Mul (f32OfNat wy) rotUnit) = (wy : ℚ) * (360 / 256)) ∧
    (f32IsFinite (f32Mul (f32OfNat wz) rotUnit) ∧
      f32Val (f32Mul (f32OfNat wz) rotUnit) = (wz : ℚ) * (360 / 256)) ∧
    (∀ g : Nat, g < 2 ^ 16 → g % 64 = f % 64 →
      (Unmarshal E pk0 (frame E id g vx vy vz wx wy wz ++ rest)).err = false ∧
      (Unmarshal E pk0 (frame E id g vx vy vz wx wy wz ++ rest)).buf = rest ∧
      (Unmarshal E pk0 (frame E id g vx vy vz wx wy wz ++ rest)).pk
        = (Unmarshal E pk0 (frame E id f vx vy vz wx wy wz ++ rest)).pk ∧
      (frame E id g vx vy vz wx wy wz).length = (frame E id f vx vy vz wx wy wz).length) := by
  have val : ∀ w : Nat, w < 256 → f32IsFinite (f32Mul (f32OfNat w) rotUnit) ∧
      f32Val (f32Mul (f32OfNat w) rotUnit) = (w : ℚ) * (360 / 256) := by
    intro w hw
    obtain ⟨h1, h2, h3⟩ := rotDecode_spec w hw
    refine ⟨h2, ?_⟩
    rw [f32Val_of_sign_zero _ h1, h3]
    push_cast
    rw [show (2 : ℚ) ^ 149 = 2 ^ 144 * 32 by norm_num]
    field_simp
    ring
  rw [Unmarshal_frame E hE pk0 id f vx vy vz wx wy wz rest hid hf hx hy hz]
  refine ⟨rfl, rfl, rfl, rfl, rfl, val wx hwx, val wy hwy, val wz hwz, ?_⟩
  intro g hg hgf
  obtain ⟨e1, e2, _, e4⟩ := frame_low_bits E id f g vx vy vz wx wy wz hgf
  rw [Unmarshal_frame E hE pk0 id g vx vy vz wx wy wz rest hid hg hx hy hz]
  exact ⟨rfl, rfl, by rw [e1, e2], e4⟩

theorem C8_decoder_follows_layout_witness :
    stdEnv.RoundTrips ∧ (300 : Nat) < 2 ^ 64 ∧ (0xFFEA : Nat) < 2 ^ 16 ∧
    IsInt32 0 ∧ IsInt32 (-1082130432) ∧ IsInt32 0 ∧
    (Unmarshal stdEnv ⟨5, ⟨1, 2, 3⟩, ⟨4, 5, 6⟩⟩
      (frame stdEnv 300 0xFFEA 0 (-1082130432) 0 255 0 128 ++ [7])).err = false ∧
    (Unmarshal stdEnv ⟨5, ⟨1, 2, 3⟩, ⟨4, 5, 6⟩⟩
      (frame stdEnv 300 0xFFEA 0 (-1082130432) 0 255 0 128 ++ [7])).buf = [7] ∧
    (Unmarshal stdEnv ⟨5, ⟨1, 2, 3⟩, ⟨4, 5, 6⟩⟩
      (frame stdEnv 300 0xFFEA 0 (-1082130432) 0 255 0 128 ++ [7])).pk.EntityRuntimeID = 300 :=
  have h := C8_decoder_follows_layout stdEnv stdEnv_roundTrips ⟨5, ⟨1, 2, 3⟩, ⟨4, 5, 6⟩⟩
    300 0xFFEA 0 (-1082130432) 0 255 0 128 [7] (by decide) (by decide) (by decide)
    (by decide) (by decide) (by decide) (by decide) (by decide)
  ⟨stdEnv_roundTrips, by decide, by decide, by decide, by decide, by decide,
    h.1, h.2.1, h.2.2.1⟩

/-- C9 (angle quantization within a period). With variable-length primitives that
round-trip, for every rotation component whose value `d` is finite with `0 ≤ d < 360`,
`Marshal` followed by `Unmarshal` yields for that component exactly
`truncate(d / (360/256)) * (360/256)`; the absolute error is strictly less than `360/256`;
and the result does not decrease when `d` grows within that range. -/
theorem C9_angle_quantization (E : Env) (hE : E.RoundTrips) (pk0 pk : MoveActorDelta)
    (hwf : pk.WF) (c : Field) (hc : c.isRot = true)
    (hfin : f32IsFinite (pk.get c)) (h0 : 0 ≤ f32Val (pk.get c))
    (h360 : f32Val (pk.get c) < 360) :
    f32IsFinite ((Unmarshal E pk0 (Marshal E pk [])).pk.get c) ∧
    f32Val ((Unmarshal E pk0 (Marshal E pk [])).pk.get c)
      = (⌊f32Val (pk.get c) / (360 / 256)⌋ : ℚ) * (360 / 256) ∧
    |f32Val (pk.get c) - f32Val ((Unmarshal E pk0 (Marshal E pk [])).pk.get c)| < 360 / 256 ∧
    (∀ (qk0 qk : MoveActorDelta) (e : Field), qk.WF → e.isRot = true →
      f32IsFinite (qk.get e) → 0 ≤ f32Val (qk.get e) → f32Val (qk.get e) < 360 →
      f32Val (pk.get c) ≤ f32Val (qk.get e) →
      f32Val ((Unmarshal E pk0 (Marshal E pk [])).pk.get c)
        ≤ f32Val ((Unmarshal E qk0 (Marshal E qk [])).pk.get e)) := by
  rw [roundTrip_rot E hE pk0 pk hwf c hc]
  have hv := rot_value_in_period E (pk.get c) hfin h0 h360
  refine ⟨(rotRoundTrip_spec E _).2.1, hv, ?_, ?_⟩
  · rw [hv]
    have h1 := Int.floor_le (f32Val (pk.get c) / (360 / 256))
    have h2 := Int.lt_floor_add_one (f32Val (pk.get c) / (360 / 256))
    rw [le_div_iff₀ (by norm_num)] at h1
    rw [div_lt_iff₀ (by norm_num)] at h2
    rw [abs_lt]
    constructor <;> linarith
  · intro qk0 qk e hqwf he hqfin hq0 hq360 hle
    rw [roundTrip_rot E hE qk0 qk hqwf e he, hv,
      rot_value_in_period E (qk.get e) hqfin hq0 hq360]
    have hmono : ⌊f32Val (pk.get c) / (360 / 256)⌋ ≤ ⌊f32Val (qk.get e) / (360 / 256)⌋ :=
      Int.floor_mono (div_le_div_of_nonneg_right hle (by norm_num))
    have hmono2 : (⌊f32Val (pk.get c) / (360 / 256)⌋ : ℚ)
        ≤ (⌊f32Val (qk.get e) / (360 / 256)⌋ : ℚ) := by exact_mod_cast hmono
    exact mul_le_mul_of_nonneg_right hmono2 (by norm_num)

theorem C9_angle_quantization_witness :
    stdEnv.RoundTrips ∧
    (⟨300, ⟨0, 0, 0⟩, ⟨0x43B38000, 0, 0⟩⟩ : MoveActorDelta).WF ∧
    Field.rotX.isRot = true ∧ f32IsFinite 0x43B38000 ∧
    (0 : ℚ) ≤ f32Val 0x43B38000 ∧ f32Val 0x43B38000 < 360 ∧
    f32Val ((Unmarshal stdEnv ⟨5, ⟨1, 2, 3⟩, ⟨4, 5, 6⟩⟩
        (Marshal stdEnv ⟨300, ⟨0, 0, 0⟩, ⟨0x43B38000, 0, 0⟩⟩ [])).pk.get Field.rotX)
      = (⌊f32Val 0x43B38000 / (360 / 256)⌋ : ℚ) * (360 / 256) :=
  ⟨stdEnv_roundTrips, by decide, rfl, by decide, by rw [f32Val_359]; norm_num,
    by rw [f32Val_359]; norm_num,
    (C9_angle_quantization stdEnv stdEnv_roundTrips ⟨5, ⟨1, 2, 3⟩, ⟨4, 5, 6⟩⟩
      ⟨300, ⟨0, 0, 0⟩, ⟨0x43B38000, 0, 0⟩⟩ (by decide) Field.rotX rfl (by decide)
      (by show (0 : ℚ) ≤ f32Val 0x43B38000; rw [f32Val_359]; norm_num)
      (by show f32Val 0x43B38000 < 360; rw [f32Val_359]; norm_num)).2.1⟩

/-- C10, amended (range of decoded rotations). With variable-length primitives that
round-trip, for every rotation component, whatever its value, the value obtained by
`Marshal` followed by `Unmarshal` is finite and lies in the closed interval
`[0, 255 * (360/256)]`: it is at least 0 and at most 358.59375. -/
theorem C10_rotation_range (E : Env) (hE : E.RoundTrips) (pk0 pk : MoveActorDelta)
    (hwf : pk.WF) (c : Field) (hc : c.isRot = true) :
    f32IsFinite ((Unmarshal E pk0 (Marshal E pk [])).pk.get c) ∧
    0 ≤ f32Val ((Unmarshal E pk0 (Marshal E pk [])).pk.get c) ∧
    f32Val ((Unmarshal E pk0 (Marshal E pk [])).pk.get c) ≤ 255 * (360 / 256) := by
  rw [roundTrip_rot E hE pk0 pk hwf c hc, f32Val_rotRoundTrip]
  have hb := rotByte_lt E (pk.get c)
  have hb2 : (rotByte E (pk.get c) : ℚ) ≤ 255 := by exact_mod_cast Nat.lt_succ_iff.mp hb
  refine ⟨(rotRoundTrip_spec E _).2.1, by positivity, ?_⟩
  exact mul_le_mul_of_nonneg_right hb2 (by norm_num)

theorem C10_rotation_range_witness :
    stdEnv.RoundTrips ∧
    (⟨300, ⟨0, 0, 0⟩, ⟨0xC2C80000, 0x7FC00000, 0x7F800000⟩⟩ : MoveActorDelta).WF ∧
    Field.rotY.isRot = true ∧
    f32IsFinite ((Unmarshal stdEnv ⟨5, ⟨1, 2, 3⟩, ⟨4, 5, 6⟩⟩
      (Marshal stdEnv ⟨300, ⟨0, 0, 0⟩, ⟨0xC2C80000, 0x7FC00000, 0x7F800000⟩⟩ [])).pk.get
        Field.rotY) ∧
    0 ≤ f32Val ((Unmarshal stdEnv ⟨5, ⟨1, 2, 3⟩, ⟨4, 5, 6⟩⟩
      (Marshal stdEnv ⟨300, ⟨0, 0, 0⟩, ⟨0xC2C80000, 0x7FC00000, 0x7F800000⟩⟩ [])).pk.get
        Field.rotY) ∧
    f32Val ((Unmarshal stdEnv ⟨5, ⟨1, 2, 3⟩, ⟨4, 5, 6⟩⟩
      (Marshal stdEnv ⟨300, ⟨0, 0, 0⟩, ⟨0xC2C80000, 0x7FC00000, 0x7F800000⟩⟩ [])).pk.get
        Field.rotY) ≤ 255 * (360 / 256) :=
  ⟨stdEnv_roundTrips, by decide, rfl,
    C10_rotation_range stdEnv stdEnv_roundTrips _ _ (by decide) Field.rotY rfl⟩

/-- C10 as stated fails: the rotation `359.0` is written as the byte 255 and comes back
as `255 * (360/256) = 358.59375` (pattern `0x43B34C00`), which is not strictly less than
`255 * (360/256)`. -/
theorem C10_counterexample :
    stdEnv.RoundTrips ∧
    (⟨1, ⟨0, 0, 0⟩, ⟨0x43B38000, 0, 0⟩⟩ : MoveActorDelta).WF ∧
    f32Val 0x43B38000 = 359 ∧
    Marshal stdEnv ⟨1, ⟨0, 0, 0⟩, ⟨0x43B38000, 0, 0⟩⟩ [] = [1, 8, 0, 255] ∧
    (Unmarshal stdEnv ⟨1, ⟨0, 0, 0⟩, ⟨0, 0, 0⟩⟩
      (Marshal stdEnv ⟨1, ⟨0, 0, 0⟩, ⟨0x43B38000, 0, 0⟩⟩ [])).pk.DeltaRotation.x
        = 0x43B34C00 ∧
    f32Val 0x43B34C00 = 255 * (360 / 256) ∧
    ¬ (f32Val ((Unmarshal stdEnv ⟨1, ⟨0, 0, 0⟩, ⟨0, 0, 0⟩⟩
      (Marshal stdEnv ⟨1, ⟨0, 0, 0⟩, ⟨0x43B38000, 0, 0⟩⟩ [])).pk.DeltaRotation.x)
        < 255 * (360 / 256)) := by
  have h1 : (Unmarshal stdEnv ⟨1, ⟨0, 0, 0⟩, ⟨0, 0, 0⟩⟩
      (Marshal stdEnv ⟨1, ⟨0, 0, 0⟩, ⟨0x43B38000, 0, 0⟩⟩ [])).pk.DeltaRotation.x
        = 0x43B34C00 := by decide!
  have h2 : f32Val 0x43B34C00 = 255 * (360 / 256) := by
    rw [f32Val_of_sign_zero _ (by decide),
      show f32Mag 0x43B34C00 = 255 * 45 * 2 ^ 144 by decide!]
    norm_num
  refine ⟨stdEnv_roundTrips, by decide, f32Val_359, by decide!, h1, h2, ?_⟩
  rw [h1, h2]
  exact lt_irrefl _

/-- C11 (non-finite position values pass through). With variable-length primitives that
round-trip, for every position component whose pattern is a NaN or an infinity, `Marshal`
sets the flag of the component and writes the varint32 of its pattern, unchanged by the
two reinterpretations, and `Unmarshal` of the output succeeds and rebuilds exactly the
same 32-bit pattern. -/
theorem C11_nonfinite_positions (E : Env) (hE : E.RoundTrips) (pk0 pk : MoveActorDelta)
    (hwf : pk.WF) (c : Field) (hc : c.isRot = false)
    (hnf : f32IsNaN (pk.get c) ∨ f32IsInf (pk.get c)) :
    (marshalFlags pk).testBit c.bit = true ∧
    (∃ pre post,
      Marshal E pk [] = pre ++ E.WriteVarint32 (int32 (Float32bits (pk.get c))) ++ post) ∧
    uint32 (int32 (Float32bits (pk.get c))) = pk.get c ∧
    (Unmarshal E pk0 (Marshal E pk [])).err = false ∧
    (Unmarshal E pk0 (Marshal E pk [])).pk.get c = pk.get c := by
  have hnz : f32NeZero (pk.get c) := by
    rcases hnf with h | h
    · exact f32NeZero_of_exp _ h.1
    · exact f32NeZero_of_exp _ h.1
  refine ⟨(marshalFlags_testBit_field pk c).mpr hnz, Marshal_segment_of_flag E pk c hc hnz,
    uint32_int32 _ (WF_get_lt pk hwf c), ?_, ?_⟩
  · rw [Unmarshal_Marshal_nil E hE pk0 pk hwf.1]
  · rw [roundTrip_pos E hE pk0 pk hwf c hc, if_pos hnz]

theorem C11_nonfinite_positions_witness :
    stdEnv.RoundTrips ∧
    (⟨300, ⟨0x7FC00001, 0xFF800000, 0x7F800000⟩, ⟨0, 0, 0⟩⟩ : MoveActorDelta).WF ∧
    Field.posX.isRot = false ∧ f32IsNaN 0x7FC00001 ∧
    (Unmarshal stdEnv ⟨5, ⟨1, 2, 3⟩, ⟨4, 5, 6⟩⟩ (Marshal stdEnv
      ⟨300, ⟨0x7FC00001, 0xFF800000, 0x7F800000⟩, ⟨0, 0, 0⟩⟩ [])).pk.get Field.posX
        = 0x7FC00001 :=
  ⟨stdEnv_roundTrips, by decide, rfl, by decide,
    (C11_nonfinite_positions stdEnv stdEnv_roundTrips ⟨5, ⟨1, 2, 3⟩, ⟨4, 5, 6⟩⟩
      ⟨300, ⟨0x7FC00001, 0xFF800000, 0x7F800000⟩, ⟨0, 0, 0⟩⟩ (by decide) Field.posX rfl
      (Or.inl (by decide))).2.2.2.2⟩

/-- C12 (minimal frame). For every identifier, `Marshal` of a packet whose six delta
components all compare equal to `0.0` appends exactly the identifier as a varuint64 and
the two flags bytes `0x00 0x00`: `len(varuint64(id)) + 2` bytes and no optional field. -/
theorem C12_minimal_frame (E : Env) (pk : MoveActorDelta) (buf : List Nat)
    (h : ∀ c : Field, ¬ f32NeZero (pk.get c)) :
    marshalFlags pk = 0 ∧
    Marshal E pk buf = buf ++ (E.WriteVaruint64 pk.EntityRuntimeID ++ [0, 0]) ∧
    (Marshal E pk []).length = (E.WriteVaruint64 pk.EntityRuntimeID).length + 2 := by
  have hf := marshalFlags_all_zero pk h
  have hm : ∀ b : List Nat,
      Marshal E pk b = b ++ (E.WriteVaruint64 pk.EntityRuntimeID ++ [0, 0]) := by
    intro b
    rw [Marshal_eq_frame, hf]
    unfold frame
    simp
  refine ⟨hf, hm buf, ?_⟩
  rw [hm []]
  simp

theorem C12_minimal_frame_witness :
    (∀ c : Field, ¬ f32NeZero ((⟨300, ⟨0, 0, 0⟩, ⟨0, 0, 0⟩⟩ : MoveActorDelta).get c)) ∧
    Marshal stdEnv ⟨300, ⟨0, 0, 0⟩, ⟨0, 0, 0⟩⟩ [] = stdEnv.WriteVaruint64 300 ++ [0, 0] ∧
    (Marshal stdEnv ⟨300, ⟨0, 0, 0⟩, ⟨0, 0, 0⟩⟩ []).length
      = (stdEnv.WriteVaruint64 300).length + 2 :=
  have h := C12_minimal_frame stdEnv ⟨300, ⟨0, 0, 0⟩, ⟨0, 0, 0⟩⟩ []
    (fun c => by cases c <;> decide)
  ⟨fun c => by cases c <;> decide, by simpa using h.2.1, h.2.2⟩

/-- C13 (maximal frame). For every packet whose six delta components all compare
different from zero, the flags are `0b111111` and `Marshal` appends exactly
`len(varuint64(id)) + 2 + (the varint32 lengths of the three position patterns) + 3`
bytes. -/
theorem C13_maximal_frame (E : Env) (pk : MoveActorDelta) (buf : List Nat)
    (h : ∀ c : Field, f32NeZero (pk.get c)) :
    marshalFlags pk = 0b111111 ∧
    (Marshal E pk buf).length = buf.length + ((E.WriteVaruint64 pk.EntityRuntimeID).length + 2 +
      ((E.WriteVarint32 (int32 (Float32bits pk.DeltaPosition.x))).length +
       (E.WriteVarint32 (int32 (Float32bits pk.DeltaPosition.y))).length +
       (E.WriteVarint32 (int32 (Float32bits pk.DeltaPosition.z))).length) + 3) := by
  have hf := marshalFlags_all_set pk h
  refine ⟨hf, ?_⟩
  rw [Marshal_eq_frame, hf]
  unfold frame Float32bits
  rw [show Nat.testBit 63 0 = true by decide, show Nat.testBit 63 1 = true by decide,
    show Nat.testBit 63 2 = true by decide, show Nat.testBit 63 3 = true by decide,
    show Nat.testBit 63 4 = true by decide, show Nat.testBit 63 5 = true by decide]
  simp only [optSeg_true, List.length_append, List.length_cons, List.length_nil]
  omega

theorem C13_maximal_frame_witness :
    (∀ c : Field, f32NeZero
      ((⟨300, ⟨0x3FC00000, 1, 0xBF800000⟩, ⟨0x43B38000, 0x7FC00000, 0x3F800000⟩⟩
        : MoveActorDelta).get c)) ∧
    (Marshal stdEnv ⟨300, ⟨0x3FC00000, 1, 0xBF800000⟩,
      ⟨0x43B38000, 0x7FC00000, 0x3F800000⟩⟩ []).length = 2 + 2 + (5 + 1 + 5) + 3 :=
  have h := C13_maximal_frame stdEnv ⟨300, ⟨0x3FC00000, 1, 0xBF800000⟩,
      ⟨0x43B38000, 0x7FC00000, 0x3F800000⟩⟩ [] (fun c => by cases c <;> decide)
  ⟨fun c => by cases c <;> decide, by simpa using h.2⟩

/-- C14 (worked example). `Marshal` of the packet with identifier 1, position
`(1.5, 0, 0)` and rotation `(0, 0, 0)` writes the varuint64 of 1, the flags `0b000001`
as the bytes `0x01 0x00`, one varint32 of `0x3FC00000`, the pattern of `float32(1.5)`
seen as an int32, and no rotation byte; with the zig-zag variable-length integers the
output is `01 01 00 80 80 80 FC 07`, and `Unmarshal` of these bytes rebuilds the packet. -/
theorem C14_worked_example (E : Env) (hE : E.RoundTrips) (pk0 : MoveActorDelta) :
    f32Val 0x3FC00000 = 3 / 2 ∧
    marshalFlags ⟨1, ⟨0x3FC00000, 0, 0⟩, ⟨0, 0, 0⟩⟩ = 0b000001 ∧
    int32 (Float32bits 0x3FC00000) = 0x3FC00000 ∧
    Marshal E ⟨1, ⟨0x3FC00000, 0, 0⟩, ⟨0, 0, 0⟩⟩ []
      = E.WriteVaruint64 1 ++ ([0x01, 0x00] ++ E.WriteVarint32 0x3FC00000) ∧
    (Unmarshal E pk0 (Marshal E ⟨1, ⟨0x3FC00000, 0, 0⟩, ⟨0, 0, 0⟩⟩ [])).err = false ∧
    (Unmarshal E pk0 (Marshal E ⟨1, ⟨0x3FC00000, 0, 0⟩, ⟨0, 0, 0⟩⟩ [])).pk
      = ⟨1, ⟨0x3FC00000, 0, 0⟩, ⟨0, 0, 0⟩⟩ ∧
    Marshal stdEnv ⟨1, ⟨0x3FC00000, 0, 0⟩, ⟨0, 0, 0⟩⟩ []
      = [0x01, 0x01, 0x00, 0x80, 0x80, 0x80, 0xFC, 0x07] ∧
    (Unmarshal stdEnv pk0 [0x01, 0x01, 0x00, 0x80, 0x80, 0x80, 0xFC, 0x07]).err = false ∧
    (Unmarshal stdEnv pk0 [0x01, 0x01, 0x00, 0x80, 0x80, 0x80, 0xFC, 0x07]).buf = [] ∧
    (Unmarshal stdEnv pk0 [0x01, 0x01, 0x00, 0x80, 0x80, 0x80, 0xFC, 0x07]).pk
      = ⟨1, ⟨0x3FC00000, 0, 0⟩, ⟨0, 0, 0⟩⟩ := by
  have hflags : marshalFlags ⟨1, ⟨0x3FC00000, 0, 0⟩, ⟨0, 0, 0⟩⟩ = 1 := by decide
  have hint : int32 (Float32bits 0x3FC00000) = 0x3FC00000 := by decide
  have hval : f32Val 0x3FC00000 = 3 / 2 := by
    rw [f32Val_of_sign_zero _ (by decide), show f32Mag 0x3FC00000 = 3 * 2 ^ 148 by decide!]
    norm_num
  have hm : ∀ F : Env, Marshal F ⟨1, ⟨0x3FC00000, 0, 0⟩, ⟨0, 0, 0⟩⟩ []
      = F.WriteVaruint64 1 ++ ([0x01, 0x00] ++ F.WriteVarint32 0x3FC00000) := by
    intro F
    rw [Marshal_eq_frame, hflags]
    unfold frame
    simp only [List.nil_append]
    rw [show Nat.testBit 1 0 = true by decide, show Nat.testBit 1 1 = false by decide,
      show Nat.testBit 1 2 = false by decide, show Nat.testBit 1 3 = false by decide,
      show Nat.testBit 1 4 = false by decide, show Nat.testBit 1 5 = false by decide]
    simp only [optSeg_true, optSeg_false, List.append_nil]
    rfl
  have hu : ∀ (F : Env), F.RoundTrips →
      Unmarshal F pk0 (Marshal F ⟨1, ⟨0x3FC00000, 0, 0⟩, ⟨0, 0, 0⟩⟩ [])
        = ⟨false, ⟨1, ⟨0x3FC00000, 0, 0⟩, ⟨0, 0, 0⟩⟩, [], [Field.posX]⟩ := by
    intro F hF
    rw [Unmarshal_Marshal_nil F hF pk0 _ (by decide), hflags]
    simp only [framePosition, frameRotation, frameFields,
      show Nat.testBit 1 0 = true by decide, show Nat.testBit 1 1 = false by decide,
      show Nat.testBit 1 2 = false by decide, show Nat.testBit 1 3 = false by decide,
      show Nat.testBit 1 4 = false by decide, show Nat.testBit 1 5 = false by decide,
      if_true, Bool.false_eq_true, if_false, optField_true, optField_false, Float32frombits,
      List.append_nil, show uint32 (int32 0x3FC00000) = 0x3FC00000 by decide]
  have hstd : Marshal stdEnv ⟨1, ⟨0x3FC00000, 0, 0⟩, ⟨0, 0, 0⟩⟩ []
      = [0x01, 0x01, 0x00, 0x80, 0x80, 0x80, 0xFC, 0x07] := by decide!
  have hus := hu stdEnv stdEnv_roundTrips
  rw [hstd] at hus
  refine ⟨hval, hflags, hint, hm E, ?_, ?_, hstd, ?_, ?_, ?_⟩
  · rw [hu E hE]
  · rw [hu E hE]
  · rw [hus]
  · rw [hus]
  · rw [hus]

theorem C14_worked_example_witness :
    stdEnv.RoundTrips ∧
    Marshal stdEnv ⟨1, ⟨0x3FC00000, 0, 0⟩, ⟨0, 0, 0⟩⟩ []
      = [0x01, 0x01, 0x00, 0x80, 0x80, 0x80, 0xFC, 0x07] ∧
    (Unmarshal stdEnv ⟨9, ⟨1, 2, 3⟩, ⟨4, 5, 6⟩⟩
      [0x01, 0x01, 0x00, 0x80, 0x80, 0x80, 0xFC, 0x07]).pk
        = ⟨1, ⟨0x3FC00000, 0, 0⟩, ⟨0, 0, 0⟩⟩ :=
  have h := C14_worked_example stdEnv stdEnv_roundTrips ⟨9, ⟨1, 2, 3⟩, ⟨4, 5, 6⟩⟩
  ⟨stdEnv_roundTrips, h.2.2.2.2.2.2.1, h.2.2.2.2.2.2.2.2.2⟩

/-- C15 (round trip of OnScreenTextureAnimation). For every int32 animation type,
`Marshal` keeps the buffer and appends exactly four bytes, the little-endian
two-complement representation of the value (for -7: `F9 FF FF FF`), and `Unmarshal` of
those four bytes succeeds, leaves nothing unread and rebuilds the same animation type. -/
theorem C15_animation_round_trip (pk0 : OnScreenTextureAnimation) (v : Int) (hv : IsInt32 v)
    (buf : List Nat) :
    (∃ b0 b1 b2 b3 : Nat,
      OnScreenTextureAnimation.Marshal ⟨v⟩ buf = buf ++ [b0, b1, b2, b3] ∧
      b0 < 256 ∧ b1 < 256 ∧ b2 < 256 ∧ b3 < 256 ∧
      ((b0 + 256 * b1 + 256 ^ 2 * b2 + 256 ^ 3 * b3 : Nat) : Int) = v % 2 ^ 32) ∧
    (OnScreenTextureAnimation.Marshal ⟨v⟩ []).length = 4 ∧
    OnScreenTextureAnimation.Marshal ⟨-7⟩ [] = [0xF9, 0xFF, 0xFF, 0xFF] ∧
    (OnScreenTextureAnimation.Unmarshal pk0 (OnScreenTextureAnimation.Marshal ⟨v⟩ [])).err
      = false ∧
    (OnScreenTextureAnimation.Unmarshal pk0 (OnScreenTextureAnimation.Marshal ⟨v⟩ [])).buf
      = [] ∧
    (OnScreenTextureAnimation.Unmarshal pk0 (OnScreenTextureAnimation.Marshal ⟨v⟩ [])).pk
      = ⟨v⟩ := by
  have hu := uint32_lt v
  have hsum : uint32 v % 256 + uint32 v / 2 ^ 8 % 256 * 2 ^ 8 + uint32 v / 2 ^ 16 % 256 * 2 ^ 16
      + uint32 v / 2 ^ 24 % 256 * 2 ^ 24 = uint32 v := by omega
  have hdec : OnScreenTextureAnimation.Unmarshal pk0 (OnScreenTextureAnimation.Marshal ⟨v⟩ [])
      = ⟨false, ⟨v⟩, []⟩ := by
    unfold OnScreenTextureAnimation.Unmarshal OnScreenTextureAnimation.Marshal binaryWriteInt32
      binaryReadInt32
    simp only [List.nil_append, hsum, int32_uint32 v hv]
  refine ⟨⟨uint32 v % 256, uint32 v / 2 ^ 8 % 256, uint32 v / 2 ^ 16 % 256,
    uint32 v / 2 ^ 24 % 256, rfl, by omega, by omega, by omega, by omega, ?_⟩,
    rfl, by decide, ?_, ?_, ?_⟩
  · have hs2 : uint32 v % 256 + 256 * (uint32 v / 2 ^ 8 % 256)
        + 256 ^ 2 * (uint32 v / 2 ^ 16 % 256) + 256 ^ 3 * (uint32 v / 2 ^ 24 % 256)
        = uint32 v := by omega
    rw [hs2]
    unfold uint32
    omega
  · rw [hdec]
  · rw [hdec]
  · rw [hdec]

theorem C15_animation_round_trip_witness :
    IsInt32 (-7) ∧
    OnScreenTextureAnimation.Marshal ⟨-7⟩ [] = [0xF9, 0xFF, 0xFF, 0xFF] ∧
    (OnScreenTextureAnimation.Unmarshal ⟨3⟩ (OnScreenTextureAnimation.Marshal ⟨-7⟩ [])).pk
      = ⟨-7⟩ :=
  have h := C15_animation_round_trip ⟨3⟩ (-7) (by decide) []
  ⟨by decide, h.2.2.1, h.2.2.2.2.2⟩

/-- C16 (OnScreenTextureAnimation.Unmarshal and the length of the buffer). `Unmarshal`
succeeds exactly when the buffer holds at least four unread bytes; it then takes the
first four bytes, low byte first, as the animation type and leaves the rest unread; on a
buffer of 0 to 3 bytes it returns an error. -/
theorem C16_animation_unmarshal_length (pk0 : OnScreenTextureAnimation) (buf : List Nat) :
    ((OnScreenTextureAnimation.Unmarshal pk0 buf).err = false ↔ 4 ≤ buf.length) ∧
    (4 ≤ buf.length → ∃ b0 b1 b2 b3 : Nat,
      buf = [b0, b1, b2, b3] ++ (OnScreenTextureAnimation.Unmarshal pk0 buf).buf ∧
      (OnScreenTextureAnimation.Unmarshal pk0 buf).pk.AnimationType
        = int32 (b0 + b1 * 2 ^ 8 + b2 * 2 ^ 16 + b3 * 2 ^ 24)) ∧
    (buf.length ≤ 3 → (OnScreenTextureAnimation.Unmarshal pk0 buf).err = true) := by
  unfold OnScreenTextureAnimation.Unmarshal
  match buf with
  | [] => simp [binaryReadInt32]
  | [_] => simp [binaryReadInt32]
  | [_, _] => simp [binaryReadInt32]
  | [_, _, _] => simp [binaryReadInt32]
  | b0 :: b1 :: b2 :: b3 :: rest =>
    refine ⟨by simp [binaryReadInt32], fun _ => ⟨b0, b1, b2, b3, rfl, rfl⟩, ?_⟩
    intro h
    simp only [List.length_cons] at h
    omega

/-- C17 (normalisation is idempotent). With variable-length primitives that round-trip,
writing `N(p)` for the packet `Unmarshal` yields on what `Marshal` wrote for `p`, for
every packet whose rotation components are finite with `0 ≤ d < 360` and whose position
components are arbitrary, `N(N(p)) = N(p)`, the second decoding succeeding as well; each
rotation of `N(p)` that is not zero is written again as the byte it was decoded from. -/
theorem C17_normalisation_idempotent (E : Env) (hE : E.RoundTrips)
    (pk0 pk1 pk : MoveActorDelta) (hwf : pk.WF)
    (_hrot : ∀ c : Field, c.isRot = true →
      f32IsFinite (pk.get c) ∧ 0 ≤ f32Val (pk.get c) ∧ f32Val (pk.get c) < 360) :
    (Unmarshal E pk1 (Marshal E (Unmarshal E pk0 (Marshal E pk [])).pk [])).err = false ∧
    (Unmarshal E pk1 (Marshal E (Unmarshal E pk0 (Marshal E pk [])).pk [])).pk
      = (Unmarshal E pk0 (Marshal E pk [])).pk ∧
    (∀ c : Field, c.isRot = true →
      f32NeZero ((Unmarshal E pk0 (Marshal E pk [])).pk.get c) →
      quantize E ((Unmarshal E pk0 (Marshal E pk [])).pk.get c) = quantize E (pk.get c)) := by
  refine ⟨?_, roundTrip_idem E hE pk0 pk1 pk hwf, ?_⟩
  · rw [Unmarshal_Marshal_nil E hE pk1 _ (roundTrip_WF E hE pk0 pk hwf).1]
  · intro c hc
    rw [roundTrip_rot E hE pk0 pk hwf c hc]
    exact fun h => ((rotRoundTrip_idem E _).2 h).2

theorem C17_normalisation_idempotent_witness :
    stdEnv.RoundTrips ∧
    (⟨300, ⟨0x3FC00000, 0x80000000, 0x7FC00001⟩, ⟨0x43B38000, 0, 0x3F800000⟩⟩
      : MoveActorDelta).WF ∧
    (∀ c : Field, c.isRot = true →
      f32IsFinite ((⟨300, ⟨0x3FC00000, 0x80000000, 0x7FC00001⟩,
        ⟨0x43B38000, 0, 0x3F800000⟩⟩ : MoveActorDelta).get c) ∧
      0 ≤ f32Val ((⟨300, ⟨0x3FC00000, 0x80000000, 0x7FC00001⟩,
        ⟨0x43B38000, 0, 0x3F800000⟩⟩ : MoveActorDelta).get c) ∧
      f32Val ((⟨300, ⟨0x3FC00000, 0x80000000, 0x7FC00001⟩,
        ⟨0x43B38000, 0, 0x3F800000⟩⟩ : MoveActorDelta).get c) < 360) ∧
    (Unmarshal stdEnv ⟨6, ⟨0, 0, 0⟩, ⟨0, 0, 0⟩⟩ (Marshal stdEnv
      (Unmarshal stdEnv ⟨5, ⟨1, 2, 3⟩, ⟨4, 5, 6⟩⟩ (Marshal stdEnv
        ⟨300, ⟨0x3FC00000, 0x80000000, 0x7FC00001⟩, ⟨0x43B38000, 0, 0x3F800000⟩⟩ [])).pk [])).pk
      = (Unmarshal stdEnv ⟨5, ⟨1, 2, 3⟩, ⟨4, 5, 6⟩⟩ (Marshal stdEnv
        ⟨300, ⟨0x3FC00000, 0x80000000, 0x7FC00001⟩, ⟨0x43B38000, 0, 0x3F800000⟩⟩ [])).pk :=
  have hrot : ∀ c : Field, c.isRot = true →
      f32IsFinite ((⟨300, ⟨0x3FC00000, 0x80000000, 0x7FC00001⟩,
        ⟨0x43B38000, 0, 0x3F800000⟩⟩ : MoveActorDelta).get c) ∧
      0 ≤ f32Val ((⟨300, ⟨0x3FC00000, 0x80000000, 0x7FC00001⟩,
        ⟨0x43B38000, 0, 0x3F800000⟩⟩ : MoveActorDelta).get c) ∧
      f32Val ((⟨300, ⟨0x3FC00000, 0x80000000, 0x7FC00001⟩,
        ⟨0x43B38000, 0, 0x3F800000⟩⟩ : MoveActorDelta).get c) < 360 := by
    intro c hc
    cases c
    · exact absurd hc (by decide)
    · exact absurd hc (by decide)
    · exact absurd hc (by decide)
    · refine ⟨by decide, ?_, ?_⟩ <;>
        (show _ ; simp only [MoveActorDelta.get]; rw [f32Val_359]; norm_num)
    · refine ⟨by decide, ?_, ?_⟩ <;>
        (show _ ; simp only [MoveActorDelta.get]; rw [f32Val_zero] <;> norm_num)
    · refine ⟨by decide, ?_, ?_⟩ <;>
        (show _ ; simp only [MoveActorDelta.get]; rw [f32Val_one]; norm_num)
  ⟨stdEnv_roundTrips, by decide, hrot,
    (C17_normalisation_idempotent stdEnv stdEnv_roundTrips ⟨5, ⟨1, 2, 3⟩, ⟨4, 5, 6⟩⟩
      ⟨6, ⟨0, 0, 0⟩, ⟨0, 0, 0⟩⟩ _ (by decide) hrot).2.1⟩

/-- C18 (small rotations are flagged but decode to zero). With variable-length primitives
that round-trip, for every packet with a rotation component `d`, finite with
`0 < d < 360/256`: `Marshal` sets the flag of the component and writes the byte `0x00` for
it; `Unmarshal` of the output yields `0.0` for the component; `Marshal` of the decoded
packet leaves the flag clear and writes no byte for it, and its output is strictly shorter
than what `Marshal` wrote for the original packet. -/
theorem C18_small_rotation (E : Env) (hE : E.RoundTrips) (pk0 pk : MoveActorDelta)
    (hwf : pk.WF) (c : Field) (hc : c.isRot = true) (hfin : f32IsFinite (pk.get c))
    (hpos : 0 < f32Val (pk.get c)) (hsmall : f32Val (pk.get c) < 360 / 256) :
    (marshalFlags pk).testBit c.bit = true ∧
    quantize E (pk.get c) = 0x00 ∧
    segLen E c (pk.get c) = 1 ∧
    (Unmarshal E pk0 (Marshal E pk [])).pk.get c = 0 ∧
    (marshalFlags (Unmarshal E pk0 (Marshal E pk [])).pk).testBit c.bit = false ∧
    segLen E c ((Unmarshal E pk0 (Marshal E pk [])).pk.get c) = 0 ∧
    (Marshal E (Unmarshal E pk0 (Marshal E pk [])).pk []).length
      < (Marshal E pk []).length := by
  have hnz : f32NeZero (pk.get c) := by
    by_contra h
    have hm := (f32Mag_eq_zero_iff _).mpr h
    have : f32Val (pk.get c) = 0 := by
      unfold f32Val f32Units
      rw [hm]; simp
    rw [this] at hpos
    exact lt_irrefl _ hpos
  have hq : quantize E (pk.get c) = 0 := by
    have hb := rotByte_eq_floor E (pk.get c) hfin (le_of_lt hpos) (by linarith)
    have hfl : ⌊f32Val (pk.get c) / (360 / 256)⌋ = 0 := by
      rw [Int.floor_eq_iff]
      constructor
      · simp only [Int.cast_zero]; positivity
      · rw [div_lt_iff₀ (by norm_num)]; simp only [Int.cast_zero]; linarith
    rw [hfl] at hb
    unfold rotByte at hb
    rw [if_pos hnz] at hb
    exact_mod_cast hb
  have hN : (Unmarshal E pk0 (Marshal E pk [])).pk.get c = 0 := by
    rw [roundTrip_rot E hE pk0 pk hwf c hc, rotRoundTrip_eq, if_pos hnz, hq]
    decide!
  have hseg1 : segLen E c (pk.get c) = 1 := by
    unfold segLen; rw [if_pos hnz, hc]; rfl
  have hseg00 : segLen E c 0 = 0 := by
    unfold segLen; exact if_neg (by decide)
  have hseg0 : segLen E c ((Unmarshal E pk0 (Marshal E pk [])).pk.get c) = 0 :=
    hN.symm ▸ hseg00
  have hle : ∀ e : Field, segLen E e ((Unmarshal E pk0 (Marshal E pk [])).pk.get e)
      ≤ segLen E e (pk.get e) := by
    intro e
    rw [roundTrip_normalize E hE pk0 pk hwf e]
    exact segLen_normalize_le E e _
  refine ⟨(marshalFlags_testBit_field pk c).mpr hnz, hq, hseg1, hN, ?_, hseg0, ?_⟩
  · cases hb : (marshalFlags (Unmarshal E pk0 (Marshal E pk [])).pk).testBit c.bit
    · rfl
    · have := (marshalFlags_testBit_field _ c).mp hb
      rw [hN] at this
      exact absurd this (by decide)
  · rw [Marshal_length, Marshal_length, roundTrip_id E hE pk0 pk hwf]
    have l0 := hle Field.posX
    have l1 := hle Field.posY
    have l2 := hle Field.posZ
    have l3 := hle Field.rotX
    have l4 := hle Field.rotY
    have l5 := hle Field.rotZ
    cases c
    · exact absurd hc (by decide)
    · exact absurd hc (by decide)
    · exact absurd hc (by decide)
    · omega
    · omega
    · omega

theorem C18_small_rotation_witness :
    stdEnv.RoundTrips ∧
    (⟨300, ⟨0, 0, 0⟩, ⟨0, 0x3F800000, 0⟩⟩ : MoveActorDelta).WF ∧
    Field.rotY.isRot = true ∧ f32IsFinite 0x3F800000 ∧
    (0 : ℚ) < f32Val 0x3F800000 ∧ f32Val 0x3F800000 < 360 / 256 ∧
    (Marshal stdEnv (Unmarshal stdEnv ⟨5, ⟨1, 2, 3⟩, ⟨4, 5, 6⟩⟩
        (Marshal stdEnv ⟨300, ⟨0, 0, 0⟩, ⟨0, 0x3F800000, 0⟩⟩ [])).pk []).length
      < (Marshal stdEnv ⟨300, ⟨0, 0, 0⟩, ⟨0, 0x3F800000, 0⟩⟩ []).length :=
  ⟨stdEnv_roundTrips, by decide, rfl, by decide, by rw [f32Val_one]; norm_num,
    by rw [f32Val_one]; norm_num,
    (C18_small_rotation stdEnv stdEnv_roundTrips ⟨5, ⟨1, 2, 3⟩, ⟨4, 5, 6⟩⟩
      ⟨300, ⟨0, 0, 0⟩, ⟨0, 0x3F800000, 0⟩⟩ (by decide) Field.rotY rfl (by decide)
      (by show (0 : ℚ) < f32Val 0x3F800000; rw [f32Val_one]; norm_num)
      (by show f32Val 0x3F800000 < 360 / 256; rw [f32Val_one]; norm_num)).2.2.2.2.2.2⟩

/-- C19 (negative zero is treated as absent). For every packet and every delta component
of it that is `+0.0`, replacing that component by `-0.0` (pattern `0x80000000`) leaves the
output of `Marshal` identical byte for byte: `-0.0 != 0` is false, the flag stays clear
and nothing is written for the component; and `Unmarshal` of that output yields `+0.0`
(pattern `0x00000000`) for the component. -/
theorem C19_negative_zero_absent (E : Env) (hE : E.RoundTrips) (pk0 pk : MoveActorDelta)
    (hwf : pk.WF) (c : Field) (hz : pk.get c = 0) (buf : List Nat) :
    (pk.set c 0x80000000).get c = 0x80000000 ∧
    ¬ f32NeZero 0x80000000 ∧
    (marshalFlags (pk.set c 0x80000000)).testBit c.bit = false ∧
    Marshal E (pk.set c 0x80000000) buf = Marshal E pk buf ∧
    (Unmarshal E pk0 (Marshal E (pk.set c 0x80000000) [])).err = false ∧
    (Unmarshal E pk0 (Marshal E (pk.set c 0x80000000) [])).pk.get c = 0 := by
  have hget : (pk.set c 0x80000000).get c = 0x80000000 := by cases c <;> rfl
  have hn : ¬ f32NeZero 0x80000000 := by decide
  refine ⟨hget, hn, ?_, Marshal_set_negative_zero E pk c hz buf, ?_, ?_⟩
  · cases hb : (marshalFlags (pk.set c 0x80000000)).testBit c.bit
    · rfl
    · have := (marshalFlags_testBit_field (pk.set c 0x80000000) c).mp hb
      rw [hget] at this
      exact absurd this hn
  · rw [Marshal_set_negative_zero E pk c hz, Unmarshal_Marshal_nil E hE pk0 pk hwf.1]
  · have h := roundTrip_get E hE pk0 pk [] hwf c
    rw [List.append_nil] at h
    rw [Marshal_set_negative_zero E pk c hz, h, hz, if_neg (by decide)]

theorem C19_negative_zero_absent_witness :
    stdEnv.RoundTrips ∧
    (⟨300, ⟨0x3FC00000, 0, 0xBF800000⟩, ⟨0x43B38000, 0, 0⟩⟩ : MoveActorDelta).WF ∧
    (⟨300, ⟨0x3FC00000, 0, 0xBF800000⟩, ⟨0x43B38000, 0, 0⟩⟩ : MoveActorDelta).get Field.rotY
      = 0 ∧
    Marshal stdEnv ⟨300, ⟨0x3FC00000, 0, 0xBF800000⟩, ⟨0x43B38000, 0x80000000, 0⟩⟩ []
      = Marshal stdEnv ⟨300, ⟨0x3FC00000, 0, 0xBF800000⟩, ⟨0x43B38000, 0, 0⟩⟩ [] ∧
    (Unmarshal stdEnv ⟨5, ⟨1, 2, 3⟩, ⟨4, 5, 6⟩⟩ (Marshal stdEnv
      ⟨300, ⟨0x3FC00000, 0, 0xBF800000⟩, ⟨0x43B38000, 0x80000000, 0⟩⟩ [])).pk.DeltaRotation.y
        = 0 :=
  have h := C19_negative_zero_absent stdEnv stdEnv_roundTrips ⟨5, ⟨1, 2, 3⟩, ⟨4, 5, 6⟩⟩
    ⟨300, ⟨0x3FC00000, 0, 0xBF800000⟩, ⟨0x43B38000, 0, 0⟩⟩ (by decide) Field.rotY rfl []
  ⟨stdEnv_roundTrips, by decide, rfl, h.2.2.2.1, h.2.2.2.2.2⟩

/-- C20 (reserved flag bits are never emitted). For every packet the flags word that
`Marshal` writes is less than 64, bits 6..15 being clear, so that the two flags bytes on
the wire are the flags word itself followed by `0x00`. -/
theorem C20_reserved_bits_clear (E : Env) (pk : MoveActorDelta) (buf : List Nat) :
    marshalFlags pk < 64 ∧
    (∀ i : Nat, 6 ≤ i → (marshalFlags pk).testBit i = false) ∧
    (∃ tail, Marshal E pk buf = buf ++ (E.WriteVaruint64 pk.EntityRuntimeID ++
        ([marshalFlags pk, 0x00] ++ tail))) := by
  have hlt := marshalFlags_lt pk
  refine ⟨hlt, ?_, ?_⟩
  · intro i hi
    apply Nat.testBit_lt_two_pow
    exact lt_of_lt_of_le hlt (by
      calc 64 = 2 ^ 6 := by norm_num
        _ ≤ 2 ^ i := Nat.pow_le_pow_right (by norm_num) hi)
  · rw [Marshal_eq_frame]
    unfold frame
    rw [show marshalFlags pk % 256 = marshalFlags pk by omega,
      show marshalFlags pk / 256 % 256 = 0 by omega]
    exact ⟨_, rfl⟩

end packet
